import Mathlib

/-!
# Verification of the MongoDB query-translation layer

This development embeds the translation layer of `MongoDBLibrary/mongoquery.py`:
the permissive literal parser `pythonish_to_json_dict`, the `_id` identifier
normalization, the projection builder inside
`retrieve_mongodb_records_with_desired_fields`, and the result serializer tail
of `_retrieve_mongodb_records`.  Machine text is modelled as `List Char`;
Python/JSON values as the `Value` tree below.  Standard-library behaviour the
source delegates to (`re.sub` with `\b` word boundaries, `ast.literal_eval`,
`json.dumps`/`json.loads`, `bson.ObjectId`) is modelled from the specification,
restricted to the documented grammar: ASCII word characters; signed integer
and floating numbers (a floating number is kept as the exact decimal it
denotes); strings in either quote style with quote and backslash escapes,
plus `\xHH` character escapes in Python literals.
-/

/-- Canonical value tree produced by the literal parser (spec section 3).
The spec's Number type is "integer or floating"; a floating number is
modelled as the exact decimal `m × 10 ^ e` it denotes, kept in the canonical
form where a nonzero significand is not divisible by ten (and zero carries
exponent zero), so that equal decimals have equal representations.  `oid` is
the `DocumentId` wrapper created by the identifier normalizer; it is never
produced by parsing. -/
inductive Value where
  | null : Value
  | bool (b : Bool) : Value
  | int (n : Int) : Value
  | float (m : Int) (e : Int) : Value
  | str (s : String) : Value
  | arr (xs : List Value) : Value
  | dict (kvs : List (String × Value)) : Value
  | oid (token : String) : Value

/-- Ordered-dict assignment `d[k] = v`: an existing key keeps its position and
gets the new value; a new key is appended (CPython dict semantics). -/
def dictSet {α : Type} (d : List (String × α)) (k : String) (v : α) :
    List (String × α) :=
  if d.any (fun p => p.1 = k) then
    d.map (fun p => if p.1 = k then (k, v) else p)
  else d ++ [(k, v)]

/-- Build an ordered dict from a pair list by successive assignment. -/
def mkDict {α : Type} (ps : List (String × α)) : List (String × α) :=
  ps.foldl (fun d p => dictSet d p.1 p.2) []

/-- First value stored under key `k`. -/
def lookupKey {α : Type} (d : List (String × α)) (k : String) : Option α :=
  (d.find? (fun p => p.1 = k)).map (fun p => p.2)

/-! ## Projection builder

Embeds the body of `retrieve_mongodb_records_with_desired_fields`
(mongoquery.py lines 326-353): the loose coercion of `return__id`, the
space removal and comma split of `fields`, and the ordered projection dict. -/

/-- A loosely-typed flag: Robot Framework hands the keyword either an actual
boolean or a text token. -/
inductive FlagVal where
  | b (x : Bool) : FlagVal
  | s (x : String) : FlagVal
deriving DecidableEq, Repr

/-- Python `str.isdigit` for decimal digits: nonempty and all digits. -/
def pyIsdigit (s : String) : Bool :=
  !s.data.isEmpty && s.data.all Char.isDigit

/-- Python `str.lower` (ASCII case mapping). -/
def pyToLower (s : String) : String :=
  String.mk (s.data.map Char.toLower)

/-- The `return__id` coercion (lines 327-337): a boolean raises
`AttributeError` on `.isdigit()` and passes through; a digit string passes
through unchanged; any other string maps to `False` exactly when it lowercases
to `"false"`, else to `True`. -/
def coerce_return_id (f : FlagVal) : FlagVal :=
  match f with
  | .b x => .b x
  | .s x =>
    if pyIsdigit x then .s x
    else if pyToLower x = "false" then .b false
    else .b true

/-- Python truthiness of the coerced flag: a bool is itself, a string is
truthy when nonempty. -/
def flagTruthy (f : FlagVal) : Bool :=
  match f with
  | .b x => x
  | .s x => !x.data.isEmpty

/-- `fields.replace(' ', '')`: every space character is removed. -/
def removeSpaces (s : String) : String :=
  String.mk (s.data.filter (fun c => c ≠ ' '))

/-- Split a character list at every occurrence of `sep` (Python
`str.split(sep)` for a one-character separator): adjacent separators and
separators at the ends produce empty pieces. -/
def splitChar (sep : Char) (l : List Char) : List (List Char) :=
  l.foldr (fun c acc =>
    match acc with
    | [] => if c = sep then [[], []] else [[c]]
    | cur :: rest => if c = sep then [] :: cur :: rest else (c :: cur) :: rest)
    [[]]

/-- `fields.split(',')`. -/
def pySplitComma (s : String) : List String :=
  (splitChar ',' s.data).map String.mk

/-- The projection builder (lines 326-353).  `fields` nonempty: remove all
spaces, split on commas, assign each item `True` in order, then assign the
`_id` entry from the coerced flag; the defensive third branch mirrors the
`raise Exception('Not a boolean value for return__id: ...')` in the source.
Empty `fields` yields the empty projection (the source's `data = []`). -/
def build_projection (fields : String) (return_id : FlagVal) :
    Except String (List (String × Bool)) :=
  let rid := coerce_return_id return_id
  if fields ≠ "" then
    let items := pySplitComma (removeSpaces fields)
    let data := items.foldl (fun d it => dictSet d it true) []
    if flagTruthy rid then .ok (dictSet data "_id" true)
    else if !flagTruthy rid then .ok (dictSet data "_id" false)
    else .error ("Not a boolean value for return__id")
  else .ok []

/-! ## Identifier normalizer

Embeds the `_id` handling of `_retrieve_mongodb_records` (lines 364-366):
`if '_id' in criteria: criteria['_id'] = ObjectId(criteria['_id'])`. -/

/-- Hexadecimal character. -/
def isHexChar (c : Char) : Bool :=
  c.isDigit || ('a' ≤ c && c ≤ 'f') || ('A' ≤ c && c ≤ 'F')

/-- A well-formed ObjectId token: exactly 24 hexadecimal characters. -/
def isValidObjectId (s : String) : Bool :=
  s.data.length = 24 && s.data.all isHexChar

/-- Modelled from the spec: `bson.ObjectId` construction succeeds exactly on a
string value of 24 hexadecimal characters, wrapping that token as a
`DocumentId`; any other value fails (spec section 3, DocumentId invariant). -/
def objectIdOf (v : Value) : Option Value :=
  match v with
  | .str s => if isValidObjectId s then some (.oid s) else none
  | _ => none

/-- The identifier normalizer: rewrite the `_id` entry in place, fail on a
malformed identifier value, and return the document unchanged when the key is
absent. -/
def normalize_identifier (doc : List (String × Value)) :
    Except String (List (String × Value)) :=
  match lookupKey doc "_id" with
  | none => .ok doc
  | some v =>
    match objectIdOf v with
    | some w => .ok (dictSet doc "_id" w)
    | none => .error "IdentifierError: invalid ObjectId value"

/-! ## Decimal rendering of numbers -/

/-- The decimal digit character for a value below ten. -/
def digitCharTen (n : Nat) : Char :=
  Char.ofNat (48 + n)

/-- Decimal rendering of a natural number (fuel bounds the digit count). -/
def natCharsAux : Nat → Nat → List Char
  | 0, _ => []
  | fuel + 1, n =>
    if n < 10 then [digitCharTen n]
    else natCharsAux fuel (n / 10) ++ [digitCharTen (n % 10)]

/-- Decimal rendering of a natural number. -/
def natChars (n : Nat) : List Char :=
  natCharsAux (n + 1) n

/-- Decimal rendering of an integer. -/
def intChars (n : Int) : List Char :=
  if n < 0 then '-' :: natChars n.natAbs else natChars n.natAbs

/-- Plain decimal rendering of the nonnegative floating number `m × 10 ^ e`:
the digits with the decimal point inserted at the right place, padding with
zeros so that both sides of the point are nonempty. -/
def floatCharsN (m : Nat) (e : Int) : List Char :=
  if 0 ≤ e then natChars m ++ List.replicate e.toNat '0' ++ ['.', '0']
  else
    let D := natChars m
    let p := (-e).toNat
    if p < D.length then D.take (D.length - p) ++ '.' :: D.drop (D.length - p)
    else '0' :: '.' :: (List.replicate (p - D.length) '0' ++ D)

/-- Decimal rendering of the floating number `m × 10 ^ e`. -/
def floatChars (m : Int) (e : Int) : List Char :=
  if m < 0 then '-' :: floatCharsN m.natAbs e else floatCharsN m.natAbs e

/-! ## Result serializer

Embeds the tail of `_retrieve_mongodb_records` (lines 377-383): structured
mode returns the records; raw mode folds `response = '%s%s' % (response,
d.items())` over the records. -/

/-- Python `repr` of a string, restricted to the quote-selection rule:
single quotes by default, double quotes when the text contains a single quote
but no double quote; the quote character and backslashes are escaped. -/
def pyReprStr (s : String) : String :=
  let q : Char := if s.data.contains '\x27' && !s.data.contains '"' then '"' else '\x27'
  String.mk (q :: s.data.foldr
    (fun c acc => if c = q || c = '\\' then '\\' :: c :: acc else c :: acc) [q])

/-- Join rendered fragments with `", "`. -/
def joinComma (xs : List String) : String :=
  match xs with
  | [] => ""
  | x :: rest => rest.foldl (fun acc y => acc ++ ", " ++ y) x

mutual

/-- Modelled from the spec: CPython `repr` of the value tree (the result
serializer renders each document's pairs with Python's textual
representation). -/
def pyRepr (v : Value) : String :=
  match v with
  | .null => "None"
  | .bool true => "True"
  | .bool false => "False"
  | .int n => toString n
  | .float m e => String.mk (floatChars m e)
  | .str s => pyReprStr s
  | .arr xs => "[" ++ joinComma (pyReprList xs) ++ "]"
  | .dict kvs => "\x7b" ++ joinComma (pyReprPairs kvs) ++ "\x7d"
  | .oid t => "ObjectId(" ++ pyReprStr t ++ ")"

def pyReprList (xs : List Value) : List String :=
  match xs with
  | [] => []
  | x :: rest => pyRepr x :: pyReprList rest

def pyReprPairs (kvs : List (String × Value)) : List String :=
  match kvs with
  | [] => []
  | (k, v) :: rest => (pyReprStr k ++ ": " ++ pyRepr v) :: pyReprPairs rest

end

/-- One element of `str(d.items())`: the tuple `('key', value)`. -/
def pyReprItemPair (p : String × Value) : String :=
  "(" ++ pyReprStr p.1 ++ ", " ++ pyRepr p.2 ++ ")"

/-- `str(d.items())` for a document `d`: `dict_items([...])`. -/
def pyStrItems (doc : List (String × Value)) : String :=
  "dict_items([" ++ joinComma (doc.map pyReprItemPair) ++ "])"

/-- Result of the serializer: a structured document list or a raw string. -/
inductive SerResult where
  | docs (l : List (List (String × Value))) : SerResult
  | raw (s : String) : SerResult

/-- The result serializer (lines 377-383): `returnDocuments` selects
structured mode; raw mode concatenates each document's rendered pairs with no
separator, starting from the empty string. -/
def serialize_records (records : List (List (String × Value)))
    (returnDocuments : Bool) : SerResult :=
  if returnDocuments then .docs records
  else .raw (records.foldl (fun response d => response ++ pyStrItems d) "")

/-! ## Literal parser

Embeds `pythonish_to_json_dict` (mongoquery.py lines 12-33): three `re.sub`
word-boundary keyword substitutions, then `ast.literal_eval`, then
`json.loads(json.dumps(obj))`.  The regex scanner models `re.sub` with
`IGNORECASE` and `\b` boundaries over ASCII word characters; the literal and
JSON grammars are modelled from the specification (sections 4.1 and 6). -/

/-- Regex word character `\w` (ASCII subset): letters, digits, underscore. -/
def isWordChar (c : Char) : Bool :=
  c.isAlphanum || c = '_'

/-- Uppercase an ASCII lowercase letter. -/
def upcase (c : Char) : Char :=
  if 'a' ≤ c && c ≤ 'z' then Char.ofNat (c.toNat - 32) else c

/-- Case-insensitive match of one pattern character (pattern given in
lowercase). -/
def chMatch (k c : Char) : Bool :=
  c = k || c = upcase k

/-- Case-insensitive prefix match of a keyword; returns the remainder. -/
def matchKw : List Char → List Char → Option (List Char)
  | [], l => some l
  | _ :: _, [] => none
  | k :: ks, c :: cs => if chMatch k c then matchKw ks cs else none

/-- The trailing `\b`: end of input or a non-word character. -/
def boundaryOk : List Char → Bool
  | [] => true
  | d :: _ => !isWordChar d

/-- One `re.sub(r'\bkw\b', repl, text, flags=re.IGNORECASE)` pass.  The flag
records whether the previous character of the original text is a word
character (so no `\b` holds there); matching resumes after each replacement.
Fuel is spent one unit per consumed character. -/
def subWordF (kw repl : List Char) : Nat → Bool → List Char → List Char
  | 0, _, l => l
  | _ + 1, _, [] => []
  | fuel + 1, prevW, c :: cs =>
    if prevW then c :: subWordF kw repl fuel (isWordChar c) cs
    else
      match matchKw kw (c :: cs) with
      | some rest =>
        if boundaryOk rest then repl ++ subWordF kw repl fuel true rest
        else c :: subWordF kw repl fuel (isWordChar c) cs
      | none => c :: subWordF kw repl fuel (isWordChar c) cs

/-- One whole-word case-insensitive substitution pass over a text. -/
def subWord (kw repl : String) (l : List Char) : List Char :=
  subWordF kw.data repl.data l.length false l

/-- Lines 22-25 of the source: normalize `false`, then `true`, then `null`
(in that order) to the Python spellings. -/
def pyNormalizeChars (l : List Char) : List Char :=
  subWord "null" "None" (subWord "true" "True" (subWord "false" "False" l))

/-- The normalization step on a string. -/
def pyNormalize (s : String) : String :=
  String.mk (pyNormalizeChars s.data)

/-! ### Token view of a text

A text splits uniquely into maximal word-character runs and single non-word
characters; the substitution passes act word-wise on this decomposition. -/

/-- A token: a maximal word-character run or one non-word character. -/
inductive Tok where
  | word (w : List Char) : Tok
  | sym (c : Char) : Tok
deriving DecidableEq, Repr

/-- Tokenize a text (fuel is spent one unit per token). -/
def toksF : Nat → List Char → List Tok
  | 0, _ => []
  | _ + 1, [] => []
  | fuel + 1, c :: cs =>
    if isWordChar c then
      .word (c :: cs.takeWhile isWordChar) :: toksF fuel (cs.dropWhile isWordChar)
    else .sym c :: toksF fuel cs

/-- Tokenize a text. -/
def toks (l : List Char) : List Tok :=
  toksF l.length l

/-- Flatten a token list back to text. -/
def detok (ts : List Tok) : List Char :=
  ts.foldr (fun t acc => match t with | .word w => w ++ acc | .sym c => c :: acc) []

/-- Apply a function to every word token. -/
def mapWords (f : List Char → List Char) (ts : List Tok) : List Tok :=
  ts.map (fun t => match t with | .word w => .word (f w) | .sym c => .sym c)

/-- Word-wise action on a text. -/
def wordMap (f : List Char → List Char) (l : List Char) : List Char :=
  detok (mapWords f (toks l))

/-- Word-level effect of one substitution pass: a word equal to the keyword
(case-insensitively) becomes the replacement. -/
def canonWord1 (kw repl : List Char) (w : List Char) : List Char :=
  if matchKw kw w = some [] then repl else w

/-- Word-level effect of the three passes of the source, in source order. -/
def canonKw (w : List Char) : List Char :=
  canonWord1 "null".data "None".data
    (canonWord1 "true".data "True".data
      (canonWord1 "false".data "False".data w))

/-! ### The two grammars -/

/-- JSON / Python whitespace. -/
def isWsChar (c : Char) : Bool :=
  c = ' ' || c = '\t' || c = '\n' || c = '\r'

/-- Drop leading whitespace. -/
def skipWs (l : List Char) : List Char :=
  l.dropWhile isWsChar

/-- Numeric value of a decimal digit. -/
def digitVal (c : Char) : Nat :=
  c.toNat - '0'.toNat

/-- Value of a digit run. -/
def digitsToNat (ds : List Char) : Nat :=
  ds.foldl (fun n c => 10 * n + digitVal c) 0

/-- Parse an unsigned integer token (`0` or a nonzero digit followed by a
digit run, the JSON integer grammar). -/
def parseUIntTok (l : List Char) : Option (Nat × List Char) :=
  match l with
  | [] => none
  | c :: cs =>
    if c = '0' then some (0, cs)
    else if c.isDigit then
      some (digitsToNat (c :: cs.takeWhile Char.isDigit), cs.dropWhile Char.isDigit)
    else none

/-- Parse a nonempty digit run (leading zeros allowed, as in fraction and
exponent parts), returning the digits themselves. -/
def parseDigitsRun (l : List Char) : Option (List Char × List Char) :=
  match l with
  | c :: cs =>
    if c.isDigit then
      some (c :: cs.takeWhile Char.isDigit, cs.dropWhile Char.isDigit)
    else none
  | [] => none

/-- An unsigned number token: an integer, or a floating number
`m × 10 ^ e`. -/
inductive NumTok where
  | int (n : Nat) : NumTok
  | flt (m : Nat) (e : Int) : NumTok

/-- Divide out trailing decimal zeros of the significand, shifting them into
the exponent; the fuel bounds the number of divisions. -/
def stripZeros : Nat → Nat → Int → Nat × Int
  | 0, m, e => (m, e)
  | fuel + 1, m, e =>
    if m % 10 = 0 ∧ m ≠ 0 then stripZeros fuel (m / 10) (e + 1) else (m, e)

/-- Canonical form of the decimal `m × 10 ^ e`: zero becomes `0 × 10 ^ 0`,
and a nonzero significand sheds its trailing zeros. -/
def normFloatN (m : Nat) (e : Int) : Nat × Int :=
  if m = 0 then (0, 0) else stripZeros m m e

/-- The decimal `m × 10 ^ e` is in canonical form. -/
def floatCanon (m e : Int) : Bool :=
  if m = 0 then decide (e = 0) else decide (m % 10 ≠ 0)

/-- The canonical floating token for the decimal `m × 10 ^ e`. -/
def mkFlt (m : Nat) (e : Int) : NumTok :=
  .flt (normFloatN m e).1 (normFloatN m e).2

/-- Parse an optionally signed exponent: `+`/`-`/nothing, then a digit
run. -/
def parseExpSigned (l : List Char) : Option (Int × List Char) :=
  match l with
  | '+' :: r =>
    match parseDigitsRun r with
    | some (ds, r2) => some ((digitsToNat ds : Int), r2)
    | none => none
  | '-' :: r =>
    match parseDigitsRun r with
    | some (ds, r2) => some (-(digitsToNat ds : Int), r2)
    | none => none
  | r =>
    match parseDigitsRun r with
    | some (ds, r2) => some ((digitsToNat ds : Int), r2)
    | none => none

/-- Finish a floating token `m0 × 10 ^ e0` with an optional `e`/`E`
exponent part. -/
def withExp (m0 : Nat) (e0 : Int) (r : List Char) : Option (NumTok × List Char) :=
  match r with
  | c :: r2 =>
    if c = 'e' ∨ c = 'E' then
      match parseExpSigned r2 with
      | some (ex, r3) => some (mkFlt m0 (e0 + ex), r3)
      | none => none
    else some (mkFlt m0 e0, c :: r2)
  | [] => some (mkFlt m0 e0, [])

/-- Parse an unsigned number token (spec sections 4.1 and 6: integer and
floating numbers): the integer grammar, then an optional `.`-fraction and an
optional `e`/`E` exponent; any fraction or exponent makes the token
floating, normalized to canonical form. -/
def parseNumTok (l : List Char) : Option (NumTok × List Char) :=
  match parseUIntTok l with
  | none => none
  | some (n, r1) =>
    match r1 with
    | '.' :: r2 =>
      match parseDigitsRun r2 with
      | none => none
      | some (F, r3) =>
        withExp (n * 10 ^ F.length + digitsToNat F) (-(F.length : Int)) r3
    | c :: r2 =>
      if c = 'e' ∨ c = 'E' then
        match parseExpSigned r2 with
        | some (ex, r3) => some (mkFlt n ex, r3)
        | none => none
      else some (.int n, c :: r2)
    | [] => some (.int n, [])

/-- Numeric value of a hexadecimal digit. -/
def hexVal (c : Char) : Nat :=
  if c.isDigit then c.toNat - '0'.toNat
  else if 'a' ≤ c && c ≤ 'f' then c.toNat - 'a'.toNat + 10
  else c.toNat - 'A'.toNat + 10

/-- Parse a quoted string body after the opening quote `q`: a backslash
escapes exactly the characters in `escs`, and when `hx` is set (the Python
literal grammar) `\xHH` denotes the character with hexadecimal code `HH`;
the body ends at the closing quote. -/
def parseStrBody (q : Char) (escs : List Char) (hx : Bool) :
    Nat → List Char → Option (List Char × List Char)
  | 0, _ => none
  | _ + 1, [] => none
  | fuel + 1, c :: cs =>
    if c = q then some ([], cs)
    else if c = '\\' then
      match cs with
      | [] => none
      | e :: cs2 =>
        if hx && e = 'x' then
          match cs2 with
          | h1 :: h2 :: cs3 =>
            if isHexChar h1 && isHexChar h2 then
              (parseStrBody q escs hx fuel cs3).map
                (fun p => (Char.ofNat (16 * hexVal h1 + hexVal h2) :: p.1, p.2))
            else none
          | _ => none
        else if escs.contains e then
          (parseStrBody q escs hx fuel cs2).map (fun p => (e :: p.1, p.2))
        else none
    else (parseStrBody q escs hx fuel cs).map (fun p => (c :: p.1, p.2))

/-- Escapable characters in a JSON string literal (modelled subset). -/
def jsonEscs : List Char := ['"', '\\']

/-- Escapable characters in a Python string literal (modelled subset). -/
def pyEscs : List Char := ['\x27', '"', '\\']

/-- Parse the elements of a nonempty bracketed sequence: a value, then after
optional whitespace a comma (more elements) or the closing character. -/
def parseElemsF (pv : List Char → Option (Value × List Char)) (close : Char) :
    Nat → List Char → Option (List Value × List Char)
  | 0, _ => none
  | fuel + 1, l =>
    match pv l with
    | none => none
    | some (v, r) =>
      match skipWs r with
      | [] => none
      | c :: cs =>
        if c = close then some ([v], cs)
        else if c = ',' then
          match parseElemsF pv close fuel cs with
          | none => none
          | some (vs, r2) => some (v :: vs, r2)
        else none

/-- Parse the members of a nonempty braced mapping: a key, `:` after optional
whitespace, a value, then a comma (more members) or the closing character. -/
def parsePairsF (pv : List Char → Option (Value × List Char))
    (pk : List Char → Option (String × List Char)) (close : Char) :
    Nat → List Char → Option (List (String × Value) × List Char)
  | 0, _ => none
  | fuel + 1, l =>
    match pk l with
    | none => none
    | some (k, r1) =>
      match skipWs r1 with
      | ':' :: r2 =>
        match pv r2 with
        | none => none
        | some (v, r3) =>
          match skipWs r3 with
          | [] => none
          | c :: cs =>
            if c = close then some ([(k, v)], cs)
            else if c = ',' then
              match parsePairsF pv pk close fuel cs with
              | none => none
              | some (ps, r4) => some ((k, v) :: ps, r4)
            else none
      | _ => none

/-- A JSON object key: a double-quoted string after optional whitespace. -/
def jsonKey (l : List Char) : Option (String × List Char) :=
  match skipWs l with
  | [] => none
  | c :: cs =>
    if c = '"' then
      (parseStrBody '"' jsonEscs false cs.length cs).map
        (fun p => (String.mk p.1, p.2))
    else none

/-- A Python dict key: a string in either quote style after optional
whitespace (the spec restricts keys to strings). -/
def pyKey (l : List Char) : Option (String × List Char) :=
  match skipWs l with
  | [] => none
  | c :: cs =>
    if c = '"' || c = '\x27' then
      (parseStrBody c pyEscs true cs.length cs).map
        (fun p => (String.mk p.1, p.2))
    else none

/-- Modelled from the spec: strict JSON value parsing (`json.loads` body) over
the documented grammar — objects, arrays, double-quoted strings, the lowercase
literals, and signed integer and floating numbers.  Fuel bounds the nesting
depth.  Declared boundary: the spec says nothing about control characters, so
string bodies pass them through unchanged (as does the modelled encoder);
this only widens the set of accepted texts that the universal claims range
over. -/
def jsonParseV : Nat → List Char → Option (Value × List Char)
  | 0, _ => none
  | fuel + 1, l =>
    match skipWs l with
    | [] => none
    | c :: cs =>
      if c = '\x7b' then
        match skipWs cs with
        | [] => none
        | d :: ds =>
          if d = '\x7d' then some (.dict [], ds)
          else
            match parsePairsF (jsonParseV fuel) jsonKey '\x7d' fuel (d :: ds) with
            | none => none
            | some (ps, r) => some (.dict (mkDict ps), r)
      else if c = '[' then
        match skipWs cs with
        | [] => none
        | d :: ds =>
          if d = ']' then some (.arr [], ds)
          else
            match parseElemsF (jsonParseV fuel) ']' fuel (d :: ds) with
            | none => none
            | some (vs, r) => some (.arr vs, r)
      else if c = '"' then
        (parseStrBody '"' jsonEscs false cs.length cs).map
          (fun p => (Value.str (String.mk p.1), p.2))
      else if c = 'n' then
        match cs with
        | 'u' :: 'l' :: 'l' :: r => some (.null, r)
        | _ => none
      else if c = 't' then
        match cs with
        | 'r' :: 'u' :: 'e' :: r => some (.bool true, r)
        | _ => none
      else if c = 'f' then
        match cs with
        | 'a' :: 'l' :: 's' :: 'e' :: r => some (.bool false, r)
        | _ => none
      else if c = '-' then
        match parseNumTok cs with
        | some (.int n, r) => some (.int (-(n : Int)), r)
        | some (.flt m e, r) => some (.float (-(m : Int)) e, r)
        | none => none
      else
        match parseNumTok (c :: cs) with
        | some (.int n, r) => some (.int ((n : Nat) : Int), r)
        | some (.flt m e, r) => some (.float ((m : Nat) : Int) e, r)
        | none => none

/-- Modelled from the spec: `ast.literal_eval` over the documented grammar —
dicts with string keys, lists, strings in either quote style, the Python
spellings `None`/`True`/`False`, and signed integer and floating numbers. -/
def pyParseV : Nat → List Char → Option (Value × List Char)
  | 0, _ => none
  | fuel + 1, l =>
    match skipWs l with
    | [] => none
    | c :: cs =>
      if c = '\x7b' then
        match skipWs cs with
        | [] => none
        | d :: ds =>
          if d = '\x7d' then some (.dict [], ds)
          else
            match parsePairsF (pyParseV fuel) pyKey '\x7d' fuel (d :: ds) with
            | none => none
            | some (ps, r) => some (.dict (mkDict ps), r)
      else if c = '[' then
        match skipWs cs with
        | [] => none
        | d :: ds =>
          if d = ']' then some (.arr [], ds)
          else
            match parseElemsF (pyParseV fuel) ']' fuel (d :: ds) with
            | none => none
            | some (vs, r) => some (.arr vs, r)
      else if c = '"' || c = '\x27' then
        (parseStrBody c pyEscs true cs.length cs).map
          (fun p => (Value.str (String.mk p.1), p.2))
      else if c = 'N' then
        match cs with
        | 'o' :: 'n' :: 'e' :: r => some (.null, r)
        | _ => none
      else if c = 'T' then
        match cs with
        | 'r' :: 'u' :: 'e' :: r => some (.bool true, r)
        | _ => none
      else if c = 'F' then
        match cs with
        | 'a' :: 'l' :: 's' :: 'e' :: r => some (.bool false, r)
        | _ => none
      else if c = '-' then
        match parseNumTok cs with
        | some (.int n, r) => some (.int (-(n : Int)), r)
        | some (.flt m e, r) => some (.float (-(m : Int)) e, r)
        | none => none
      else if c = '+' then
        match parseNumTok cs with
        | some (.int n, r) => some (.int ((n : Nat) : Int), r)
        | some (.flt m e, r) => some (.float ((m : Nat) : Int) e, r)
        | none => none
      else
        match parseNumTok (c :: cs) with
        | some (.int n, r) => some (.int ((n : Nat) : Int), r)
        | some (.flt m e, r) => some (.float ((m : Nat) : Int) e, r)
        | none => none

/-- Modelled from the spec: `json.loads` — a value followed only by
whitespace. -/
def jsonLoads (s : String) : Option Value :=
  match jsonParseV (s.data.length + 1) s.data with
  | some (v, r) => if skipWs r = [] then some v else none
  | none => none

/-- Modelled from the spec: `ast.literal_eval` — a literal followed only by
whitespace. -/
def literal_eval (s : String) : Option Value :=
  match pyParseV (s.data.length + 1) s.data with
  | some (v, r) => if skipWs r = [] then some v else none
  | none => none

/-! ### Strict JSON encoding (`json.dumps`) -/

/-- JSON escaping of one string character (modelled subset). -/
def escJsonChar (c : Char) : List Char :=
  if c = '"' || c = '\\' then ['\\', c] else [c]

/-- JSON escaping of a string body. -/
def escJson (l : List Char) : List Char :=
  l.foldr (fun c acc => escJsonChar c ++ acc) []

/-- Join encoded fragments with `", "` (the `json.dumps` item separator). -/
def joinCommaSpace (xs : List (List Char)) : List Char :=
  match xs with
  | [] => []
  | x :: rest => rest.foldl (fun acc y => acc ++ ',' :: ' ' :: y) x

/-- Encode list elements with the given element encoder, failing if any
element fails. -/
def dumpsListF (dv : Value → Option (List Char)) :
    List Value → Option (List (List Char))
  | [] => some []
  | x :: rest =>
    match dv x, dumpsListF dv rest with
    | some e, some es => some (e :: es)
    | _, _ => none

/-- Encode object members as `"key": value` fragments. -/
def dumpsPairsF (dv : Value → Option (List Char)) :
    List (String × Value) → Option (List (List Char))
  | [] => some []
  | (k, v) :: rest =>
    match dv v, dumpsPairsF dv rest with
    | some e, some es =>
      some ((('"' :: escJson k.data ++ ['"', ':', ' ']) ++ e) :: es)
    | _, _ => none

/-- Modelled from the spec: `json.dumps` with default separators; fails on a
value outside the JSON types (the `DocumentId` wrapper).  Fuel bounds the
nesting depth. -/
def jsonDumpsF : Nat → Value → Option (List Char)
  | 0, _ => none
  | fuel + 1, v =>
    match v with
    | .null => some ['n', 'u', 'l', 'l']
    | .bool true => some ['t', 'r', 'u', 'e']
    | .bool false => some ['f', 'a', 'l', 's', 'e']
    | .int n => some (intChars n)
    | .float m e => some (floatChars m e)
    | .str s => some ('"' :: escJson s.data ++ ['"'])
    | .oid _ => none
    | .arr xs =>
      match dumpsListF (jsonDumpsF fuel) xs with
      | some es => some ('[' :: joinCommaSpace es ++ [']'])
      | none => none
    | .dict kvs =>
      match dumpsPairsF (jsonDumpsF fuel) kvs with
      | some es => some ('\x7b' :: joinCommaSpace es ++ ['\x7d'])
      | none => none

/-- Encodability within a given nesting-depth budget: no `DocumentId`
anywhere. -/
def dumpable : Nat → Value → Bool
  | 0, _ => false
  | fuel + 1, v =>
    match v with
    | .arr xs => xs.all (fun x => dumpable fuel x)
    | .dict kvs => kvs.all (fun p => dumpable fuel p.2)
    | .oid _ => false
    | _ => true

/-- The value `v` re-encodes as the strict-JSON text `enc` (with any
sufficient fuel). -/
def encodesTo (v : Value) (enc : String) : Prop :=
  ∃ fuel, jsonDumpsF fuel v = some enc.data

/-- The literal parser (lines 12-33): normalize the keyword spellings, parse
with the literal grammar, then re-encode as strict JSON and decode again; any
failure raises the wrapped parse error. -/
def pythonish_to_json_dict (text : String) : Except String Value :=
  let fixed := pyNormalize text
  match literal_eval fixed with
  | none => .error "Error parsing pythonish to json dict: malformed literal"
  | some obj =>
    match jsonDumpsF (text.data.length + 1) obj with
    | none => .error "Error parsing pythonish to json dict: not JSON serializable"
    | some enc =>
      match jsonLoads (String.mk enc) with
      | none => .error "Error parsing pythonish to json dict: JSON decode failure"
      | some v => .ok v

/-! ### Structural predicates on values -/

/-- Well-formed parse result: no `DocumentId`, and object keys are distinct
(as Python dicts guarantee). -/
inductive WfV : Value → Prop where
  | null : WfV .null
  | bool (b : Bool) : WfV (.bool b)
  | int (n : Int) : WfV (.int n)
  | flt (m e : Int) : floatCanon m e = true → WfV (.float m e)
  | str (s : String) : WfV (.str s)
  | arr (xs : List Value) : (∀ x ∈ xs, WfV x) → WfV (.arr xs)
  | dict (kvs : List (String × Value)) : (kvs.map Prod.fst).Nodup →
      (∀ p ∈ kvs, WfV p.2) → WfV (.dict kvs)

/-- A text unchanged by the word-wise keyword normalization. -/
def fixedChars (l : List Char) : Prop :=
  wordMap canonKw l = l

/-- All strings (values and keys) of a value are unchanged by keyword
normalization. -/
inductive FixedV : Value → Prop where
  | null : FixedV .null
  | bool (b : Bool) : FixedV (.bool b)
  | int (n : Int) : FixedV (.int n)
  | flt (m e : Int) : FixedV (.float m e)
  | str (s : String) : fixedChars s.data → FixedV (.str s)
  | arr (xs : List Value) : (∀ x ∈ xs, FixedV x) → FixedV (.arr xs)
  | dict (kvs : List (String × Value)) :
      (∀ p ∈ kvs, fixedChars (Prod.fst p).data) →
      (∀ p ∈ kvs, FixedV p.2) → FixedV (.dict kvs)

/-! ### Head and word-shape predicates -/

/-- The head of a remainder, when present, is not a word character. -/
def headNW (l : List Char) : Prop :=
  match l with
  | [] => True
  | c :: _ => isWordChar c = false

/-- The head of a remainder, when present, is neither a word character nor a
dot, so it cannot extend a preceding number token. -/
def headNum (l : List Char) : Prop :=
  match l with
  | [] => True
  | c :: _ => isWordChar c = false ∧ c ≠ '.'

/-- A nonempty all-word-character run. -/
def wordish (w : List Char) : Prop :=
  w ≠ [] ∧ w.all isWordChar = true

/-- A keyword fit for word-boundary scanning: nonempty, and each pattern
character together with its uppercase form is a word character. -/
def kwOK (kw : List Char) : Prop :=
  kw ≠ [] ∧ ∀ k ∈ kw, isWordChar k = true ∧ isWordChar (upcase k) = true

/-- Pointwise case-insensitive match of a keyword against a run. -/
def kwMatches : List Char → List Char → Prop
  | [], [] => True
  | k :: ks, c :: cs => chMatch k c = true ∧ kwMatches ks cs
  | _, _ => False

/-- The token list does not start with a word. -/
def headSym : List Tok → Prop
  | .word _ :: _ => False
  | _ => True

/-- Well-shaped token list: symbols are non-word characters, words are
nonempty word runs, and no two words are adjacent. -/
def wfToks : List Tok → Prop
  | [] => True
  | .sym c :: ts => isWordChar c = false ∧ wfToks ts
  | .word w :: ts => wordish w ∧ headSym ts ∧ wfToks ts

/-- Transport of the keyword normalization from strict-JSON parsing to
literal parsing: values are equal except that every string (value or key) is
mapped word-wise by `canonKw`, and objects are rebuilt by dict assignment
from correspondingly related pair lists. -/
inductive SimV : Value → Value → Prop where
  | null : SimV .null .null
  | bool (b : Bool) : SimV (.bool b) (.bool b)
  | int (n : Int) : SimV (.int n) (.int n)
  | flt (m e : Int) : SimV (.float m e) (.float m e)
  | str (s : String) :
      SimV (.str s) (.str (String.mk (wordMap canonKw s.data)))
  | arr (xs ys : List Value) : xs.length = ys.length →
      (∀ p ∈ xs.zip ys, SimV (Prod.fst p) (Prod.snd p)) →
      SimV (.arr xs) (.arr ys)
  | dict (ps qs : List (String × Value)) : ps.length = qs.length →
      (∀ p ∈ ps.zip qs, Prod.fst (Prod.snd p) =
        String.mk (wordMap canonKw (Prod.fst (Prod.fst p)).data)) →
      (∀ p ∈ ps.zip qs,
        SimV (Prod.snd (Prod.fst p)) (Prod.snd (Prod.snd p))) →
      SimV (.dict (mkDict ps)) (.dict (mkDict qs))

/-! ## Helper lemmas on ordered dicts -/

theorem lookupKey_cons_self {α : Type} (p : String × α) (l : List (String × α))
    (k : String) (h : p.1 = k) : lookupKey (p :: l) k = some p.2 := by
  simp [lookupKey, List.find?, h]

theorem lookupKey_cons_ne {α : Type} (p : String × α) (l : List (String × α))
    (k : String) (h : p.1 ≠ k) : lookupKey (p :: l) k = lookupKey l k := by
  simp [lookupKey, List.find?, h]

theorem lookupKey_map_set {α : Type} (d : List (String × α)) (k : String)
    (v : α) (h : d.any (fun p => p.1 = k) = true) :
    lookupKey (d.map (fun p => if p.1 = k then (k, v) else p)) k = some v := by
  induction d with
  | nil => simp at h
  | cons p rest ih =>
    by_cases hp : p.1 = k
    · rw [List.map_cons, if_pos hp, lookupKey_cons_self (k, v) _ k rfl]
    · have h' : rest.any (fun p => p.1 = k) = true := by
        simpa [List.any_cons, hp] using h
      rw [List.map_cons, if_neg hp, lookupKey_cons_ne p _ k hp]
      exact ih h'

theorem lookupKey_map_set_ne {α : Type} (d : List (String × α)) (k k' : String)
    (v : α) (h : k' ≠ k) :
    lookupKey (d.map (fun p => if p.1 = k then (k, v) else p)) k' =
      lookupKey d k' := by
  induction d with
  | nil => rfl
  | cons p rest ih =>
    by_cases hp : p.1 = k
    · have h1 : (k, v).1 ≠ k' := Ne.symm h
      have h2 : p.1 ≠ k' := by rw [hp]; exact Ne.symm h
      rw [List.map_cons, if_pos hp, lookupKey_cons_ne (k, v) _ k' h1,
        lookupKey_cons_ne p _ k' h2]
      exact ih
    · by_cases hq : p.1 = k'
      · rw [List.map_cons, if_neg hp, lookupKey_cons_self p _ k' hq,
          lookupKey_cons_self p _ k' hq]
      · rw [List.map_cons, if_neg hp, lookupKey_cons_ne p _ k' hq,
          lookupKey_cons_ne p _ k' hq]
        exact ih

theorem lookupKey_dictSet_self {α : Type} (d : List (String × α)) (k : String)
    (v : α) : lookupKey (dictSet d k v) k = some v := by
  unfold dictSet
  by_cases h : d.any (fun p => p.1 = k) = true
  · rw [if_pos h]
    exact lookupKey_map_set d k v h
  · rw [if_neg h]
    induction d with
    | nil => exact lookupKey_cons_self (k, v) [] k rfl
    | cons p rest ih =>
      have hp : p.1 ≠ k := by
        intro hc
        exact h (by simp [List.any_cons, hc])
      have h' : ¬rest.any (fun p => p.1 = k) = true := by
        intro hc
        exact h (by simp [List.any_cons, hc])
      rw [List.cons_append, lookupKey_cons_ne p _ k hp]
      exact ih h'

theorem lookupKey_dictSet_ne {α : Type} (d : List (String × α)) (k k' : String)
    (v : α) (h : k' ≠ k) : lookupKey (dictSet d k v) k' = lookupKey d k' := by
  unfold dictSet
  by_cases hm : d.any (fun p => p.1 = k) = true
  · rw [if_pos hm]
    exact lookupKey_map_set_ne d k k' v h
  · rw [if_neg hm]
    induction d with
    | nil => exact lookupKey_cons_ne (k, v) [] k' (Ne.symm h)
    | cons p rest ih =>
      by_cases hq : p.1 = k'
      · rw [List.cons_append, lookupKey_cons_self p _ k' hq,
          lookupKey_cons_self p _ k' hq]
      · rw [List.cons_append, lookupKey_cons_ne p _ k' hq,
          lookupKey_cons_ne p _ k' hq]
        exact ih (fun hc => hm (by simp [List.any_cons, hc]))

theorem any_eq_true_of_lookupKey {α : Type} (d : List (String × α))
    (k : String) (v : α) (h : lookupKey d k = some v) :
    d.any (fun p => p.1 = k) = true := by
  induction d with
  | nil => simp [lookupKey] at h
  | cons p rest ih =>
    by_cases hp : p.1 = k
    · simp [List.any_cons, hp]
    · rw [lookupKey_cons_ne p _ k hp] at h
      simp [List.any_cons, ih h]

theorem foldl_dictSet_append {α : Type} (v : α) :
    ∀ (items : List String) (d0 : List (String × α)),
    (∀ it ∈ items, d0.any (fun p => p.1 = it) = false) → items.Nodup →
    items.foldl (fun d it => dictSet d it v) d0 =
      d0 ++ items.map (fun it => (it, v)) := by
  intro items
  induction items with
  | nil => intro d0 _ _; simp
  | cons it rest ih =>
    intro d0 h hnd
    have hd : d0.any (fun p => p.1 = it) = false := h it (by simp)
    have step : dictSet d0 it v = d0 ++ [(it, v)] := by
      simp [dictSet, hd]
    have hrest : ∀ j ∈ rest, (d0 ++ [(it, v)]).any (fun p => p.1 = j) = false := by
      intro j hj
      have h1 : d0.any (fun p => p.1 = j) = false := h j (by simp [hj])
      have h2 : it ≠ j := by
        intro hc
        exact (List.nodup_cons.mp hnd).1 (hc ▸ hj)
      simp [List.any_append, h1, h2]
    calc (it :: rest).foldl (fun d it => dictSet d it v) d0
        = rest.foldl (fun d it => dictSet d it v) (d0 ++ [(it, v)]) := by
          rw [List.foldl_cons, step]
      _ = (d0 ++ [(it, v)]) ++ rest.map (fun it => (it, v)) :=
          ih (d0 ++ [(it, v)]) hrest (List.nodup_cons.mp hnd).2
      _ = d0 ++ (it, v) :: rest.map (fun it => (it, v)) := by
          rw [List.append_assoc]; rfl

theorem lookupKey_foldl_dictSet {α : Type} (v : α) :
    ∀ (items : List String) (d0 : List (String × α)) (it : String),
    (it ∈ items ∨ lookupKey d0 it = some v) →
    lookupKey (items.foldl (fun d i => dictSet d i v) d0) it = some v := by
  intro items
  induction items with
  | nil =>
    intro d0 it h
    rcases h with h | h
    · simp at h
    · simpa using h
  | cons i rest ih =>
    intro d0 it h
    rw [List.foldl_cons]
    rcases h with h | h
    · rcases List.mem_cons.mp h with rfl | hm
      · by_cases hr : it ∈ rest
        · exact ih _ it (Or.inl hr)
        · exact ih _ it (Or.inr (lookupKey_dictSet_self d0 it v))
      · exact ih _ it (Or.inl hm)
    · by_cases hi : it = i
      · exact ih _ it (Or.inr (hi ▸ lookupKey_dictSet_self d0 it v))
      · exact ih _ it (Or.inr (by rw [lookupKey_dictSet_ne d0 i it v hi]; exact h))

theorem build_projection_eq (fields : String) (flag : FlagVal)
    (hne : fields ≠ "")
    (hnd : (pySplitComma (removeSpaces fields)).Nodup)
    (hid : "_id" ∉ pySplitComma (removeSpaces fields)) :
    build_projection fields flag =
      .ok (((pySplitComma (removeSpaces fields)).map (fun it => (it, true))) ++
        [("_id", flagTruthy (coerce_return_id flag))]) := by
  have hfold : (pySplitComma (removeSpaces fields)).foldl
      (fun d it => dictSet d it true) [] =
      (pySplitComma (removeSpaces fields)).map (fun it => (it, true)) := by
    simpa using foldl_dictSet_append true (pySplitComma (removeSpaces fields))
      [] (by intro it _; rfl) hnd
  have hany : ((pySplitComma (removeSpaces fields)).map
      (fun it => (it, true))).any (fun p => p.1 = "_id") = false := by
    rw [List.any_eq_false]
    intro p hp
    rcases List.mem_map.mp hp with ⟨it, hit, rfl⟩
    simp only [decide_eq_true_eq]
    intro hc
    exact hid (hc ▸ hit)
  have hset : ∀ b : Bool, dictSet ((pySplitComma (removeSpaces fields)).map
      (fun it => (it, true))) "_id" b =
      ((pySplitComma (removeSpaces fields)).map (fun it => (it, true))) ++
        [("_id", b)] := by
    intro b
    simp [dictSet, hany]
  unfold build_projection
  rw [if_pos hne]
  cases hb : flagTruthy (coerce_return_id flag) with
  | true => simp [hb, hfold, hset]
  | false => simp [hb, hfold, hset]

theorem string_empty_append (s : String) : "" ++ s = s := by
  cases s with
  | mk data => rfl

/-! ## Claim C3 -/

/-- C3: the identifier-inclusion flag resolves as follows: an actual boolean
is used as-is; a string of decimal digits (including `"0"`) resolves to
include=true; the string `"false"` in any letter case resolves to
include=false; any other non-digit string resolves to include=true; and
`build_projection "firstName" "false"` yields `firstName`→true,
`_id`→false. -/
theorem c3_flag_coercion :
    (∀ b : Bool, flagTruthy (coerce_return_id (.b b)) = b) ∧
    (∀ s : String, pyIsdigit s = true →
      flagTruthy (coerce_return_id (.s s)) = true) ∧
    (∀ s : String, pyIsdigit s = false → pyToLower s = "false" →
      flagTruthy (coerce_return_id (.s s)) = false) ∧
    (∀ s : String, pyIsdigit s = false → pyToLower s ≠ "false" →
      flagTruthy (coerce_return_id (.s s)) = true) ∧
    build_projection "firstName" (.s "false") =
      .ok [("firstName", true), ("_id", false)] := by
  refine ⟨fun b => rfl, ?_, ?_, ?_, rfl⟩
  · intro s h
    have h' := h
    simp only [pyIsdigit, Bool.and_eq_true] at h'
    simp [coerce_return_id, h, flagTruthy, h'.1]
  · intro s h1 h2
    simp [coerce_return_id, h1, h2, flagTruthy]
  · intro s h1 h2
    simp [coerce_return_id, h1, h2, flagTruthy]

theorem c3_witness :
    flagTruthy (coerce_return_id (.b false)) = false ∧
    flagTruthy (coerce_return_id (.s "0")) = true ∧
    flagTruthy (coerce_return_id (.s "FaLsE")) = false ∧
    flagTruthy (coerce_return_id (.s "yes")) = true :=
  ⟨c3_flag_coercion.1 false,
   c3_flag_coercion.2.1 "0" (by decide),
   c3_flag_coercion.2.2.1 "FaLsE" (by decide) (by decide),
   c3_flag_coercion.2.2.2.1 "yes" (by decide) (by decide)⟩

/-! ## Claim C10 -/

/-- C10: the flag coercion always resolves a boolean or a string to a value
that is truthy or falsy, so the defensive `Not a boolean value for
return__id` branch is unreachable: a projection built from a nonempty field
list never raises the configuration error. -/
theorem c10_no_config_error (fields : String) (flag : FlagVal)
    (h : fields ≠ "") :
    ∃ d, build_projection fields flag = .ok d := by
  unfold build_projection
  rw [if_pos h]
  cases hb : flagTruthy (coerce_return_id flag) with
  | true =>
    refine ⟨dictSet ((pySplitComma (removeSpaces fields)).foldl
      (fun d it => dictSet d it true) []) "_id" true, ?_⟩
    simp [hb]
  | false =>
    refine ⟨dictSet ((pySplitComma (removeSpaces fields)).foldl
      (fun d it => dictSet d it true) []) "_id" false, ?_⟩
    simp [hb]

theorem c10_witness :
    ∃ d, build_projection "firstName" (.b true) = .ok d :=
  c10_no_config_error "firstName" (.b true) (by decide)

/-! ## Claim C4 -/

/-- C4 as stated fails when the listed fields themselves contain `_id`: for
`build_projection "_id" false` the listed path `_id` is not set to
include=true and no separate `_id` entry is appended after the listed
fields — the single entry carries the flag value `false`. -/
theorem c4_counterexample :
    build_projection "_id" (.b false) = .ok [("_id", false)] ∧
    lookupKey [(("_id" : String), false)] "_id" ≠ some true := by
  exact ⟨rfl, by decide⟩

/-- C4 amended: for a nonempty fields string whose space-stripped comma items
are distinct and do not include `_id`, each listed path maps to include=true
in listed order and the `_id` entry (set from the resolved flag) is appended
after them; a listed `_id` instead keeps its listed position and receives the
flag value.  For an empty fields string the result is the empty projection
regardless of the flag. -/
theorem c4_projection_order (fields : String) (flag : FlagVal) :
    (fields ≠ "" → (pySplitComma (removeSpaces fields)).Nodup →
      "_id" ∉ pySplitComma (removeSpaces fields) →
      build_projection fields flag =
        .ok (((pySplitComma (removeSpaces fields)).map (fun it => (it, true))) ++
          [("_id", flagTruthy (coerce_return_id flag))])) ∧
    build_projection "" flag = .ok [] := by
  exact ⟨fun h1 h2 h3 => build_projection_eq fields flag h1 h2 h3, rfl⟩

theorem c4_witness :
    build_projection "address.city, firstName" (.b true) =
      .ok [("address.city", true), ("firstName", true), ("_id", true)] ∧
    build_projection "" (.s "x") = .ok [] := by
  refine ⟨?_, (c4_projection_order "" (.s "x")).2⟩
  have h := (c4_projection_order "address.city, firstName" (.b true)).1
    (by decide) (by decide) (by decide)
  exact h.trans rfl

/-! ## Claim C8 -/

/-- C8 as stated fails: the interior space of a listed path is removed as
well, so the path entered is `firstname`, not `first name`. -/
theorem c8_counterexample :
    build_projection "first name" (.b true) =
      .ok [("firstname", true), ("_id", true)] ∧
    ("firstname" : String) ≠ "first name" := by
  exact ⟨rfl, by decide⟩

/-- C8 amended: every space character anywhere in the fields string is
removed — the interior of a path included — and all other characters are
preserved exactly; each resulting comma item other than `_id` is entered into
the projection with include=true. -/
theorem c8_space_removal (fields : String) (flag : FlagVal) :
    ((removeSpaces fields).data = fields.data.filter (fun c => c ≠ ' ')) ∧
    (fields ≠ "" →
      ∀ it ∈ pySplitComma (removeSpaces fields), it ≠ "_id" →
      ∀ d, build_projection fields flag = .ok d →
      lookupKey d it = some true) := by
  constructor
  · rfl
  · intro hne it hit hid d hd
    unfold build_projection at hd
    rw [if_pos hne] at hd
    by_cases hb : flagTruthy (coerce_return_id flag) = true
    · rw [if_pos hb] at hd
      injection hd with hd
      subst hd
      rw [lookupKey_dictSet_ne _ _ _ _ hid]
      exact lookupKey_foldl_dictSet true _ [] it (Or.inl hit)
    · have hb' : (!flagTruthy (coerce_return_id flag)) = true := by
        simp [Bool.not_eq_true] at hb
        simp [hb]
      rw [if_neg hb, if_pos hb'] at hd
      injection hd with hd
      subst hd
      rw [lookupKey_dictSet_ne _ _ _ _ hid]
      exact lookupKey_foldl_dictSet true _ [] it (Or.inl hit)

theorem c8_witness :
    (removeSpaces "first name").data =
      "first name".data.filter (fun c => c ≠ ' ') ∧
    lookupKey [(("firstname" : String), true), ("_id", true)] "firstname" =
      some true := by
  refine ⟨(c8_space_removal "first name" (.b true)).1, ?_⟩
  exact (c8_space_removal "first name" (.b true)).2 (by decide) "firstname"
    (by decide) (by decide) [("firstname", true), ("_id", true)] rfl

/-! ## Claim C5 -/

/-- C5: identifier normalization: a well-formed 24-hex string value under
`_id` is wrapped as a `DocumentId` in place with all other fields unchanged;
a present but malformed identifier value fails with the identifier error; an
absent key returns the document unchanged. -/
theorem c5_normalize_identifier (doc : List (String × Value)) :
    (∀ s : String, lookupKey doc "_id" = some (.str s) →
      isValidObjectId s = true →
      normalize_identifier doc =
        .ok (doc.map (fun p => if p.1 = "_id" then ("_id", Value.oid s) else p))) ∧
    (∀ v : Value, lookupKey doc "_id" = some v → objectIdOf v = none →
      normalize_identifier doc =
        .error "IdentifierError: invalid ObjectId value") ∧
    (lookupKey doc "_id" = none → normalize_identifier doc = .ok doc) := by
  refine ⟨?_, ?_, ?_⟩
  · intro s hl hv
    unfold normalize_identifier
    rw [hl]
    have hany := any_eq_true_of_lookupKey doc "_id" _ hl
    simp [objectIdOf, hv, dictSet, hany]
  · intro v hl hv
    unfold normalize_identifier
    rw [hl]
    simp [hv]
  · intro hl
    unfold normalize_identifier
    rw [hl]

theorem c5_witness :
    normalize_identifier
        [("_id", .str "507f1f77bcf86cd799439011"), ("x", .int 1)] =
      .ok [("_id", .oid "507f1f77bcf86cd799439011"), ("x", .int 1)] ∧
    normalize_identifier [("_id", .str "not-hex"), ("x", .int 1)] =
      .error "IdentifierError: invalid ObjectId value" ∧
    normalize_identifier [("x", .int 1)] = .ok [("x", .int 1)] := by
  refine ⟨?_, ?_, ?_⟩
  · have h := (c5_normalize_identifier
      [("_id", .str "507f1f77bcf86cd799439011"), ("x", .int 1)]).1
      "507f1f77bcf86cd799439011" rfl (by decide)
    exact h.trans rfl
  · exact (c5_normalize_identifier _).2.1 (.str "not-hex") rfl rfl
  · exact (c5_normalize_identifier _).2.2 rfl

/-! ## Claim C6 -/

/-- C6: the result serializer returns the empty string for no records in raw
mode, the undelimited concatenation of the two documents' rendered pair lists
for two records in raw mode, and the records unchanged and in order in
structured mode. -/
theorem c6_serializer :
    serialize_records [] false = .raw "" ∧
    (∀ d1 d2, serialize_records [d1, d2] false =
      .raw (pyStrItems d1 ++ pyStrItems d2)) ∧
    (∀ recs, serialize_records recs true = .docs recs) := by
  refine ⟨rfl, ?_, fun recs => rfl⟩
  intro d1 d2
  unfold serialize_records
  rw [if_neg (by simp)]
  rw [List.foldl_cons, List.foldl_cons, List.foldl_nil, string_empty_append]

/-! ## Token-view lemmas -/

theorem takeWhile_head_false (p : Char → Bool) (b : List Char)
    (hb : match b with | [] => True | c :: _ => p c = false) :
    b.takeWhile p = [] := by
  cases b with
  | nil => rfl
  | cons c cs => simp [List.takeWhile_cons, hb]

theorem dropWhile_head_false (p : Char → Bool) (b : List Char)
    (hb : match b with | [] => True | c :: _ => p c = false) :
    b.dropWhile p = b := by
  cases b with
  | nil => rfl
  | cons c cs => simp [List.dropWhile_cons, hb]

theorem takeWhile_append_all (p : Char → Bool) (x y : List Char)
    (hx : x.all p = true)
    (hy : match y with | [] => True | c :: _ => p c = false) :
    (x ++ y).takeWhile p = x := by
  induction x with
  | nil => simpa using takeWhile_head_false p y hy
  | cons c cs ih =>
    simp only [List.all_cons, Bool.and_eq_true] at hx
    simp [List.takeWhile_cons, hx.1, ih hx.2]

theorem dropWhile_append_all (p : Char → Bool) (x y : List Char)
    (hx : x.all p = true)
    (hy : match y with | [] => True | c :: _ => p c = false) :
    (x ++ y).dropWhile p = y := by
  induction x with
  | nil => simpa using dropWhile_head_false p y hy
  | cons c cs ih =>
    simp only [List.all_cons, Bool.and_eq_true] at hx
    simp [List.dropWhile_cons, hx.1, ih hx.2]

theorem headNW_dropWhile (l : List Char) :
    headNW (l.dropWhile isWordChar) := by
  induction l with
  | nil => trivial
  | cons c cs ih =>
    by_cases h : isWordChar c = true
    · simpa [List.dropWhile_cons, h] using ih
    · simp only [Bool.not_eq_true] at h
      simp [List.dropWhile_cons, h, headNW]

theorem toksF_nil (fuel : Nat) : toksF fuel [] = [] := by
  cases fuel <;> rfl

theorem toksF_irrel : ∀ (n : Nat) (l : List Char), l.length ≤ n →
    ∀ fuel fuel', l.length ≤ fuel → l.length ≤ fuel' →
    toksF fuel l = toksF fuel' l := by
  intro n
  induction n with
  | zero =>
    intro l hl fuel fuel' _ _
    have : l = [] := List.length_eq_zero.mp (Nat.le_zero.mp hl)
    subst this
    rw [toksF_nil, toksF_nil]
  | succ n ih =>
    intro l hl fuel fuel' h1 h2
    cases l with
    | nil => rw [toksF_nil, toksF_nil]
    | cons c cs =>
      cases fuel with
      | zero => simp at h1
      | succ f =>
        cases fuel' with
        | zero => simp at h2
        | succ f' =>
          simp only [toksF]
          by_cases h : isWordChar c = true
          · rw [if_pos h, if_pos h]
            have hd : (cs.dropWhile isWordChar).length ≤ cs.length :=
              (List.dropWhile_sublist _).length_le
            have hcs : cs.length ≤ n := by
              simpa using Nat.succ_le_succ_iff.mp hl
            have hf : cs.length ≤ f := by
              simpa using Nat.succ_le_succ_iff.mp h1
            have hf' : cs.length ≤ f' := by
              simpa using Nat.succ_le_succ_iff.mp h2
            rw [ih (cs.dropWhile isWordChar) (le_trans hd hcs) f f'
              (le_trans hd hf) (le_trans hd hf')]
          · rw [if_neg h, if_neg h]
            have hcs : cs.length ≤ n := by
              simpa using Nat.succ_le_succ_iff.mp hl
            have hf : cs.length ≤ f := by
              simpa using Nat.succ_le_succ_iff.mp h1
            have hf' : cs.length ≤ f' := by
              simpa using Nat.succ_le_succ_iff.mp h2
            rw [ih cs hcs f f' hf hf']

theorem toksF_eq_toks (l : List Char) (fuel : Nat) (h : l.length ≤ fuel) :
    toksF fuel l = toks l :=
  toksF_irrel l.length l le_rfl fuel l.length h le_rfl

theorem toks_nil : toks [] = [] := rfl

theorem toks_cons_sym (c : Char) (l : List Char) (h : isWordChar c = false) :
    toks (c :: l) = .sym c :: toks l := by
  simp [toks, toksF, h]

theorem toks_word (w r : List Char) (hw : wordish w) (hr : headNW r) :
    toks (w ++ r) = .word w :: toks r := by
  rcases hw with ⟨hne, hall⟩
  cases w with
  | nil => exact absurd rfl hne
  | cons c w' =>
    simp only [List.all_cons, Bool.and_eq_true] at hall
    simp only [toks, List.cons_append, List.length_cons, toksF, if_pos hall.1,
      List.append_eq]
    rw [takeWhile_append_all _ _ _ hall.2 hr, dropWhile_append_all _ _ _ hall.2 hr]
    rw [toksF_eq_toks r _ (by simp [List.length_append])]
    rfl

theorem toks_append : ∀ (n : Nat) (a b : List Char), a.length ≤ n →
    headNW b → toks (a ++ b) = toks a ++ toks b := by
  intro n
  induction n with
  | zero =>
    intro a b ha _
    have : a = [] := List.length_eq_zero.mp (Nat.le_zero.mp ha)
    subst this
    simp [toks_nil]
  | succ n ih =>
    intro a b ha hb
    cases a with
    | nil => simp [toks_nil]
    | cons c cs =>
      by_cases h : isWordChar c = true
      · have hsplit : c :: cs =
            (c :: cs.takeWhile isWordChar) ++ cs.dropWhile isWordChar := by
          rw [List.cons_append, List.takeWhile_append_dropWhile]
        have hw : wordish (c :: cs.takeWhile isWordChar) :=
          ⟨by simp, by simp [List.all_cons, h, List.all_takeWhile]⟩
        have hrd : headNW (cs.dropWhile isWordChar) := headNW_dropWhile cs
        have hbd : headNW (cs.dropWhile isWordChar ++ b) := by
          cases hd : cs.dropWhile isWordChar with
          | nil =>
            cases b with
            | nil => trivial
            | cons d ds => exact hb
          | cons d ds =>
            have := headNW_dropWhile cs
            rw [hd] at this
            exact this
        calc toks ((c :: cs) ++ b)
            = toks ((c :: cs.takeWhile isWordChar) ++
                (cs.dropWhile isWordChar ++ b)) := by
              rw [← List.append_assoc, ← hsplit]
          _ = .word (c :: cs.takeWhile isWordChar) ::
                toks (cs.dropWhile isWordChar ++ b) := toks_word _ _ hw hbd
          _ = .word (c :: cs.takeWhile isWordChar) ::
                (toks (cs.dropWhile isWordChar) ++ toks b) := by
              rw [ih (cs.dropWhile isWordChar) b
                (le_trans (List.dropWhile_sublist _).length_le
                  (by simpa using Nat.succ_le_succ_iff.mp ha)) hb]
          _ = toks (c :: cs) ++ toks b := by
              conv_rhs => rw [hsplit]
              rw [toks_word _ _ hw hrd]
              rfl
      · simp only [Bool.not_eq_true] at h
        rw [List.cons_append, toks_cons_sym c _ h, toks_cons_sym c _ h,
          ih cs b (by simpa using Nat.succ_le_succ_iff.mp ha) hb]
        rfl

theorem detok_nil : detok [] = [] := rfl

theorem detok_cons_word (w : List Char) (ts : List Tok) :
    detok (.word w :: ts) = w ++ detok ts := rfl

theorem detok_cons_sym (c : Char) (ts : List Tok) :
    detok (.sym c :: ts) = c :: detok ts := rfl

theorem detok_append (ts us : List Tok) :
    detok (ts ++ us) = detok ts ++ detok us := by
  induction ts with
  | nil => rfl
  | cons t ts ih =>
    cases t with
    | word w =>
      rw [List.cons_append, detok_cons_word, detok_cons_word, ih,
        List.append_assoc]
    | sym c => rw [List.cons_append, detok_cons_sym, detok_cons_sym, ih]; rfl

theorem mapWords_append (f : List Char → List Char) (ts us : List Tok) :
    mapWords f (ts ++ us) = mapWords f ts ++ mapWords f us :=
  List.map_append _ _ _

theorem wordMap_nil (f : List Char → List Char) : wordMap f [] = [] := rfl

theorem wordMap_append (f : List Char → List Char) (a b : List Char)
    (hb : headNW b) : wordMap f (a ++ b) = wordMap f a ++ wordMap f b := by
  unfold wordMap
  rw [toks_append a.length a b le_rfl hb, mapWords_append, detok_append]

theorem wordMap_cons_sym (f : List Char → List Char) (c : Char)
    (l : List Char) (h : isWordChar c = false) :
    wordMap f (c :: l) = c :: wordMap f l := by
  unfold wordMap
  rw [toks_cons_sym c l h]
  rfl

theorem wordMap_word (f : List Char → List Char) (w r : List Char)
    (hw : wordish w) (hr : headNW r) :
    wordMap f (w ++ r) = f w ++ wordMap f r := by
  unfold wordMap
  rw [toks_word w r hw hr]
  rfl

theorem wordMap_all_nw (f : List Char → List Char) :
    ∀ l : List Char, l.all (fun c => !isWordChar c) = true →
    wordMap f l = l := by
  intro l
  induction l with
  | nil => intro _; rfl
  | cons c cs ih =>
    intro h
    simp only [List.all_cons, Bool.and_eq_true] at h
    have hc : isWordChar c = false := by
      cases hx : isWordChar c
      · rfl
      · rw [hx] at h; simp at h
    rw [wordMap_cons_sym f c cs hc, ih h.2]

theorem headSym_toks (r : List Char) (hr : headNW r) : headSym (toks r) := by
  cases r with
  | nil => trivial
  | cons c cs =>
    rw [toks_cons_sym c cs hr]
    trivial

theorem wf_toks : ∀ (n : Nat) (l : List Char), l.length ≤ n →
    wfToks (toks l) := by
  intro n
  induction n with
  | zero =>
    intro l hl
    have : l = [] := List.length_eq_zero.mp (Nat.le_zero.mp hl)
    subst this
    trivial
  | succ n ih =>
    intro l hl
    cases l with
    | nil => trivial
    | cons c cs =>
      by_cases h : isWordChar c = true
      · have hsplit : c :: cs =
            (c :: cs.takeWhile isWordChar) ++ cs.dropWhile isWordChar := by
          rw [List.cons_append, List.takeWhile_append_dropWhile]
        have hw : wordish (c :: cs.takeWhile isWordChar) :=
          ⟨by simp, by simp [List.all_cons, h, List.all_takeWhile]⟩
        have hrd : headNW (cs.dropWhile isWordChar) := headNW_dropWhile cs
        rw [hsplit, toks_word _ _ hw hrd]
        refine ⟨hw, headSym_toks _ hrd, ?_⟩
        exact ih (cs.dropWhile isWordChar)
          (le_trans (List.dropWhile_sublist _).length_le
            (by simpa using Nat.succ_le_succ_iff.mp hl))
      · simp only [Bool.not_eq_true] at h
        rw [toks_cons_sym c cs h]
        exact ⟨h, ih cs (by simpa using Nat.succ_le_succ_iff.mp hl)⟩

theorem toks_detok : ∀ ts : List Tok, wfToks ts → toks (detok ts) = ts := by
  intro ts
  induction ts with
  | nil => intro _; rfl
  | cons t ts ih =>
    intro h
    cases t with
    | sym c =>
      rcases h with ⟨hc, hts⟩
      rw [detok_cons_sym, toks_cons_sym _ _ hc, ih hts]
    | word w =>
      rcases h with ⟨hw, hsym, hts⟩
      have hnw : headNW (detok ts) := by
        cases ts with
        | nil => trivial
        | cons u us =>
          cases u with
          | word _ => exact absurd hsym (by simp [headSym])
          | sym c =>
            rw [detok_cons_sym]
            exact hts.1
      rw [detok_cons_word, toks_word _ _ hw hnw, ih hts]

theorem mapWords_wf (f : List Char → List Char)
    (hf : ∀ w, wordish w → wordish (f w)) :
    ∀ ts : List Tok, wfToks ts → wfToks (mapWords f ts) := by
  intro ts
  induction ts with
  | nil => intro _; trivial
  | cons t ts ih =>
    intro h
    cases t with
    | sym c => exact ⟨h.1, ih h.2⟩
    | word w =>
      rcases h with ⟨hw, hsym, hts⟩
      refine ⟨hf w hw, ?_, ih hts⟩
      cases ts with
      | nil => trivial
      | cons u us =>
        cases u with
        | word _ => exact absurd hsym (by simp [headSym])
        | sym c => trivial

theorem mapWords_comp (f g : List Char → List Char) (ts : List Tok) :
    mapWords f (mapWords g ts) = mapWords (fun w => f (g w)) ts := by
  unfold mapWords
  rw [List.map_map]
  apply List.map_congr_left
  intro t _
  cases t <;> rfl

theorem wordMap_comp (f g : List Char → List Char)
    (hg : ∀ w, wordish w → wordish (g w)) (l : List Char) :
    wordMap f (wordMap g l) = wordMap (fun w => f (g w)) l := by
  unfold wordMap
  rw [toks_detok (mapWords g (toks l))
    (mapWords_wf g hg (toks l) (wf_toks l.length l le_rfl)),
    mapWords_comp]

/-! ## Scanner characterization: each substitution pass acts word-wise -/

theorem isWordChar_of_chMatch (k c : Char) (h1 : isWordChar k = true)
    (h2 : isWordChar (upcase k) = true) (h : chMatch k c = true) :
    isWordChar c = true := by
  rcases Bool.or_eq_true _ _ |>.mp h with h | h
  · rw [decide_eq_true_eq.mp h]; exact h1
  · rw [decide_eq_true_eq.mp h]; exact h2

theorem matchKw_some_of : ∀ (kw u t : List Char), kwMatches kw u →
    matchKw kw (u ++ t) = some t := by
  intro kw
  induction kw with
  | nil =>
    intro u t h
    cases u with
    | nil => rfl
    | cons c cs => exact absurd h (by simp [kwMatches])
  | cons k ks ih =>
    intro u t h
    cases u with
    | nil => exact absurd h (by simp [kwMatches])
    | cons c cs =>
      rcases h with ⟨hc, hrest⟩
      simp only [List.cons_append, matchKw, if_pos hc]
      exact ih cs t hrest

theorem matchKw_dest : ∀ (kw l t : List Char), matchKw kw l = some t →
    ∃ u, l = u ++ t ∧ kwMatches kw u := by
  intro kw
  induction kw with
  | nil =>
    intro l t h
    simp only [matchKw, Option.some.injEq] at h
    exact ⟨[], by simp [h], trivial⟩
  | cons k ks ih =>
    intro l t h
    cases l with
    | nil => simp [matchKw] at h
    | cons c cs =>
      by_cases hc : chMatch k c = true
      · simp only [matchKw, if_pos hc] at h
        rcases ih cs t h with ⟨u, hcs, hm⟩
        exact ⟨c :: u, by simp [hcs], hc, hm⟩
      · simp [matchKw, hc] at h

theorem kwMatches_length : ∀ (kw u : List Char), kwMatches kw u →
    u.length = kw.length := by
  intro kw
  induction kw with
  | nil =>
    intro u h
    cases u with
    | nil => rfl
    | cons _ _ => exact absurd h (by simp [kwMatches])
  | cons k ks ih =>
    intro u h
    cases u with
    | nil => exact absurd h (by simp [kwMatches])
    | cons c cs => simpa using ih cs h.2

theorem kwMatches_all_word (kw : List Char) (hk : kwOK kw) :
    ∀ u : List Char, kwMatches kw u → u.all isWordChar = true := by
  rcases hk with ⟨_, hmem⟩
  clear * - hmem
  induction kw with
  | nil =>
    intro u h
    cases u with
    | nil => rfl
    | cons _ _ => exact absurd h (by simp [kwMatches])
  | cons k ks ih =>
    intro u h
    cases u with
    | nil => exact absurd h (by simp [kwMatches])
    | cons c cs =>
      rcases h with ⟨hc, hrest⟩
      have hk' := hmem k (by simp)
      have := isWordChar_of_chMatch k c hk'.1 hk'.2 hc
      simp only [List.all_cons, Bool.and_eq_true]
      exact ⟨this, ih (fun x hx => hmem x (by simp [hx])) cs hrest⟩

theorem boundaryOk_of_headNW (r : List Char) (h : headNW r) :
    boundaryOk r = true := by
  cases r with
  | nil => rfl
  | cons c cs =>
    have h' : isWordChar c = false := h
    simp [boundaryOk, h']

theorem subWordF_nil (kw repl : List Char) (fuel : Nat) (w : Bool) :
    subWordF kw repl fuel w [] = [] := by
  cases fuel <;> rfl

theorem matchKw_head_nw (kw : List Char) (hk : kwOK kw) (c : Char)
    (hc : isWordChar c = false) (cs : List Char) :
    matchKw kw (c :: cs) = none := by
  rcases hk with ⟨hne, hmem⟩
  cases kw with
  | nil => exact absurd rfl hne
  | cons k ks =>
    have hk' := hmem k (by simp)
    by_cases h : chMatch k c = true
    · have := isWordChar_of_chMatch k c hk'.1 hk'.2 h
      rw [this] at hc
      simp at hc
    · simp [matchKw, h]

theorem subWordF_cons_sym (kw repl : List Char) (hk : kwOK kw) (fuel : Nat)
    (c : Char) (cs : List Char) (hc : isWordChar c = false) (w : Bool) :
    subWordF kw repl (fuel + 1) w (c :: cs) =
      c :: subWordF kw repl fuel false cs := by
  cases w with
  | true => simp [subWordF, hc]
  | false => simp [subWordF, matchKw_head_nw kw hk c hc cs, hc]

theorem subWordF_flag_nw (kw repl : List Char) (hk : kwOK kw) (fuel : Nat)
    (l : List Char) (hl : headNW l) (w w' : Bool) :
    subWordF kw repl fuel w l = subWordF kw repl fuel w' l := by
  cases fuel with
  | zero => rfl
  | succ f =>
    cases l with
    | nil => rfl
    | cons c cs =>
      rw [subWordF_cons_sym kw repl hk f c cs hl w,
        subWordF_cons_sym kw repl hk f c cs hl w']

theorem subWordF_cons_true (kw repl : List Char) (fuel : Nat) (c : Char)
    (cs : List Char) :
    subWordF kw repl (fuel + 1) true (c :: cs) =
      c :: subWordF kw repl fuel (isWordChar c) cs := rfl

theorem subWordF_cons_false (kw repl : List Char) (fuel : Nat) (c : Char)
    (cs : List Char) :
    subWordF kw repl (fuel + 1) false (c :: cs) =
      match matchKw kw (c :: cs) with
      | some rest =>
        if boundaryOk rest then repl ++ subWordF kw repl fuel true rest
        else c :: subWordF kw repl fuel (isWordChar c) cs
      | none => c :: subWordF kw repl fuel (isWordChar c) cs := rfl

theorem subWordF_irrel (kw repl : List Char) (hk : kwOK kw) :
    ∀ (n : Nat) (l : List Char), l.length ≤ n →
    ∀ (w : Bool) (fuel fuel' : Nat), l.length ≤ fuel → l.length ≤ fuel' →
    subWordF kw repl fuel w l = subWordF kw repl fuel' w l := by
  intro n
  induction n with
  | zero =>
    intro l hl w fuel fuel' _ _
    have : l = [] := List.length_eq_zero.mp (Nat.le_zero.mp hl)
    subst this
    rw [subWordF_nil, subWordF_nil]
  | succ n ih =>
    intro l hl w fuel fuel' h1 h2
    cases l with
    | nil => rw [subWordF_nil, subWordF_nil]
    | cons c cs =>
      cases fuel with
      | zero => simp at h1
      | succ f =>
        cases fuel' with
        | zero => simp at h2
        | succ f' =>
          have hcs : cs.length ≤ n := by simpa using Nat.succ_le_succ_iff.mp hl
          have hf : cs.length ≤ f := by simpa using Nat.succ_le_succ_iff.mp h1
          have hf' : cs.length ≤ f' := by simpa using Nat.succ_le_succ_iff.mp h2
          cases w with
          | true =>
            rw [subWordF_cons_true, subWordF_cons_true,
              ih cs hcs (isWordChar c) f f' hf hf']
          | false =>
            rw [subWordF_cons_false, subWordF_cons_false]
            cases hm : matchKw kw (c :: cs) with
            | none => rw [ih cs hcs (isWordChar c) f f' hf hf']
            | some rest =>
              rcases matchKw_dest kw _ rest hm with ⟨u, hu, hmm⟩
              have hulen : u.length = kw.length := kwMatches_length kw u hmm
              have hupos : 0 < u.length := by
                rw [hulen]
                cases hc : kw with
                | nil => exact absurd hc hk.1
                | cons _ _ => simp
              have hrlen : rest.length ≤ cs.length := by
                have := congrArg List.length hu
                simp only [List.length_cons, List.length_append] at this
                omega
              cases hb : boundaryOk rest with
              | true =>
                simp only [hb, if_true]
                rw [ih rest (le_trans hrlen hcs) true f f'
                  (le_trans hrlen hf) (le_trans hrlen hf')]
              | false =>
                simp only [hb, Bool.false_eq_true, if_false]
                rw [ih cs hcs (isWordChar c) f f' hf hf']

theorem subWordF_midword (kw repl : List Char) (hk : kwOK kw) :
    ∀ (u : List Char), u.all isWordChar = true →
    ∀ (fuel : Nat) (r : List Char), u.length + r.length ≤ fuel →
    subWordF kw repl fuel true (u ++ r) =
      u ++ subWordF kw repl r.length true r := by
  intro u
  induction u with
  | nil =>
    intro _ fuel r hf
    simp only [List.nil_append]
    exact subWordF_irrel kw repl hk r.length r le_rfl true fuel r.length
      (by simpa using hf) le_rfl
  | cons c u' ih =>
    intro hu fuel r hf
    simp only [List.all_cons, Bool.and_eq_true] at hu
    cases fuel with
    | zero => simp at hf
    | succ f =>
      rw [List.cons_append, subWordF_cons_true, hu.1,
        ih hu.2 f r (by simp only [List.length_cons] at hf; omega)]
      rfl

theorem subWordF_word (kw repl : List Char) (hk : kwOK kw) (w r : List Char)
    (hw : wordish w) (hr : headNW r) (fuel : Nat)
    (hf : (w ++ r).length ≤ fuel) :
    subWordF kw repl fuel false (w ++ r) =
      canonWord1 kw repl w ++ subWordF kw repl r.length false r := by
  rcases hw with ⟨hne, hall⟩
  cases w with
  | nil => exact absurd rfl hne
  | cons c w' =>
    simp only [List.all_cons, Bool.and_eq_true] at hall
    cases fuel with
    | zero => simp at hf
    | succ f =>
      have harith : w'.length + r.length ≤ f := by
        simp only [List.cons_append, List.length_cons, List.length_append] at hf
        omega
      have hcont : c :: subWordF kw repl f (isWordChar c) (w' ++ r) =
          (c :: w') ++ subWordF kw repl r.length false r := by
        rw [hall.1, subWordF_midword kw repl hk w' hall.2 f r harith,
          subWordF_flag_nw kw repl hk r.length r hr true false]
        rfl
      rw [List.cons_append, subWordF_cons_false]
      cases hm : matchKw kw (c :: (w' ++ r)) with
      | none =>
        have hcw : canonWord1 kw repl (c :: w') = c :: w' := by
          unfold canonWord1
          rw [if_neg]
          intro hmw
          rcases matchKw_dest kw _ [] hmw with ⟨u, hu, hmm⟩
          rw [List.append_nil] at hu
          subst hu
          have := matchKw_some_of kw (c :: w') r hmm
          rw [List.cons_append] at this
          rw [this] at hm
          exact Option.noConfusion hm
        rw [hcw]
        exact hcont
      | some rest =>
        rcases matchKw_dest kw _ rest hm with ⟨u, hu, hmm⟩
        have hu' : (c :: w') ++ r = u ++ rest := by simpa using hu
        have huw : u.all isWordChar = true := kwMatches_all_word kw hk u hmm
        cases hb : boundaryOk rest with
        | true =>
          have hur : u = c :: w' ∧ rest = r := by
            rcases List.append_eq_append_iff.mp hu' with ⟨m, hum, hrm⟩ | ⟨m, hum, hrm⟩
            · cases m with
              | nil => exact ⟨by simpa using hum, by simpa using hrm.symm⟩
              | cons x xs =>
                exfalso
                have hx : isWordChar x = true := by
                  have hxu : x ∈ u := by
                    rw [hum]
                    simp
                  exact (List.all_eq_true.mp huw) x hxu
                rw [hrm] at hr
                have hflat : isWordChar x = false := hr
                rw [hx] at hflat
                exact Bool.noConfusion hflat
            · cases m with
              | nil => exact ⟨by simpa using hum.symm, by simpa using hrm⟩
              | cons x xs =>
                exfalso
                have hx : isWordChar x = true := by
                  have hxw : x ∈ c :: w' := by
                    rw [hum]
                    simp
                  rcases List.mem_cons.mp hxw with h | h
                  · rw [h]; exact hall.1
                  · exact (List.all_eq_true.mp hall.2) x h
                rw [hrm] at hb
                simp [boundaryOk, hx] at hb
          rcases hur with ⟨hu1, hu2⟩
          subst hu1
          subst hu2
          have hcw : canonWord1 kw repl (c :: w') = repl := by
            unfold canonWord1
            rw [if_pos]
            have := matchKw_some_of kw (c :: w') [] hmm
            simpa using this
          rw [hcw]
          simp only [hb, if_true]
          rw [subWordF_flag_nw kw repl hk f rest hr true false,
            subWordF_irrel kw repl hk rest.length rest le_rfl false f rest.length
              (by
                simp only [List.cons_append, List.length_cons,
                  List.length_append] at hf
                omega) le_rfl]
        | false =>
          have hcw : canonWord1 kw repl (c :: w') = c :: w' := by
            unfold canonWord1
            rw [if_neg]
            intro hmw
            rcases matchKw_dest kw _ [] hmw with ⟨u2, hu2, hmm2⟩
            rw [List.append_nil] at hu2
            subst hu2
            have := matchKw_some_of kw (c :: w') r hmm2
            rw [List.cons_append] at this
            rw [this] at hm
            have hrr : rest = r := by
              injection hm with hm
              exact hm.symm
            subst hrr
            rw [boundaryOk_of_headNW rest hr] at hb
            exact Bool.noConfusion hb
          rw [hcw]
          simp only [hb, Bool.false_eq_true, if_false]
          exact hcont

theorem subWordF_eq_wordMap (kw repl : List Char) (hk : kwOK kw) :
    ∀ (n : Nat) (l : List Char), l.length ≤ n →
    subWordF kw repl l.length false l = wordMap (canonWord1 kw repl) l := by
  intro n
  induction n with
  | zero =>
    intro l hl
    have : l = [] := List.length_eq_zero.mp (Nat.le_zero.mp hl)
    subst this
    rfl
  | succ n ih =>
    intro l hl
    cases l with
    | nil => rfl
    | cons c cs =>
      by_cases h : isWordChar c = true
      · have hsplit : c :: cs =
            (c :: cs.takeWhile isWordChar) ++ cs.dropWhile isWordChar := by
          rw [List.cons_append, List.takeWhile_append_dropWhile]
        have hw : wordish (c :: cs.takeWhile isWordChar) :=
          ⟨by simp, by simp [List.all_cons, h, List.all_takeWhile]⟩
        have hrd : headNW (cs.dropWhile isWordChar) := headNW_dropWhile cs
        have hlen : ((c :: cs.takeWhile isWordChar) ++
            cs.dropWhile isWordChar).length ≤ (c :: cs).length := by
          rw [← hsplit]
        conv_lhs => rw [hsplit]
        rw [subWordF_word kw repl hk _ _ hw hrd _ le_rfl]
        rw [ih (cs.dropWhile isWordChar)
          (le_trans (List.dropWhile_sublist _).length_le
            (by simpa using Nat.succ_le_succ_iff.mp hl))]
        conv_rhs => rw [hsplit]
        rw [wordMap_word _ _ _ hw hrd]
      · simp only [Bool.not_eq_true] at h
        have : (c :: cs).length = cs.length + 1 := by simp
        rw [this, subWordF_cons_sym kw repl hk cs.length c cs h false,
          ih cs (by simpa using Nat.succ_le_succ_iff.mp hl),
          wordMap_cons_sym _ c cs h]

theorem subWord_eq_wordMap (kw repl : String) (hk : kwOK kw.data)
    (l : List Char) :
    subWord kw repl l = wordMap (canonWord1 kw.data repl.data) l :=
  subWordF_eq_wordMap kw.data repl.data hk l.length l le_rfl

theorem canonWord1_wordish (kw repl : List Char) (hrepl : wordish repl)
    (w : List Char) (hw : wordish w) : wordish (canonWord1 kw repl w) := by
  unfold canonWord1
  by_cases h : matchKw kw w = some ([] : List Char)
  · rw [if_pos h]; exact hrepl
  · rw [if_neg h]; exact hw

theorem pyNormalizeChars_eq_wordMap (l : List Char) :
    pyNormalizeChars l = wordMap canonKw l := by
  have hkF : kwOK "false".data := by
    refine ⟨by decide, ?_⟩
    intro k hk
    fin_cases hk <;> exact ⟨by decide, by decide⟩
  have hkT : kwOK "true".data := by
    refine ⟨by decide, ?_⟩
    intro k hk
    fin_cases hk <;> exact ⟨by decide, by decide⟩
  have hkN : kwOK "null".data := by
    refine ⟨by decide, ?_⟩
    intro k hk
    fin_cases hk <;> exact ⟨by decide, by decide⟩
  have hwF : wordish "False".data := ⟨by decide, by decide⟩
  have hwT : wordish "True".data := ⟨by decide, by decide⟩
  unfold pyNormalizeChars
  rw [subWord_eq_wordMap "false" "False" hkF l,
    subWord_eq_wordMap "true" "True" hkT _,
    subWord_eq_wordMap "null" "None" hkN _,
    wordMap_comp _ _ (canonWord1_wordish _ _ hwT),
    wordMap_comp _ _ (canonWord1_wordish _ _ hwF)]
  rfl

theorem detok_toks : ∀ (n : Nat) (l : List Char), l.length ≤ n →
    detok (toks l) = l := by
  intro n
  induction n with
  | zero =>
    intro l hl
    have : l = [] := List.length_eq_zero.mp (Nat.le_zero.mp hl)
    subst this
    rfl
  | succ n ih =>
    intro l hl
    cases l with
    | nil => rfl
    | cons c cs =>
      by_cases h : isWordChar c = true
      · have hsplit : c :: cs =
            (c :: cs.takeWhile isWordChar) ++ cs.dropWhile isWordChar := by
          rw [List.cons_append, List.takeWhile_append_dropWhile]
        have hw : wordish (c :: cs.takeWhile isWordChar) :=
          ⟨by simp, by simp [List.all_cons, h, List.all_takeWhile]⟩
        conv_lhs => rw [hsplit]
        rw [toks_word _ _ hw (headNW_dropWhile cs), detok_cons_word,
          ih (cs.dropWhile isWordChar)
            (le_trans (List.dropWhile_sublist _).length_le
              (by simpa using Nat.succ_le_succ_iff.mp hl))]
        exact hsplit.symm
      · simp only [Bool.not_eq_true] at h
        rw [toks_cons_sym c cs h, detok_cons_sym,
          ih cs (by simpa using Nat.succ_le_succ_iff.mp hl)]

theorem mapWords_eq_self (f : List Char → List Char) (ts : List Tok)
    (h : ∀ w, Tok.word w ∈ ts → f w = w) : mapWords f ts = ts := by
  induction ts with
  | nil => rfl
  | cons t ts ih =>
    cases t with
    | word w =>
      have hw : f w = w := h w (by simp)
      simp only [mapWords, List.map_cons, hw]
      have := ih (fun w hw => h w (by simp [hw]))
      simp only [mapWords] at this
      rw [this]
    | sym c =>
      simp only [mapWords, List.map_cons]
      have := ih (fun w hw => h w (by simp [hw]))
      simp only [mapWords] at this
      rw [this]

theorem wordMap_eq_self_of_words (f : List Char → List Char) (l : List Char)
    (h : ∀ w, Tok.word w ∈ toks l → f w = w) : wordMap f l = l := by
  unfold wordMap
  rw [mapWords_eq_self f _ h, detok_toks l.length l le_rfl]

theorem words_of_wordMap (f : List Char → List Char)
    (hf : ∀ w, wordish w → wordish (f w)) (l : List Char) :
    ∀ w, Tok.word w ∈ toks (wordMap f l) →
    ∃ w0, Tok.word w0 ∈ toks l ∧ w = f w0 := by
  intro w hw
  unfold wordMap at hw
  rw [toks_detok (mapWords f (toks l))
    (mapWords_wf f hf (toks l) (wf_toks l.length l le_rfl))] at hw
  unfold mapWords at hw
  rcases List.mem_map.mp hw with ⟨t0, ht0, heq⟩
  cases t0 with
  | word w0 =>
    simp only [Tok.word.injEq] at heq
    exact ⟨w0, ht0, heq.symm⟩
  | sym c => simp at heq

theorem canonKw_idem (w : List Char) : canonKw (canonKw w) = canonKw w := by
  unfold canonKw canonWord1
  by_cases hF : matchKw "false".data w = some ([] : List Char)
  · simp only [if_pos hF]
    decide
  · by_cases hT : matchKw "true".data w = some ([] : List Char)
    · simp only [if_neg hF, if_pos hT]
      decide
    · by_cases hN : matchKw "null".data w = some ([] : List Char)
      · simp only [if_neg hF, if_neg hT, if_pos hN]
        decide
      · simp only [if_neg hF, if_neg hT, if_neg hN]

theorem canonKw_wordish (w : List Char) (hw : wordish w) :
    wordish (canonKw w) := by
  unfold canonKw
  exact canonWord1_wordish _ _ ⟨by decide, by decide⟩ _
    (canonWord1_wordish _ _ ⟨by decide, by decide⟩ _
      (canonWord1_wordish _ _ ⟨by decide, by decide⟩ _ hw))

theorem words_of_normalized_fixed (l : List Char) :
    ∀ w, Tok.word w ∈ toks (pyNormalizeChars l) → canonKw w = w := by
  rw [pyNormalizeChars_eq_wordMap]
  intro w hw
  rcases words_of_wordMap canonKw canonKw_wordish l w hw with ⟨w0, _, rfl⟩
  exact canonKw_idem w0

/-! ## Whitespace, escape, and fixed-text lemmas -/

theorem not_word_of_ws (c : Char) (h : isWsChar c = true) :
    isWordChar c = false := by
  unfold isWsChar at h
  rcases Bool.or_eq_true _ _ |>.mp h with h | h
  · rcases Bool.or_eq_true _ _ |>.mp h with h | h
    · rcases Bool.or_eq_true _ _ |>.mp h with h | h
      · rw [decide_eq_true_eq.mp h]; decide
      · rw [decide_eq_true_eq.mp h]; decide
    · rw [decide_eq_true_eq.mp h]; decide
  · rw [decide_eq_true_eq.mp h]; decide

theorem not_ws_of_word (c : Char) (h : isWordChar c = true) :
    isWsChar c = false := by
  cases hw : isWsChar c with
  | false => rfl
  | true => rw [not_word_of_ws c hw] at h; exact Bool.noConfusion h

theorem dropWhile_append_sat (p : Char → Bool) (a b : List Char)
    (ha : a.all p = true) : (a ++ b).dropWhile p = b.dropWhile p := by
  induction a with
  | nil => rfl
  | cons c cs ih =>
    simp only [List.all_cons, Bool.and_eq_true] at ha
    simp [List.dropWhile_cons, ha.1, ih ha.2]

theorem skipWs_split (l : List Char) :
    l = l.takeWhile isWsChar ++ skipWs l :=
  (List.takeWhile_append_dropWhile isWsChar l).symm

theorem all_ws_takeWhile (l : List Char) :
    (l.takeWhile isWsChar).all isWsChar = true :=
  List.all_takeWhile

theorem all_nw_of_all_ws (p : List Char) (hp : p.all isWsChar = true) :
    p.all (fun c => !isWordChar c) = true := by
  rw [List.all_eq_true] at hp ⊢
  intro c hc
  simp [not_word_of_ws c (hp c hc)]

theorem wordMap_nw_pre (f : List Char → List Char) :
    ∀ (p : List Char), p.all (fun c => !isWordChar c) = true →
    ∀ l, wordMap f (p ++ l) = p ++ wordMap f l := by
  intro p
  induction p with
  | nil => intro _ l; rfl
  | cons c cs ih =>
    intro hp l
    simp only [List.all_cons, Bool.and_eq_true] at hp
    have hc : isWordChar c = false := by
      cases hx : isWordChar c
      · rfl
      · rw [hx] at hp; simp at hp
    rw [List.cons_append, wordMap_cons_sym f c _ hc, ih hp.2 l]
    rfl

theorem canonWord1_length (kw repl : List Char) (hlen : repl.length = kw.length)
    (w : List Char) : (canonWord1 kw repl w).length = w.length := by
  unfold canonWord1
  by_cases h : matchKw kw w = some ([] : List Char)
  · rw [if_pos h]
    rcases matchKw_dest kw w [] h with ⟨u, hu, hmm⟩
    rw [List.append_nil] at hu
    subst hu
    rw [hlen, kwMatches_length kw w hmm]
  · rw [if_neg h]

theorem canonKw_length (w : List Char) : (canonKw w).length = w.length := by
  unfold canonKw
  rw [canonWord1_length _ _ (by decide), canonWord1_length _ _ (by decide),
    canonWord1_length _ _ (by decide)]

theorem fixedChars_nil : fixedChars [] := rfl

theorem fixedChars_cons_sym (c : Char) (l : List Char)
    (hc : isWordChar c = false) : fixedChars (c :: l) ↔ fixedChars l := by
  unfold fixedChars
  rw [wordMap_cons_sym canonKw c l hc]
  constructor
  · intro h
    injection h
  · intro h
    rw [h]

theorem fixedChars_append_word (w r : List Char) (hw : wordish w)
    (hr : headNW r) : fixedChars (w ++ r) ↔ canonKw w = w ∧ fixedChars r := by
  unfold fixedChars
  rw [wordMap_word canonKw w r hw hr]
  constructor
  · intro h
    have hlen : (canonKw w).length = w.length := canonKw_length w
    have := List.append_inj h (by rw [hlen])
    exact ⟨this.1, this.2⟩
  · intro ⟨h1, h2⟩
    rw [h1, h2]

theorem escJson_nil : escJson [] = [] := rfl

theorem escJson_cons (c : Char) (l : List Char) :
    escJson (c :: l) = escJsonChar c ++ escJson l := rfl

theorem escJson_append (a b : List Char) :
    escJson (a ++ b) = escJson a ++ escJson b := by
  induction a with
  | nil => rfl
  | cons c cs ih =>
    rw [List.cons_append, escJson_cons, escJson_cons, ih, List.append_assoc]

theorem escJsonChar_word (c : Char) (hc : isWordChar c = true) :
    escJsonChar c = [c] := by
  unfold escJsonChar
  rw [if_neg]
  intro h
  rcases Bool.or_eq_true _ _ |>.mp h with h | h
  · rw [decide_eq_true_eq.mp h] at hc
    exact Bool.noConfusion hc
  · rw [decide_eq_true_eq.mp h] at hc
    exact Bool.noConfusion hc

theorem escJson_all_word (w : List Char) (hw : w.all isWordChar = true) :
    escJson w = w := by
  induction w with
  | nil => rfl
  | cons c cs ih =>
    simp only [List.all_cons, Bool.and_eq_true] at hw
    rw [escJson_cons, escJsonChar_word c hw.1, ih hw.2]
    rfl

theorem escJson_head_nw (l : List Char) (hl : headNW l) :
    headNW (escJson l) := by
  cases l with
  | nil => trivial
  | cons c cs =>
    rw [escJson_cons]
    unfold escJsonChar
    by_cases h : (decide (c = '"') || decide (c = '\\')) = true
    · rw [if_pos h]
      show isWordChar '\\' = false
      decide
    · rw [if_neg h]
      exact hl

theorem escJson_fixed : ∀ (n : Nat) (l : List Char), l.length ≤ n →
    fixedChars l → fixedChars (escJson l) := by
  intro n
  induction n with
  | zero =>
    intro l hl _
    have : l = [] := List.length_eq_zero.mp (Nat.le_zero.mp hl)
    subst this
    exact fixedChars_nil
  | succ n ih =>
    intro l hl hf
    cases l with
    | nil => exact fixedChars_nil
    | cons c cs =>
      by_cases h : isWordChar c = true
      · have hsplit : c :: cs =
            (c :: cs.takeWhile isWordChar) ++ cs.dropWhile isWordChar := by
          rw [List.cons_append, List.takeWhile_append_dropWhile]
        have hw : wordish (c :: cs.takeWhile isWordChar) :=
          ⟨by simp, by simp [List.all_cons, h, List.all_takeWhile]⟩
        have hrd : headNW (cs.dropWhile isWordChar) := headNW_dropWhile cs
        rw [hsplit] at hf
        rw [hsplit, escJson_append,
          escJson_all_word (c :: cs.takeWhile isWordChar) hw.2]
        rcases (fixedChars_append_word _ _ hw hrd).mp hf with ⟨hcw, hfr⟩
        refine (fixedChars_append_word _ _ hw (escJson_head_nw _ hrd)).mpr
          ⟨hcw, ?_⟩
        exact ih (cs.dropWhile isWordChar)
          (le_trans (List.dropWhile_sublist _).length_le
            (by simpa using Nat.succ_le_succ_iff.mp hl)) hfr
      · simp only [Bool.not_eq_true] at h
        have hf' := (fixedChars_cons_sym c cs h).mp hf
        have ihcs := ih cs (by simpa using Nat.succ_le_succ_iff.mp hl) hf'
        rw [escJson_cons]
        unfold escJsonChar
        by_cases hq : (decide (c = '"') || decide (c = '\\')) = true
        · rw [if_pos hq]
          have h1 : isWordChar '\\' = false := by decide
          exact (fixedChars_cons_sym _ _ h1).mpr
            ((fixedChars_cons_sym _ _ h).mpr ihcs)
        · rw [if_neg hq]
          exact (fixedChars_cons_sym _ _ h).mpr ihcs

/-! ## String-body parsing lemmas -/

theorem parseStrBody_zero (q : Char) (escs : List Char) (hx : Bool)
    (cs : List Char) : parseStrBody q escs hx 0 cs = none := rfl

theorem parseStrBody_nil (q : Char) (escs : List Char) (hx : Bool)
    (fuel : Nat) : parseStrBody q escs hx (fuel + 1) [] = none := rfl

theorem parseStrBody_quote (q : Char) (escs : List Char) (hx : Bool)
    (fuel : Nat) (cs : List Char) :
    parseStrBody q escs hx (fuel + 1) (q :: cs) = some ([], cs) := by
  simp [parseStrBody]

theorem parseStrBody_esc (q : Char) (escs : List Char) (hx : Bool)
    (fuel : Nat) (e : Char) (cs : List Char) (hq : '\\' ≠ q)
    (he : escs.contains e = true) (hxe : hx = false ∨ e ≠ 'x') :
    parseStrBody q escs hx (fuel + 1) ('\\' :: e :: cs) =
      (parseStrBody q escs hx fuel cs).map (fun p => (e :: p.1, p.2)) := by
  have he2 : e ∈ escs := by simpa using he
  rcases hxe with h | h
  · subst h; simp [parseStrBody, hq, he2]
  · simp [parseStrBody, hq, he2, h]

theorem parseStrBody_esc_bad (q : Char) (escs : List Char) (hx : Bool)
    (fuel : Nat) (e : Char) (cs : List Char) (hq : '\\' ≠ q)
    (he : ¬escs.contains e = true) (hxe : hx = false ∨ e ≠ 'x') :
    parseStrBody q escs hx (fuel + 1) ('\\' :: e :: cs) = none := by
  have he2 : e ∉ escs := by simpa using he
  rcases hxe with h | h
  · subst h; simp [parseStrBody, hq, he2]
  · simp [parseStrBody, hq, he2, h]

theorem parseStrBody_reg (q : Char) (escs : List Char) (hx : Bool)
    (fuel : Nat) (c : Char) (cs : List Char) (hq : c ≠ q) (hb : c ≠ '\\') :
    parseStrBody q escs hx (fuel + 1) (c :: cs) =
      (parseStrBody q escs hx fuel cs).map (fun p => (c :: p.1, p.2)) := by
  simp [parseStrBody, hq, hb]

theorem parseStrBody_json_dest : ∀ (fuel : Nat) (cs s r : List Char),
    parseStrBody '"' jsonEscs false fuel cs = some (s, r) →
    cs = escJson s ++ '"' :: r := by
  intro fuel
  induction fuel with
  | zero =>
    intro cs s r h
    rw [parseStrBody_zero] at h
    exact Option.noConfusion h
  | succ f ih =>
    intro cs s r h
    cases cs with
    | nil =>
      rw [parseStrBody_nil] at h
      exact Option.noConfusion h
    | cons c cs' =>
      by_cases hqc : c = '"'
      · subst hqc
        rw [parseStrBody_quote] at h
        injection h with h
        rw [Prod.mk.injEq] at h
        rw [← h.1, ← h.2]
        rfl
      · by_cases hbc : c = '\\'
        · subst hbc
          cases cs' with
          | nil =>
            exfalso
            unfold parseStrBody at h
            rw [if_neg (by decide : ¬('\\' = '"')), if_pos rfl] at h
            exact Option.noConfusion h
          | cons e cs2 =>
            by_cases he : jsonEscs.contains e = true
            · rw [parseStrBody_esc '"' jsonEscs false f e cs2 (by decide) he
                (Or.inl rfl)] at h
              cases hrec : parseStrBody '"' jsonEscs false f cs2 with
              | none => rw [hrec] at h; exact Option.noConfusion h
              | some p =>
                rcases p with ⟨s', r'⟩
                rw [hrec] at h
                simp only [Option.map] at h
                injection h with h
                rw [Prod.mk.injEq] at h
                have hgoal := ih cs2 s' r' hrec
                rw [← h.1, ← h.2, hgoal]
                have hec : escJsonChar e = ['\\', e] := by
                  simp only [jsonEscs, List.contains_cons] at he
                  rcases Bool.or_eq_true _ _ |>.mp he with h1 | h1
                  · rw [beq_iff_eq.mp h1]; rfl
                  · simp only [List.contains_cons, List.contains_nil,
                      Bool.or_false] at h1
                    rw [beq_iff_eq.mp h1]; rfl
                rw [escJson_cons, hec]
                rfl
            · rw [parseStrBody_esc_bad '"' jsonEscs false f e cs2 (by decide)
                he (Or.inl rfl)] at h
              exact Option.noConfusion h
        · rw [parseStrBody_reg '"' jsonEscs false f c cs' hqc hbc] at h
          cases hrec : parseStrBody '"' jsonEscs false f cs' with
          | none => rw [hrec] at h; exact Option.noConfusion h
          | some p =>
            rcases p with ⟨s', r'⟩
            rw [hrec] at h
            simp only [Option.map] at h
            injection h with h
            rw [Prod.mk.injEq] at h
            have hgoal := ih cs' s' r' hrec
            rw [← h.1, ← h.2, hgoal]
            have hec : escJsonChar c = [c] := by
              unfold escJsonChar
              rw [if_neg]
              intro hcc
              rcases Bool.or_eq_true _ _ |>.mp hcc with h1 | h1
              · exact hqc (decide_eq_true_eq.mp h1)
              · exact hbc (decide_eq_true_eq.mp h1)
            rw [escJson_cons, hec]
            rfl


theorem escJson_length_ge (s : List Char) : s.length ≤ (escJson s).length := by
  induction s with
  | nil => simp
  | cons c cs ih =>
    rw [escJson_cons]
    unfold escJsonChar
    by_cases h : (decide (c = '"') || decide (c = '\\')) = true
    · rw [if_pos h]
      simp only [List.length_append, List.length_cons]
      omega
    · rw [if_neg h]
      simp only [List.length_append, List.length_cons]
      omega

theorem parseStrBody_run (escs : List Char) (hx : Bool)
    (hq : escs.contains '"' = true) (hb : escs.contains '\\' = true) :
    ∀ (s : List Char) (fuel : Nat) (tail : List Char),
    s.length + 1 ≤ fuel →
    parseStrBody '"' escs hx fuel (escJson s ++ '"' :: tail) =
      some (s, tail) := by
  intro s
  induction s with
  | nil =>
    intro fuel tail hf
    cases fuel with
    | zero => simp at hf
    | succ f =>
      rw [escJson_nil, List.nil_append, parseStrBody_quote]
  | cons c s' ih =>
    intro fuel tail hf
    cases fuel with
    | zero => simp at hf
    | succ f =>
      have hf' : s'.length + 1 ≤ f := by
        simp only [List.length_cons] at hf
        omega
      rw [escJson_cons]
      unfold escJsonChar
      by_cases h : (decide (c = '"') || decide (c = '\\')) = true
      · rw [if_pos h]
        have hce : escs.contains c = true := by
          rcases Bool.or_eq_true _ _ |>.mp h with h1 | h1
          · rw [decide_eq_true_eq.mp h1]; exact hq
          · rw [decide_eq_true_eq.mp h1]; exact hb
        have : ('\\' :: c :: []) ++ (escJson s' ++ '"' :: tail) =
            '\\' :: c :: (escJson s' ++ '"' :: tail) := rfl
        rw [List.append_assoc]
        rw [this]
        have hcx : c ≠ 'x' := by
          intro hc
          rw [hc] at h
          simp at h
        rw [parseStrBody_esc '"' escs hx f c _ (by decide) hce (Or.inr hcx),
          ih f tail hf']
        rfl
      · rw [if_neg h]
        have hq' : c ≠ '"' := by
          intro hc
          exact absurd (by rw [hc]; simp : (decide (c = '"') ||
            decide (c = '\\')) = true) h
        have hb' : c ≠ '\\' := by
          intro hc
          exact absurd (by rw [hc]; simp : (decide (c = '"') ||
            decide (c = '\\')) = true) h
        have : ([c] : List Char) ++ (escJson s' ++ '"' :: tail) =
            c :: (escJson s' ++ '"' :: tail) := rfl
        rw [List.append_assoc, this,
          parseStrBody_reg '"' escs hx f c _ hq' hb', ih f tail hf']
        rfl

/-! ## Number lemmas -/

theorem word_of_digit (c : Char) (h : c.isDigit = true) :
    isWordChar c = true := by
  unfold isWordChar Char.isAlphanum
  simp [h]

theorem canonWord1_digits (kw repl : List Char) (k0 : Char) (ks : List Char)
    (hkw : kw = k0 :: ks) (hk0 : Char.isDigit k0 = false)
    (hk0u : Char.isDigit (upcase k0) = false)
    (w : List Char) (hw : w.all Char.isDigit = true) :
    canonWord1 kw repl w = w := by
  unfold canonWord1
  rw [if_neg]
  intro hm
  rcases matchKw_dest kw w [] hm with ⟨u, hu, hmm⟩
  rw [List.append_nil] at hu
  subst hu
  subst hkw
  cases w with
  | nil => exact hmm
  | cons c cs =>
    rcases hmm with ⟨hc, _⟩
    simp only [List.all_cons, Bool.and_eq_true] at hw
    rcases Bool.or_eq_true _ _ |>.mp hc with h1 | h1
    · rw [decide_eq_true_eq.mp h1] at hw
      rw [hk0] at hw
      exact Bool.noConfusion hw.1
    · rw [decide_eq_true_eq.mp h1] at hw
      rw [hk0u] at hw
      exact Bool.noConfusion hw.1

theorem canonKw_digits (w : List Char) (hw : w.all Char.isDigit = true) :
    canonKw w = w := by
  unfold canonKw
  rw [canonWord1_digits "false".data "False".data 'f' "alse".data rfl
      (by decide) (by decide) w hw,
    canonWord1_digits "true".data "True".data 't' "rue".data rfl
      (by decide) (by decide) w hw,
    canonWord1_digits "null".data "None".data 'n' "ull".data rfl
      (by decide) (by decide) w hw]

theorem parseUIntTok_dest (l : List Char) (n : Nat) (r : List Char)
    (h : parseUIntTok l = some (n, r)) :
    ∃ ds : List Char, l = ds ++ r ∧ ds ≠ [] ∧ ds.all Char.isDigit = true ∧
    (∀ tail : List Char,
      (match tail with | [] => True | c :: _ => Char.isDigit c = false) →
      parseUIntTok (ds ++ tail) = some (n, tail)) := by
  cases l with
  | nil => exact absurd h (by simp [parseUIntTok])
  | cons c cs =>
    by_cases h0 : c = '0'
    · subst h0
      simp only [parseUIntTok, if_pos rfl] at h
      injection h with h
      rw [Prod.mk.injEq] at h
      refine ⟨['0'], by simp [h.2], by simp, by decide, ?_⟩
      intro tail _
      have hpt : parseUIntTok ('0' :: tail) = some (0, tail) := by
        simp [parseUIntTok]
      show parseUIntTok ('0' :: tail) = some (n, tail)
      rw [hpt, ← h.1]
    · by_cases hd : c.isDigit = true
      · simp only [parseUIntTok, if_neg h0, if_pos hd] at h
        injection h with h
        rw [Prod.mk.injEq] at h
        refine ⟨c :: cs.takeWhile Char.isDigit, ?_, by simp, ?_, ?_⟩
        · rw [← h.2]
          rw [List.cons_append, List.takeWhile_append_dropWhile]
        · simp [List.all_cons, hd, List.all_takeWhile]
        · intro tail htail
          simp only [List.cons_append, parseUIntTok, if_neg h0, if_pos hd]
          rw [takeWhile_append_all Char.isDigit _ tail List.all_takeWhile htail,
            dropWhile_append_all Char.isDigit _ tail List.all_takeWhile htail,
            ← h.1]
      · simp [parseUIntTok, h0, hd] at h

theorem digitsToNat_append (ds : List Char) (d : Char) :
    digitsToNat (ds ++ [d]) = 10 * digitsToNat ds + digitVal d := by
  unfold digitsToNat
  rw [List.foldl_append]
  rfl

theorem natCharsAux_spec : ∀ (fuel n : Nat), n < fuel →
    digitsToNat (natCharsAux fuel n) = n ∧
    natCharsAux fuel n ≠ [] ∧
    (natCharsAux fuel n).all Char.isDigit = true ∧
    (n ≠ 0 → ∀ ds, natCharsAux fuel n = '0' :: ds → False) := by
  intro fuel
  induction fuel with
  | zero => intro n hn; omega
  | succ f ih =>
    intro n hn
    by_cases h10 : n < 10
    · simp only [natCharsAux, if_pos h10]
      interval_cases n <;>
        exact ⟨by decide, by decide, by decide, by
          intro h0 ds hds
          first
          | exact absurd rfl h0
          | (injection hds with h1 h2; exact absurd h1 (by decide))⟩
    · simp only [natCharsAux, if_neg h10]
      have hdiv : n / 10 < f := by omega
      rcases ih (n / 10) hdiv with ⟨hval, hne, hdig, hzero⟩
      refine ⟨?_, by simp, ?_, ?_⟩
      · rw [digitsToNat_append, hval]
        have hlt : n % 10 < 10 := Nat.mod_lt _ (by omega)
        have : digitVal (digitCharTen (n % 10)) = n % 10 := by
          have h10' := hlt
          interval_cases h : n % 10 <;> decide
        rw [this]
        omega
      · rw [List.all_append, hdig]
        have hlt : n % 10 < 10 := Nat.mod_lt _ (by omega)
        have : (digitCharTen (n % 10)).isDigit = true := by
          interval_cases h : n % 10 <;> decide
        simp [this]
      · intro _ ds hds
        cases hh : natCharsAux f (n / 10) with
        | nil => exact hne hh
        | cons x xs =>
          rw [hh] at hds
          simp only [List.cons_append] at hds
          injection hds with h1 h2
          exact hzero (by omega) xs (by rw [hh, h1])

theorem natChars_spec (n : Nat) :
    digitsToNat (natChars n) = n ∧ natChars n ≠ [] ∧
    (natChars n).all Char.isDigit = true ∧
    (n ≠ 0 → ∀ ds, natChars n = '0' :: ds → False) :=
  natCharsAux_spec (n + 1) n (by omega)

theorem parseUIntTok_natChars (n : Nat) (tail : List Char)
    (htail : match tail with | [] => True | c :: _ => Char.isDigit c = false) :
    parseUIntTok (natChars n ++ tail) = some (n, tail) := by
  rcases natChars_spec n with ⟨hval, hne, hdig, hzero⟩
  by_cases h0 : n = 0
  · subst h0
    have hn0 : natChars 0 = ['0'] := by decide
    rw [hn0]
    show parseUIntTok ('0' :: tail) = some (0, tail)
    simp [parseUIntTok]
  · cases hh : natChars n with
    | nil => exact absurd hh hne
    | cons c cs =>
      have hcd : c.isDigit = true := by
        rw [hh] at hdig
        simp only [List.all_cons, Bool.and_eq_true] at hdig
        exact hdig.1
      have hc0 : ¬c = '0' := by
        intro hc
        exact hzero h0 cs (by rw [hh, hc])
      have hcs : cs.all Char.isDigit = true := by
        rw [hh] at hdig
        simp only [List.all_cons, Bool.and_eq_true] at hdig
        exact hdig.2
      rw [hh] at hval
      simp only [List.cons_append, parseUIntTok, if_neg hc0, if_pos hcd]
      rw [takeWhile_append_all Char.isDigit _ tail hcs htail,
        dropWhile_append_all Char.isDigit _ tail hcs htail, hval]

/-! ## Decimal arithmetic of digit runs -/

theorem foldl_digits : ∀ (B : List Char) (n : Nat),
    List.foldl (fun n c => 10 * n + digitVal c) n B =
      n * 10 ^ B.length + digitsToNat B := by
  intro B
  induction B with
  | nil => intro n; simp [digitsToNat]
  | cons b B ih =>
    intro n
    have h1 : digitsToNat (b :: B) =
        digitVal b * 10 ^ B.length + digitsToNat B := by
      show List.foldl _ (10 * 0 + digitVal b) B = _
      rw [show 10 * 0 + digitVal b = digitVal b from by omega, ih]
    show List.foldl _ (10 * n + digitVal b) B =
      n * 10 ^ (b :: B).length + digitsToNat (b :: B)
    rw [ih, h1, List.length_cons, pow_succ]
    ring

theorem digitsToNat_split (A B : List Char) :
    digitsToNat (A ++ B) = digitsToNat A * 10 ^ B.length + digitsToNat B := by
  unfold digitsToNat
  rw [List.foldl_append]
  exact foldl_digits B _

theorem digitsToNat_zeros (k : Nat) :
    digitsToNat (List.replicate k '0') = 0 := by
  induction k with
  | zero => rfl
  | succ k ih =>
    rw [List.replicate_succ]
    show List.foldl _ (10 * 0 + digitVal '0') _ = 0
    rw [show (10 * 0 + digitVal '0') = 0 from by decide]
    exact ih

theorem digitsToNat_append_zeros (D : List Char) (k : Nat) :
    digitsToNat (D ++ List.replicate k '0') = digitsToNat D * 10 ^ k := by
  rw [digitsToNat_split, digitsToNat_zeros, List.length_replicate]
  simp

theorem digitsToNat_zeros_append (k : Nat) (D : List Char) :
    digitsToNat (List.replicate k '0' ++ D) = digitsToNat D := by
  rw [digitsToNat_split, digitsToNat_zeros]
  simp

theorem all_digits_replicate_zero (k : Nat) :
    (List.replicate k '0').all Char.isDigit = true := by
  rw [List.all_eq_true]
  intro x hx
  rw [List.eq_of_mem_replicate hx]
  decide

/-! ## Digit-run parsing -/

theorem dropWhile_head_not (p : Char → Bool) (l : List Char) :
    match l.dropWhile p with | [] => True | c :: _ => p c = false := by
  induction l with
  | nil => trivial
  | cons c cs ih =>
    by_cases h : p c = true
    · simpa [List.dropWhile_cons, h] using ih
    · simp only [Bool.not_eq_true] at h
      simp [List.dropWhile_cons, h]

theorem parseDigitsRun_run (F tail : List Char) (hne : F ≠ [])
    (hdig : F.all Char.isDigit = true)
    (htail : match tail with | [] => True | c :: _ => Char.isDigit c = false) :
    parseDigitsRun (F ++ tail) = some (F, tail) := by
  cases F with
  | nil => exact absurd rfl hne
  | cons c cs =>
    simp only [List.all_cons, Bool.and_eq_true] at hdig
    simp only [List.cons_append, parseDigitsRun, if_pos hdig.1]
    rw [takeWhile_append_all _ _ _ hdig.2 htail,
      dropWhile_append_all _ _ _ hdig.2 htail]

theorem parseDigitsRun_dest (l F r : List Char) :
    parseDigitsRun l = some (F, r) →
    l = F ++ r ∧ F ≠ [] ∧ F.all Char.isDigit = true ∧
      (match r with | [] => True | c :: _ => Char.isDigit c = false) := by
  intro h
  cases l with
  | nil => exact Option.noConfusion h
  | cons c cs =>
    by_cases hc : c.isDigit = true
    · simp only [parseDigitsRun, if_pos hc] at h
      injection h with h
      rw [Prod.mk.injEq] at h
      obtain ⟨h1, h2⟩ := h
      subst h1
      subst h2
      refine ⟨?_, ?_, ?_, ?_⟩
      · simp [List.takeWhile_append_dropWhile]
      · simp
      · simp [List.all_cons, hc, List.all_takeWhile]
      · exact dropWhile_head_not Char.isDigit cs
    · simp only [parseDigitsRun, if_neg hc] at h
      exact Option.noConfusion h

theorem parseUIntTok_digits (c : Char) (cs tail : List Char)
    (hcd : c.isDigit = true) (hc0 : c ≠ '0') (hcs : cs.all Char.isDigit = true)
    (htail : match tail with | [] => True | d :: _ => Char.isDigit d = false) :
    parseUIntTok ((c :: cs) ++ tail) = some (digitsToNat (c :: cs), tail) := by
  simp only [List.cons_append, parseUIntTok, if_neg hc0, if_pos hcd]
  rw [takeWhile_append_all _ _ _ hcs htail,
    dropWhile_append_all _ _ _ hcs htail]

/-! ## Canonical form of floating tokens -/

theorem stripZeros_zero_left (fuel : Nat) (e : Int) :
    stripZeros fuel 0 e = (0, e) := by
  cases fuel with
  | zero => rfl
  | succ f => simp [stripZeros]

theorem stripZeros_stop (fuel m : Nat) (e : Int)
    (h : ¬(m % 10 = 0 ∧ m ≠ 0)) : stripZeros fuel m e = (m, e) := by
  cases fuel with
  | zero => rfl
  | succ f => simp only [stripZeros, if_neg h]

theorem stripZeros_pos : ∀ (fuel m : Nat) (e : Int), m ≠ 0 → m ≤ fuel →
    (stripZeros fuel m e).1 ≠ 0 ∧ (stripZeros fuel m e).1 % 10 ≠ 0 := by
  intro fuel
  induction fuel with
  | zero =>
    intro m e hm h
    exact absurd (Nat.le_zero.mp h) hm
  | succ f ih =>
    intro m e hm h
    by_cases hc : m % 10 = 0 ∧ m ≠ 0
    · have hm10 : 10 ∣ m := Nat.dvd_of_mod_eq_zero hc.1
      have h10 : 10 ≤ m := Nat.le_of_dvd (Nat.pos_of_ne_zero hm) hm10
      have hdm := Nat.div_add_mod m 10
      have hq : m / 10 ≠ 0 := by omega
      have hdiv : m / 10 < m :=
        Nat.div_lt_self (Nat.pos_of_ne_zero hm) (by omega)
      have hle : m / 10 ≤ f := by omega
      simp only [stripZeros, if_pos hc]
      exact ih (m / 10) (e + 1) hq hle
    · rw [stripZeros_stop _ _ _ hc]
      exact ⟨hm, fun hmod => hc ⟨hmod, hm⟩⟩

theorem normFloatN_canon (m : Nat) (e : Int) :
    ((normFloatN m e).1 = 0 → (normFloatN m e).2 = 0) ∧
    ((normFloatN m e).1 ≠ 0 → (normFloatN m e).1 % 10 ≠ 0) := by
  unfold normFloatN
  by_cases hm : m = 0
  · rw [if_pos hm]
    exact ⟨fun _ => rfl, fun h => absurd rfl h⟩
  · rw [if_neg hm]
    rcases stripZeros_pos m m e hm le_rfl with ⟨h1, h2⟩
    exact ⟨fun h => absurd h h1, fun _ => h2⟩

theorem normFloatN_id (m : Nat) (e : Int) (hm : m ≠ 0) (hd : m % 10 ≠ 0) :
    normFloatN m e = (m, e) := by
  unfold normFloatN
  rw [if_neg hm]
  exact stripZeros_stop m m e (fun hc => hd hc.1)

theorem stripZeros_shift : ∀ (k m : Nat) (e : Int) (fuel : Nat),
    m ≠ 0 → m % 10 ≠ 0 → m * 10 ^ k ≤ fuel →
    stripZeros fuel (m * 10 ^ k) (e - (k : Int)) = (m, e) := by
  intro k
  induction k with
  | zero =>
    intro m e fuel hm hd hfuel
    rw [show ((0 : Nat) : Int) = 0 from rfl, sub_zero, pow_zero, Nat.mul_one]
    exact stripZeros_stop fuel m e (fun hc => hd hc.1)
  | succ k ih =>
    intro m e fuel hm hd hfuel
    have h10k : 0 < 10 ^ k := Nat.pos_pow_of_pos k (by omega)
    have hMk : m * 10 ^ k ≠ 0 :=
      Nat.mul_ne_zero hm (by omega)
    have hM : m * 10 ^ (k + 1) ≠ 0 :=
      Nat.mul_ne_zero hm (by positivity)
    have hsplit : m * 10 ^ (k + 1) = m * 10 ^ k * 10 := by ring
    cases fuel with
    | zero =>
      exfalso
      rw [Nat.le_zero] at hfuel
      exact hM hfuel
    | succ f =>
      have hc : (m * 10 ^ (k + 1)) % 10 = 0 ∧ m * 10 ^ (k + 1) ≠ 0 := by
        refine ⟨?_, hM⟩
        rw [hsplit]
        exact Nat.mul_mod_left _ 10
      simp only [stripZeros, if_pos hc]
      have hdiv : m * 10 ^ (k + 1) / 10 = m * 10 ^ k := by
        rw [hsplit]
        exact Nat.mul_div_cancel _ (by omega)
      have he : e - ((k + 1 : Nat) : Int) + 1 = e - (k : Int) := by
        push_cast
        ring
      rw [hdiv, he]
      have hf : m * 10 ^ k ≤ f := by
        rw [hsplit] at hfuel
        omega
      exact ih m e f hm hd hf

theorem normFloatN_shift (k m : Nat) (e : Int) (hm : m ≠ 0)
    (hd : m % 10 ≠ 0) :
    normFloatN (m * 10 ^ k) (e - (k : Int)) = (m, e) := by
  have h10k : 0 < 10 ^ k := Nat.pos_pow_of_pos k (by omega)
  have hM : m * 10 ^ k ≠ 0 := Nat.mul_ne_zero hm (by omega)
  unfold normFloatN
  rw [if_neg hM]
  exact stripZeros_shift k m e _ hm hd le_rfl

theorem mkFlt_id (m : Nat) (e : Int) (hm : m ≠ 0) (hd : m % 10 ≠ 0) :
    mkFlt m e = .flt m e := by
  unfold mkFlt
  rw [normFloatN_id m e hm hd]

theorem mkFlt_shift (k m : Nat) (e : Int) (hm : m ≠ 0) (hd : m % 10 ≠ 0) :
    mkFlt (m * 10 ^ k) (e - (k : Int)) = .flt m e := by
  unfold mkFlt
  rw [normFloatN_shift k m e hm hd]

theorem mkFlt_zero (e0 : Int) : mkFlt 0 e0 = .flt 0 0 := rfl

theorem mkFlt_canon (m0 : Nat) (e0 : Int) (m : Nat) (e : Int)
    (h : mkFlt m0 e0 = .flt m e) :
    (m = 0 → e = 0) ∧ (m ≠ 0 → m % 10 ≠ 0) := by
  unfold mkFlt at h
  injection h with h1 h2
  subst h1
  subst h2
  exact normFloatN_canon m0 e0

/-! ## Number tokens re-parse -/

theorem nondigit_of_headNum (tail : List Char) :
    headNum tail →
    (match tail with | [] => True | c :: _ => Char.isDigit c = false) := by
  intro ht
  cases tail with
  | nil => trivial
  | cons c cs =>
    rcases ht with ⟨hw, _⟩
    cases hd : c.isDigit with
    | false => exact hd
    | true =>
      have hwt := word_of_digit c hd
      rw [hw] at hwt
      exact Bool.noConfusion hwt

theorem not_expchar_of_nonword (c : Char) (hw : isWordChar c = false) :
    ¬(c = 'e' ∨ c = 'E') := by
  rintro (rfl | rfl) <;> exact absurd hw (by decide)

theorem withExp_stop (m0 : Nat) (e0 : Int) (tail : List Char)
    (ht : headNum tail) : withExp m0 e0 tail = some (mkFlt m0 e0, tail) := by
  cases tail with
  | nil => rfl
  | cons c r2 =>
    rcases ht with ⟨hw, _⟩
    simp only [withExp, if_neg (not_expchar_of_nonword c hw)]

theorem parseNumTok_natChars (n : Nat) (tail : List Char) (ht : headNum tail) :
    parseNumTok (natChars n ++ tail) = some (.int n, tail) := by
  have hU := parseUIntTok_natChars n tail (nondigit_of_headNum tail ht)
  simp only [parseNumTok, hU]
  cases tail with
  | nil => rfl
  | cons c r2 =>
    rcases ht with ⟨hw, hdot⟩
    split
    · rename_i r2' heq
      injection heq with h1 h2
      exact absurd h1 hdot
    · rename_i c' r2' heq
      injection heq with h1 h2
      subst h1
      subst h2
      rw [if_neg (not_expchar_of_nonword c hw)]
    · rename_i heq
      exact List.noConfusion heq

theorem parseNumTok_fltChars (m : Nat) (e : Int) (h0 : m = 0 → e = 0)
    (hd : m ≠ 0 → m % 10 ≠ 0) (tail : List Char) (ht : headNum tail) :
    parseNumTok (floatCharsN m e ++ tail) = some (.flt m e, tail) := by
  have htd := nondigit_of_headNum tail ht
  by_cases hm : m = 0
  · have he := h0 hm
    subst hm
    subst he
    have hfc : floatCharsN 0 0 = ['0', '.', '0'] := rfl
    rw [hfc]
    have hU : parseUIntTok (['0', '.', '0'] ++ tail) =
        some (0, '.' :: '0' :: tail) := by
      simp [parseUIntTok]
    have hrun : parseDigitsRun ('0' :: tail) = some (['0'], tail) :=
      parseDigitsRun_run ['0'] tail (by simp) (by decide) htd
    simp only [parseNumTok, hU, hrun]
    rw [withExp_stop _ _ tail ht]
    rw [show (0 * 10 ^ (['0'] : List Char).length + digitsToNat ['0']) = 0
      from by decide]
    rw [show mkFlt 0 (-(((['0'] : List Char).length : Nat) : Int)) = .flt 0 0
      from rfl]
  · have hm10 := hd hm
    rcases natChars_spec m with ⟨hval, hne, hdig, hzero⟩
    cases hD : natChars m with
    | nil => exact absurd hD hne
    | cons c cs =>
      rw [hD] at hdig hval
      simp only [List.all_cons, Bool.and_eq_true] at hdig
      have hc0 : c ≠ '0' := fun hc => hzero hm cs (by rw [hD, hc])
      by_cases he : 0 ≤ e
      · -- fixed rendering with e.toNat padding zeros and a ".0" fraction
        have hfc : floatCharsN m e =
            natChars m ++ List.replicate e.toNat '0' ++ ['.', '0'] := by
          simp only [floatCharsN, if_pos he]
        rw [hfc, hD]
        have harr : (c :: cs ++ List.replicate e.toNat '0' ++ ['.', '0'])
            ++ tail =
            (c :: (cs ++ List.replicate e.toNat '0')) ++ '.' :: '0' :: tail
            := by simp
        rw [harr]
        have hcs2 : (cs ++ List.replicate e.toNat '0').all Char.isDigit
            = true := by
          rw [List.all_append, hdig.2, all_digits_replicate_zero]
          rfl
        have hU := parseUIntTok_digits c (cs ++ List.replicate e.toNat '0')
          ('.' :: '0' :: tail) hdig.1 hc0 hcs2
          (show Char.isDigit '.' = false from rfl)
        have hrun : parseDigitsRun ('0' :: tail) = some (['0'], tail) :=
          parseDigitsRun_run ['0'] tail (by simp) (by decide) htd
        simp only [parseNumTok, hU, hrun]
        rw [withExp_stop _ _ tail ht]
        have hnv : digitsToNat (c :: (cs ++ List.replicate e.toNat '0')) =
            m * 10 ^ e.toNat := by
          rw [show c :: (cs ++ List.replicate e.toNat '0') =
            (c :: cs) ++ List.replicate e.toNat '0' from rfl,
            digitsToNat_append_zeros, hval]
        have hm0 : digitsToNat (c :: (cs ++ List.replicate e.toNat '0')) *
            10 ^ (['0'] : List Char).length + digitsToNat ['0'] =
            m * 10 ^ (e.toNat + 1) := by
          rw [hnv, show ((['0'] : List Char).length) = 1 from rfl,
            show digitsToNat ['0'] = 0 from rfl, pow_succ]
          ring
        rw [hm0]
        have hlen1 : -(((['0'] : List Char).length : Nat) : Int) =
            (e.toNat : Int) - ((e.toNat + 1 : Nat) : Int) := by
          simp only [List.length_cons, List.length_nil]
          omega
        rw [hlen1, mkFlt_shift (e.toNat + 1) m (e.toNat : Int) hm hm10,
          Int.toNat_of_nonneg he]
      · -- point rendering: the exponent is negative
        have hp1 : 1 ≤ (-e).toNat := by omega
        have hpe : (((-e).toNat : Nat) : Int) = -e := by omega
        by_cases hp : (-e).toNat < (natChars m).length
        · -- the point falls inside the digits
          have hfc : floatCharsN m e =
              (natChars m).take ((natChars m).length - (-e).toNat) ++
              '.' :: (natChars m).drop ((natChars m).length - (-e).toNat) := by
            simp only [floatCharsN, if_neg he, if_pos hp]
          rw [hD] at hfc hp
          cases hkc : (c :: cs).length - (-e).toNat with
          | zero =>
            exfalso
            simp only [List.length_cons] at hp hkc
            omega
          | succ j =>
            rw [hkc] at hfc
            have hA : (c :: cs).take (j + 1) = c :: cs.take j := rfl
            have hB : (c :: cs).drop (j + 1) = cs.drop j := rfl
            rw [hfc, hA, hB]
            have hAd : (cs.take j).all Char.isDigit = true := by
              rw [List.all_eq_true] at hdig ⊢
              exact fun x hx => hdig.2 x (List.take_subset j cs hx)
            have hBd : (cs.drop j).all Char.isDigit = true := by
              rw [List.all_eq_true] at hdig ⊢
              exact fun x hx => hdig.2 x (List.drop_subset j cs hx)
            have hBlen : (cs.drop j).length = (-e).toNat := by
              rw [List.length_drop]
              simp only [List.length_cons] at hp hkc
              omega
            have hBne : cs.drop j ≠ [] := by
              intro hnil
              rw [hnil] at hBlen
              simp only [List.length_nil] at hBlen
              omega
            have harr : (c :: cs.take j ++ '.' :: cs.drop j) ++ tail =
                (c :: cs.take j) ++ '.' :: (cs.drop j ++ tail) := by simp
            rw [harr]
            have hU := parseUIntTok_digits c (cs.take j)
              ('.' :: (cs.drop j ++ tail)) hdig.1 hc0 hAd
              (show Char.isDigit '.' = false from rfl)
            have hrun : parseDigitsRun (cs.drop j ++ tail) =
                some (cs.drop j, tail) :=
              parseDigitsRun_run (cs.drop j) tail hBne hBd htd
            simp only [parseNumTok, hU, hrun]
            rw [withExp_stop _ _ tail ht]
            have hm0 : digitsToNat (c :: cs.take j) *
                10 ^ (cs.drop j).length + digitsToNat (cs.drop j) = m := by
              rw [← digitsToNat_split, show c :: cs.take j ++ cs.drop j =
                c :: (cs.take j ++ cs.drop j) from rfl,
                List.take_append_drop, hval]
            rw [hm0, hBlen]
            rw [show -(((-e).toNat : Nat) : Int) = e from by omega]
            rw [mkFlt_id m e hm hm10]
        · -- leading "0." with padding zeros
          have hfc : floatCharsN m e =
              '0' :: '.' :: (List.replicate ((-e).toNat -
                (natChars m).length) '0' ++ natChars m) := by
            simp only [floatCharsN, if_neg he, if_neg hp]
          rw [hD] at hfc hp
          rw [hfc]
          set Zs := List.replicate ((-e).toNat - (c :: cs).length) '0'
            with hZs
          have harr : ('0' :: '.' :: (Zs ++ c :: cs)) ++ tail =
              '0' :: '.' :: ((Zs ++ c :: cs) ++ tail) := by simp
          rw [harr]
          have hZd : (Zs ++ c :: cs).all Char.isDigit = true := by
            rw [List.all_append, hZs, all_digits_replicate_zero,
              Bool.true_and]
            simp [List.all_cons, hdig.1, hdig.2]
          have hZne : Zs ++ c :: cs ≠ [] := by
            intro hnil
            rcases List.append_eq_nil.mp hnil with ⟨_, h2⟩
            exact List.noConfusion h2
          have hU : parseUIntTok (('0' :: '.' ::
              ((Zs ++ c :: cs) ++ tail)) : List Char) =
              some (0, '.' :: ((Zs ++ c :: cs) ++ tail)) := by
            simp [parseUIntTok]
          have hrun : parseDigitsRun ((Zs ++ c :: cs) ++ tail) =
              some (Zs ++ c :: cs, tail) :=
            parseDigitsRun_run (Zs ++ c :: cs) tail hZne hZd htd
          simp only [parseNumTok, hU, hrun]
          rw [withExp_stop _ _ tail ht]
          have hm0 : 0 * 10 ^ (Zs ++ c :: cs).length +
              digitsToNat (Zs ++ c :: cs) = m := by
            rw [hZs, digitsToNat_zeros_append, hval]
            simp
          rw [hm0]
          have hZlen : (((Zs ++ c :: cs).length : Nat) : Int) = -e := by
            rw [List.length_append, hZs, List.length_replicate]
            simp only [List.length_cons] at hp ⊢
            omega
          rw [show -(((Zs ++ c :: cs).length : Nat) : Int) = e from by
            rw [hZlen]; ring]
          rw [mkFlt_id m e hm hm10]

/-! ## Head facts for rendered and scanned numbers -/

theorem floatCharsN_head (m : Nat) (e : Int) :
    ∃ c cs, floatCharsN m e = c :: cs ∧ c.isDigit = true := by
  rcases natChars_spec m with ⟨_, hne, hdig, _⟩
  cases hD : natChars m with
  | nil => exact absurd hD hne
  | cons c cs =>
    rw [hD] at hdig
    simp only [List.all_cons, Bool.and_eq_true] at hdig
    by_cases he : 0 ≤ e
    · refine ⟨c, cs ++ List.replicate e.toNat '0' ++ ['.', '0'], ?_, hdig.1⟩
      simp only [floatCharsN, if_pos he, hD]
      simp
    · by_cases hp : (-e).toNat < (natChars m).length
      · rw [show floatCharsN m e =
          (natChars m).take ((natChars m).length - (-e).toNat) ++
          '.' :: (natChars m).drop ((natChars m).length - (-e).toNat) from by
            simp only [floatCharsN, if_neg he, if_pos hp]]
        rw [hD] at hp ⊢
        cases hkc : (c :: cs).length - (-e).toNat with
        | zero =>
          exfalso
          simp only [List.length_cons] at hp hkc
          omega
        | succ j =>
          rw [show (c :: cs).take (j + 1) = c :: cs.take j from rfl]
          exact ⟨c, cs.take j ++ '.' :: cs.drop j, by simp, hdig.1⟩
      · rw [show floatCharsN m e = '0' :: '.' :: (List.replicate ((-e).toNat -
          (natChars m).length) '0' ++ natChars m) from by
            simp only [floatCharsN, if_neg he, if_neg hp]]
        exact ⟨'0', _, rfl, by decide⟩

theorem parseNumTok_canon (l : List Char) (m : Nat) (e : Int) (r : List Char)
    (h : parseNumTok l = some (.flt m e, r)) :
    (m = 0 → e = 0) ∧ (m ≠ 0 → m % 10 ≠ 0) := by
  unfold parseNumTok at h
  split at h
  · exact Option.noConfusion h
  · split at h
    · split at h
      · exact Option.noConfusion h
      · unfold withExp at h
        split at h
        · split at h
          · split at h
            · injection h with h
              rw [Prod.mk.injEq] at h
              exact mkFlt_canon _ _ _ _ h.1
            · exact Option.noConfusion h
          · injection h with h
            rw [Prod.mk.injEq] at h
            exact mkFlt_canon _ _ _ _ h.1
        · injection h with h
          rw [Prod.mk.injEq] at h
          exact mkFlt_canon _ _ _ _ h.1
    · split at h
      · split at h
        · injection h with h
          rw [Prod.mk.injEq] at h
          exact mkFlt_canon _ _ _ _ h.1
        · exact Option.noConfusion h
      · injection h with h
        rw [Prod.mk.injEq] at h
        exact NumTok.noConfusion h.1
    · injection h with h
      rw [Prod.mk.injEq] at h
      exact NumTok.noConfusion h.1

/-! ## Number regions under the keyword normalization

Every maximal word inside a number token starts with a digit, and no keyword
pattern starts with a digit, so the scanner leaves number regions
unchanged. -/

theorem canonWord1_digit_head (kw repl : List Char) (k0 : Char)
    (ks : List Char) (hkw : kw = k0 :: ks) (hk0 : Char.isDigit k0 = false)
    (hk0u : Char.isDigit (upcase k0) = false)
    (c : Char) (cs : List Char) (hc : c.isDigit = true) :
    canonWord1 kw repl (c :: cs) = c :: cs := by
  unfold canonWord1
  rw [if_neg]
  intro hm
  rcases matchKw_dest kw (c :: cs) [] hm with ⟨u, hu, hmm⟩
  rw [List.append_nil] at hu
  subst hu
  subst hkw
  rcases hmm with ⟨hcc, _⟩
  rcases Bool.or_eq_true _ _ |>.mp hcc with h1 | h1
  · rw [decide_eq_true_eq.mp h1] at hc
    rw [hk0] at hc
    exact Bool.noConfusion hc
  · rw [decide_eq_true_eq.mp h1] at hc
    rw [hk0u] at hc
    exact Bool.noConfusion hc

theorem canonKw_digit_head (c : Char) (cs : List Char)
    (hc : c.isDigit = true) : canonKw (c :: cs) = c :: cs := by
  unfold canonKw
  rw [canonWord1_digit_head "false".data "False".data 'f' "alse".data rfl
      (by decide) (by decide) c cs hc,
    canonWord1_digit_head "true".data "True".data 't' "rue".data rfl
      (by decide) (by decide) c cs hc,
    canonWord1_digit_head "null".data "None".data 'n' "ull".data rfl
      (by decide) (by decide) c cs hc]

theorem all_word_of_digits (w : List Char) (hw : w.all Char.isDigit = true) :
    w.all isWordChar = true := by
  rw [List.all_eq_true] at hw ⊢
  exact fun x hx => word_of_digit x (hw x hx)

theorem wordMap_digit_word (w r : List Char) (hww : w.all isWordChar = true)
    (hwd : ∃ c cs, w = c :: cs ∧ c.isDigit = true) (hr : headNW r) :
    wordMap canonKw (w ++ r) = w ++ wordMap canonKw r := by
  rcases hwd with ⟨c, cs, rfl, hc⟩
  rw [wordMap_word canonKw _ r ⟨by simp, hww⟩ hr,
    canonKw_digit_head c cs hc]

theorem wordMap_digit_only (w : List Char) (hww : w.all isWordChar = true)
    (hwd : ∃ c cs, w = c :: cs ∧ c.isDigit = true) :
    wordMap canonKw w = w := by
  have h := wordMap_digit_word w [] hww hwd trivial
  rw [wordMap_nil, List.append_nil] at h
  exact h

/-! ## Exponent parsing -/

theorem parseExpSigned_digits (X tail : List Char) (hne : X ≠ [])
    (hdig : X.all Char.isDigit = true)
    (htail : match tail with | [] => True | c :: _ => Char.isDigit c = false) :
    parseExpSigned (X ++ tail) = some ((digitsToNat X : Int), tail) := by
  have hrun := parseDigitsRun_run X tail hne hdig htail
  cases X with
  | nil => exact absurd rfl hne
  | cons x X' =>
    simp only [List.all_cons, Bool.and_eq_true] at hdig
    have hxp : x ≠ '+' := by
      intro h
      rw [h] at hdig
      exact absurd hdig.1 (by decide)
    have hxm : x ≠ '-' := by
      intro h
      rw [h] at hdig
      exact absurd hdig.1 (by decide)
    rw [List.cons_append]
    unfold parseExpSigned
    split
    · rename_i heq
      injection heq with h1 _
      exact absurd h1 hxp
    · rename_i heq
      injection heq with h1 _
      exact absurd h1 hxm
    · rw [show (x :: (X' ++ tail)) = (x :: X') ++ tail from rfl, hrun]

theorem parseExpSigned_plus (X tail : List Char) (hne : X ≠ [])
    (hdig : X.all Char.isDigit = true)
    (htail : match tail with | [] => True | c :: _ => Char.isDigit c = false) :
    parseExpSigned ('+' :: (X ++ tail)) = some ((digitsToNat X : Int), tail)
    := by
  have hrun := parseDigitsRun_run X tail hne hdig htail
  simp only [parseExpSigned, hrun]

theorem parseExpSigned_minus (X tail : List Char) (hne : X ≠ [])
    (hdig : X.all Char.isDigit = true)
    (htail : match tail with | [] => True | c :: _ => Char.isDigit c = false) :
    parseExpSigned ('-' :: (X ++ tail)) = some (-(digitsToNat X : Int), tail)
    := by
  have hrun := parseDigitsRun_run X tail hne hdig htail
  simp only [parseExpSigned, hrun]

theorem parseExpSigned_dest (l : List Char) (ex : Int) (r : List Char) :
    parseExpSigned l = some (ex, r) →
    ∃ sgn X, (sgn = ([] : List Char) ∨ sgn = ['+'] ∨ sgn = ['-']) ∧
      X ≠ [] ∧ X.all Char.isDigit = true ∧ l = sgn ++ (X ++ r) ∧
      (∀ tail : List Char,
        (match tail with | [] => True | c :: _ => Char.isDigit c = false) →
        parseExpSigned (sgn ++ (X ++ tail)) = some (ex, tail)) := by
  intro h
  unfold parseExpSigned at h
  split at h
  · rename_i rx
    split at h
    · rename_i ds r2 hrun
      injection h with h
      rw [Prod.mk.injEq] at h
      rcases parseDigitsRun_dest _ _ _ hrun with ⟨hsplit, hne, hdig, _⟩
      refine ⟨['+'], ds, Or.inr (Or.inl rfl), hne, hdig, ?_, ?_⟩
      · rw [← h.2, hsplit]
        rfl
      · intro tail htail
        rw [← h.1]
        exact parseExpSigned_plus ds tail hne hdig htail
    · exact Option.noConfusion h
  · rename_i rx
    split at h
    · rename_i ds r2 hrun
      injection h with h
      rw [Prod.mk.injEq] at h
      rcases parseDigitsRun_dest _ _ _ hrun with ⟨hsplit, hne, hdig, _⟩
      refine ⟨['-'], ds, Or.inr (Or.inr rfl), hne, hdig, ?_, ?_⟩
      · rw [← h.2, hsplit]
        rfl
      · intro tail htail
        rw [← h.1]
        exact parseExpSigned_minus ds tail hne hdig htail
    · exact Option.noConfusion h
  · split at h
    · rename_i ds r2 hrun
      injection h with h
      rw [Prod.mk.injEq] at h
      rcases parseDigitsRun_dest _ _ _ hrun with ⟨hsplit, hne, hdig, _⟩
      refine ⟨[], ds, Or.inl rfl, hne, hdig, ?_, ?_⟩
      · rw [← h.2, hsplit]
        rfl
      · intro tail htail
        rw [← h.1, List.nil_append]
        exact parseExpSigned_digits ds tail hne hdig htail
    · exact Option.noConfusion h

/-! ## Re-running a number token after any non-number tail -/

theorem withExp_exp (m0 : Nat) (e0 : Int) (c4 : Char)
    (hc4 : c4 = 'e' ∨ c4 = 'E') (rest : List Char) (ex : Int) (r : List Char)
    (hexp : parseExpSigned rest = some (ex, r)) :
    withExp m0 e0 (c4 :: rest) = some (mkFlt m0 (e0 + ex), r) := by
  simp only [withExp, if_pos hc4, hexp]

theorem parseNumTok_int_run (I : List Char) (n : Nat)
    (hIrun : ∀ tail : List Char,
      (match tail with | [] => True | c :: _ => Char.isDigit c = false) →
      parseUIntTok (I ++ tail) = some (n, tail))
    (tail : List Char) (ht : headNum tail) :
    parseNumTok (I ++ tail) = some (.int n, tail) := by
  have hU := hIrun tail (nondigit_of_headNum tail ht)
  simp only [parseNumTok, hU]
  cases tail with
  | nil => rfl
  | cons c r2 =>
    rcases ht with ⟨hw, hdot⟩
    split
    · rename_i r2' heq
      injection heq with h1 h2
      exact absurd h1 hdot
    · rename_i c' r2' heq
      injection heq with h1 h2
      subst h1
      subst h2
      rw [if_neg (not_expchar_of_nonword c hw)]
    · rename_i heq
      exact List.noConfusion heq

theorem parseNumTok_frac_run (I F : List Char) (n : Nat)
    (hIrun : ∀ tail : List Char,
      (match tail with | [] => True | c :: _ => Char.isDigit c = false) →
      parseUIntTok (I ++ tail) = some (n, tail))
    (hFne : F ≠ []) (hFdig : F.all Char.isDigit = true)
    (tail : List Char) (ht : headNum tail) :
    parseNumTok ((I ++ '.' :: F) ++ tail) =
      some (mkFlt (n * 10 ^ F.length + digitsToNat F) (-(F.length : Int)),
        tail) := by
  have harr : (I ++ '.' :: F) ++ tail = I ++ ('.' :: (F ++ tail)) := by simp
  rw [harr]
  have hU := hIrun ('.' :: (F ++ tail)) (show Char.isDigit '.' = false from rfl)
  have hrun := parseDigitsRun_run F tail hFne hFdig
    (nondigit_of_headNum tail ht)
  simp only [parseNumTok, hU, hrun]
  rw [withExp_stop _ _ tail ht]

theorem parseNumTok_frac_exp_run (I F : List Char) (n : Nat) (c4 : Char)
    (hc4 : c4 = 'e' ∨ c4 = 'E') (sgn X : List Char) (ex : Int)
    (hIrun : ∀ tail : List Char,
      (match tail with | [] => True | c :: _ => Char.isDigit c = false) →
      parseUIntTok (I ++ tail) = some (n, tail))
    (hFne : F ≠ []) (hFdig : F.all Char.isDigit = true)
    (hXrun : ∀ tail : List Char,
      (match tail with | [] => True | c :: _ => Char.isDigit c = false) →
      parseExpSigned (sgn ++ (X ++ tail)) = some (ex, tail))
    (tail : List Char) (ht : headNum tail) :
    parseNumTok ((I ++ '.' :: (F ++ c4 :: (sgn ++ X))) ++ tail) =
      some (mkFlt (n * 10 ^ F.length + digitsToNat F)
        (-(F.length : Int) + ex), tail) := by
  have hc4d : Char.isDigit c4 = false := by
    rcases hc4 with rfl | rfl <;> rfl
  have harr : (I ++ '.' :: (F ++ c4 :: (sgn ++ X))) ++ tail =
      I ++ ('.' :: (F ++ (c4 :: (sgn ++ (X ++ tail))))) := by simp
  rw [harr]
  have hU := hIrun ('.' :: (F ++ (c4 :: (sgn ++ (X ++ tail)))))
    (show Char.isDigit '.' = false from rfl)
  have hrun := parseDigitsRun_run F (c4 :: (sgn ++ (X ++ tail))) hFne hFdig
    hc4d
  simp only [parseNumTok, hU, hrun]
  rw [withExp_exp _ _ c4 hc4 _ ex tail
    (hXrun tail (nondigit_of_headNum tail ht))]

theorem parseNumTok_exp_run (I : List Char) (n : Nat) (c2 : Char)
    (hc2 : c2 = 'e' ∨ c2 = 'E') (sgn X : List Char) (ex : Int)
    (hIrun : ∀ tail : List Char,
      (match tail with | [] => True | c :: _ => Char.isDigit c = false) →
      parseUIntTok (I ++ tail) = some (n, tail))
    (hXrun : ∀ tail : List Char,
      (match tail with | [] => True | c :: _ => Char.isDigit c = false) →
      parseExpSigned (sgn ++ (X ++ tail)) = some (ex, tail))
    (tail : List Char) (ht : headNum tail) :
    parseNumTok ((I ++ c2 :: (sgn ++ X)) ++ tail) =
      some (mkFlt n ex, tail) := by
  have hc2d : Char.isDigit c2 = false := by
    rcases hc2 with rfl | rfl <;> rfl
  have harr : (I ++ c2 :: (sgn ++ X)) ++ tail =
      I ++ (c2 :: (sgn ++ (X ++ tail))) := by simp
  rw [harr]
  have hU := hIrun (c2 :: (sgn ++ (X ++ tail))) hc2d
  have hexp := hXrun tail (nondigit_of_headNum tail ht)
  simp only [parseNumTok, hU]
  split
  · rename_i r2' heq
    injection heq with h1 h2
    exfalso
    rcases hc2 with rfl | rfl <;> exact absurd h1 (by decide)
  · rename_i c' r2' heq
    injection heq with h1 h2
    subst h1
    subst h2
    rw [if_pos hc2, hexp]
  · rename_i heq
    exact List.noConfusion heq

theorem parseNumTok_dest (l : List Char) (tk : NumTok) (r : List Char) :
    parseNumTok l = some (tk, r) →
    ∃ a : List Char, l = a ++ r ∧
      (∃ d ds, a = d :: ds ∧ d.isDigit = true) ∧
      wordMap canonKw a = a ∧
      (∀ tail : List Char, headNum tail →
        parseNumTok (a ++ tail) = some (tk, tail)) := by
  intro h
  unfold parseNumTok at h
  split at h
  · exact Option.noConfusion h
  · rename_i n r1 hU
    rcases parseUIntTok_dest l n r1 hU with ⟨I, hIsplit, hIne, hIdig, hIrun⟩
    obtain ⟨iv, Is, hIcons⟩ : ∃ iv Is, I = iv :: Is := by
      cases I with
      | nil => exact absurd rfl hIne
      | cons iv Is => exact ⟨iv, Is, rfl⟩
    have hivd : iv.isDigit = true := by
      rw [hIcons, List.all_cons, Bool.and_eq_true] at hIdig
      exact hIdig.1
    have hIword : I.all isWordChar = true := all_word_of_digits I hIdig
    have hIhead : ∃ d ds, I = d :: ds ∧ d.isDigit = true :=
      ⟨iv, Is, hIcons, hivd⟩
    have hdotnw : isWordChar '.' = false := by decide
    split at h
    · -- fraction present
      rename_i r2
      split at h
      · exact Option.noConfusion h
      · rename_i F r3 hF
        rcases parseDigitsRun_dest _ _ _ hF with
          ⟨hFsplit, hFne, hFdig, hFhead⟩
        obtain ⟨fv, Fs, hFcons⟩ : ∃ fv Fs, F = fv :: Fs := by
          cases F with
          | nil => exact absurd rfl hFne
          | cons fv Fs => exact ⟨fv, Fs, rfl⟩
        have hfvd : fv.isDigit = true := by
          rw [hFcons, List.all_cons, Bool.and_eq_true] at hFdig
          exact hFdig.1
        have hFword : F.all isWordChar = true := all_word_of_digits F hFdig
        have hFhd : ∃ d ds, F = d :: ds ∧ d.isDigit = true :=
          ⟨fv, Fs, hFcons, hfvd⟩
        unfold withExp at h
        split at h
        · rename_i c4 r4
          split at h
          · rename_i hc4
            split at h
            · rename_i ex r5 hexp
              injection h with h
              rw [Prod.mk.injEq] at h
              rcases parseExpSigned_dest _ _ _ hexp with
                ⟨sgn, X, hsgn, hXne, hXdig, hr4split, hXrun⟩
              obtain ⟨xv, Xs, hXcons⟩ : ∃ xv Xs, X = xv :: Xs := by
                cases X with
                | nil => exact absurd rfl hXne
                | cons xv Xs => exact ⟨xv, Xs, rfl⟩
              have hxvd : xv.isDigit = true := by
                rw [hXcons, List.all_cons, Bool.and_eq_true] at hXdig
                exact hXdig.1
              have hXword : X.all isWordChar = true :=
                all_word_of_digits X hXdig
              have hXhd : ∃ d ds, X = d :: ds ∧ d.isDigit = true :=
                ⟨xv, Xs, hXcons, hxvd⟩
              have hc4w : isWordChar c4 = true := by
                rcases hc4 with rfl | rfl <;> decide
              refine ⟨I ++ '.' :: (F ++ c4 :: (sgn ++ X)), ?_, ?_, ?_, ?_⟩
              · rw [hIsplit, hFsplit, hr4split, ← h.2]
                simp
              · refine ⟨iv, Is ++ '.' :: (F ++ c4 :: (sgn ++ X)), ?_, hivd⟩
                rw [hIcons]
                rfl
              · -- keyword normalization fixes the region
                rcases hsgn with rfl | rfl | rfl
                · -- no sign: one word after the dot
                  have hW : (F ++ c4 :: X).all isWordChar = true := by
                    simp [List.all_append, List.all_cons, hFword, hc4w,
                      hXword]
                  have hWhd : ∃ d ds, F ++ c4 :: X = d :: ds ∧
                      d.isDigit = true := by
                    refine ⟨fv, Fs ++ c4 :: X, ?_, hfvd⟩
                    rw [hFcons]
                    rfl
                  rw [show I ++ '.' :: (F ++ c4 :: ([] ++ X)) =
                    I ++ '.' :: (F ++ c4 :: X) from by simp]
                  rw [wordMap_digit_word I ('.' :: (F ++ c4 :: X)) hIword
                    hIhead (show isWordChar '.' = false from hdotnw),
                    wordMap_cons_sym _ _ _ hdotnw,
                    wordMap_digit_only (F ++ c4 :: X) hW hWhd]
                · -- plus sign
                  have hW1 : (F ++ [c4]).all isWordChar = true := by
                    simp [List.all_append, List.all_cons, hFword, hc4w]
                  have hW1hd : ∃ d ds, F ++ [c4] = d :: ds ∧
                      d.isDigit = true := by
                    refine ⟨fv, Fs ++ [c4], ?_, hfvd⟩
                    rw [hFcons]
                    rfl
                  rw [show I ++ '.' :: (F ++ c4 :: (['+'] ++ X)) =
                    I ++ '.' :: ((F ++ [c4]) ++ '+' :: X) from by simp]
                  rw [wordMap_digit_word I ('.' :: ((F ++ [c4]) ++ '+' :: X))
                    hIword hIhead (show isWordChar '.' = false from hdotnw),
                    wordMap_cons_sym _ _ _ hdotnw,
                    wordMap_digit_word (F ++ [c4]) ('+' :: X) hW1 hW1hd
                      (show isWordChar '+' = false from by decide),
                    wordMap_cons_sym _ _ _ (show isWordChar '+' = false
                      from by decide),
                    wordMap_digit_only X hXword hXhd]
                · -- minus sign
                  have hW1 : (F ++ [c4]).all isWordChar = true := by
                    simp [List.all_append, List.all_cons, hFword, hc4w]
                  have hW1hd : ∃ d ds, F ++ [c4] = d :: ds ∧
                      d.isDigit = true := by
                    refine ⟨fv, Fs ++ [c4], ?_, hfvd⟩
                    rw [hFcons]
                    rfl
                  rw [show I ++ '.' :: (F ++ c4 :: (['-'] ++ X)) =
                    I ++ '.' :: ((F ++ [c4]) ++ '-' :: X) from by simp]
                  rw [wordMap_digit_word I ('.' :: ((F ++ [c4]) ++ '-' :: X))
                    hIword hIhead (show isWordChar '.' = false from hdotnw),
                    wordMap_cons_sym _ _ _ hdotnw,
                    wordMap_digit_word (F ++ [c4]) ('-' :: X) hW1 hW1hd
                      (show isWordChar '-' = false from by decide),
                    wordMap_cons_sym _ _ _ (show isWordChar '-' = false
                      from by decide),
                    wordMap_digit_only X hXword hXhd]
              · intro tail ht
                rw [← h.1]
                exact parseNumTok_frac_exp_run I F n c4 hc4 sgn X ex hIrun
                  hFne hFdig hXrun tail ht
            · exact Option.noConfusion h
          · -- no exponent after the fraction
            rename_i hc4
            injection h with h
            rw [Prod.mk.injEq] at h
            refine ⟨I ++ '.' :: F, ?_, ?_, ?_, ?_⟩
            · rw [hIsplit, hFsplit, ← h.2]
              simp
            · refine ⟨iv, Is ++ '.' :: F, ?_, hivd⟩
              rw [hIcons]
              rfl
            · rw [wordMap_digit_word I ('.' :: F) hIword hIhead
                (show isWordChar '.' = false from hdotnw),
                wordMap_cons_sym _ _ _ hdotnw,
                wordMap_digit_only F hFword hFhd]
            · intro tail ht
              rw [← h.1]
              exact parseNumTok_frac_run I F n hIrun hFne hFdig tail ht
        · -- input ends right after the fraction
          injection h with h
          rw [Prod.mk.injEq] at h
          refine ⟨I ++ '.' :: F, ?_, ?_, ?_, ?_⟩
          · rw [hIsplit, hFsplit, ← h.2]
            simp
          · refine ⟨iv, Is ++ '.' :: F, ?_, hivd⟩
            rw [hIcons]
            rfl
          · rw [wordMap_digit_word I ('.' :: F) hIword hIhead
              (show isWordChar '.' = false from hdotnw),
              wordMap_cons_sym _ _ _ hdotnw,
              wordMap_digit_only F hFword hFhd]
          · intro tail ht
            rw [← h.1]
            exact parseNumTok_frac_run I F n hIrun hFne hFdig tail ht
    · -- integer part, possibly with a bare exponent
      rename_i c2 r2 hne2
      split at h
      · rename_i hc2
        split at h
        · rename_i ex r3 hexp
          injection h with h
          rw [Prod.mk.injEq] at h
          rcases parseExpSigned_dest _ _ _ hexp with
            ⟨sgn, X, hsgn, hXne, hXdig, hr2split, hXrun⟩
          obtain ⟨xv, Xs, hXcons⟩ : ∃ xv Xs, X = xv :: Xs := by
            cases X with
            | nil => exact absurd rfl hXne
            | cons xv Xs => exact ⟨xv, Xs, rfl⟩
          have hxvd : xv.isDigit = true := by
            rw [hXcons, List.all_cons, Bool.and_eq_true] at hXdig
            exact hXdig.1
          have hXword : X.all isWordChar = true := all_word_of_digits X hXdig
          have hXhd : ∃ d ds, X = d :: ds ∧ d.isDigit = true :=
            ⟨xv, Xs, hXcons, hxvd⟩
          have hc2w : isWordChar c2 = true := by
            rcases hc2 with rfl | rfl <;> decide
          refine ⟨I ++ c2 :: (sgn ++ X), ?_, ?_, ?_, ?_⟩
          · rw [hIsplit, hr2split, ← h.2]
            simp
          · refine ⟨iv, Is ++ c2 :: (sgn ++ X), ?_, hivd⟩
            rw [hIcons]
            rfl
          · rcases hsgn with rfl | rfl | rfl
            · have hW : (I ++ c2 :: X).all isWordChar = true := by
                simp [List.all_append, List.all_cons, hIword, hc2w, hXword]
              have hWhd : ∃ d ds, I ++ c2 :: X = d :: ds ∧
                  d.isDigit = true := by
                refine ⟨iv, Is ++ c2 :: X, ?_, hivd⟩
                rw [hIcons]
                rfl
              rw [show I ++ c2 :: ([] ++ X) = I ++ c2 :: X from by simp]
              rw [wordMap_digit_only (I ++ c2 :: X) hW hWhd]
            · have hW1 : (I ++ [c2]).all isWordChar = true := by
                simp [List.all_append, List.all_cons, hIword, hc2w]
              have hW1hd : ∃ d ds, I ++ [c2] = d :: ds ∧
                  d.isDigit = true := by
                refine ⟨iv, Is ++ [c2], ?_, hivd⟩
                rw [hIcons]
                rfl
              rw [show I ++ c2 :: (['+'] ++ X) =
                (I ++ [c2]) ++ '+' :: X from by simp]
              rw [wordMap_digit_word (I ++ [c2]) ('+' :: X) hW1 hW1hd
                  (show isWordChar '+' = false from by decide),
                wordMap_cons_sym _ _ _ (show isWordChar '+' = false
                  from by decide),
                wordMap_digit_only X hXword hXhd]
            · have hW1 : (I ++ [c2]).all isWordChar = true := by
                simp [List.all_append, List.all_cons, hIword, hc2w]
              have hW1hd : ∃ d ds, I ++ [c2] = d :: ds ∧
                  d.isDigit = true := by
                refine ⟨iv, Is ++ [c2], ?_, hivd⟩
                rw [hIcons]
                rfl
              rw [show I ++ c2 :: (['-'] ++ X) =
                (I ++ [c2]) ++ '-' :: X from by simp]
              rw [wordMap_digit_word (I ++ [c2]) ('-' :: X) hW1 hW1hd
                  (show isWordChar '-' = false from by decide),
                wordMap_cons_sym _ _ _ (show isWordChar '-' = false
                  from by decide),
                wordMap_digit_only X hXword hXhd]
          · intro tail ht
            rw [← h.1]
            exact parseNumTok_exp_run I n c2 hc2 sgn X ex hIrun hXrun tail ht
        · exact Option.noConfusion h
      · -- a plain integer token followed by a non-number character
        rename_i hc2
        injection h with h
        rw [Prod.mk.injEq] at h
        refine ⟨I, ?_, hIhead, ?_, ?_⟩
        · rw [hIsplit, ← h.2]
        · exact wordMap_digit_only I hIword hIhead
        · intro tail ht
          rw [← h.1]
          exact parseNumTok_int_run I n hIrun tail ht
    · -- a plain integer token at the end of the input
      injection h with h
      rw [Prod.mk.injEq] at h
      refine ⟨I, ?_, hIhead, ?_, ?_⟩
      · rw [hIsplit, ← h.2]
      · exact wordMap_digit_only I hIword hIhead
      · intro tail ht
        rw [← h.1]
        exact parseNumTok_int_run I n hIrun tail ht

theorem floatCanon_ofNat (m : Nat) (e : Int) (h0 : m = 0 → e = 0)
    (hd : m ≠ 0 → m % 10 ≠ 0) :
    floatCanon ((m : Nat) : Int) e = true ∧
    floatCanon (-((m : Nat) : Int)) e = true := by
  unfold floatCanon
  by_cases hm : m = 0
  · subst hm
    have he := h0 rfl
    subst he
    exact ⟨by decide, by decide⟩
  · have hmod := hd hm
    have hmI : ((m : Nat) : Int) ≠ 0 := by
      intro hc
      exact hm (by exact_mod_cast hc)
    have hmneg : (-((m : Nat) : Int)) ≠ 0 := by
      intro hc
      exact hmI (by omega)
    rw [if_neg hmI, if_neg hmneg]
    refine ⟨?_, ?_⟩ <;> (rw [decide_eq_true_eq]; omega)

/-! ## Round trip: encoded values parse back -/

theorem jsonParseV_ws (g : Nat) (wsp l : List Char)
    (h : wsp.all isWsChar = true) :
    jsonParseV g (wsp ++ l) = jsonParseV g l := by
  cases g with
  | zero => rfl
  | succ g' =>
    show jsonParseV (g' + 1) (wsp ++ l) = jsonParseV (g' + 1) l
    unfold jsonParseV
    rw [show skipWs (wsp ++ l) = skipWs l from dropWhile_append_sat _ _ _ h]

theorem pyParseV_ws (g : Nat) (wsp l : List Char)
    (h : wsp.all isWsChar = true) :
    pyParseV g (wsp ++ l) = pyParseV g l := by
  cases g with
  | zero => rfl
  | succ g' =>
    show pyParseV (g' + 1) (wsp ++ l) = pyParseV (g' + 1) l
    unfold pyParseV
    rw [show skipWs (wsp ++ l) = skipWs l from dropWhile_append_sat _ _ _ h]

theorem foldl_dictSet_gen {α : Type} :
    ∀ (ps : List (String × α)) (d0 : List (String × α)),
    (∀ p ∈ ps, d0.any (fun q => q.1 = p.1) = false) →
    (ps.map Prod.fst).Nodup →
    ps.foldl (fun d p => dictSet d p.1 p.2) d0 = d0 ++ ps := by
  intro ps
  induction ps with
  | nil => intro d0 _ _; simp
  | cons p rest ih =>
    intro d0 h hnd
    have hd : d0.any (fun q => q.1 = p.1) = false := h p (by simp)
    have step : dictSet d0 p.1 p.2 = d0 ++ [p] := by
      simp [dictSet, hd]
    have hrest : ∀ q ∈ rest, (d0 ++ [p]).any (fun x => x.1 = q.1) = false := by
      intro q hq
      have h1 : d0.any (fun x => x.1 = q.1) = false := h q (by simp [hq])
      have h2 : p.1 ≠ q.1 := by
        intro hc
        simp only [List.map_cons, List.nodup_cons] at hnd
        exact hnd.1 (hc ▸ List.mem_map_of_mem Prod.fst hq)
      simp [List.any_append, h1, h2]
    calc (p :: rest).foldl (fun d q => dictSet d q.1 q.2) d0
        = rest.foldl (fun d q => dictSet d q.1 q.2) (d0 ++ [p]) := by
          rw [List.foldl_cons, step]
      _ = (d0 ++ [p]) ++ rest := by
          refine ih (d0 ++ [p]) hrest ?_
          simp only [List.map_cons, List.nodup_cons] at hnd
          exact hnd.2
      _ = d0 ++ p :: rest := by rw [List.append_assoc]; rfl

theorem mkDict_id {α : Type} (kvs : List (String × α))
    (h : (kvs.map Prod.fst).Nodup) : mkDict kvs = kvs := by
  unfold mkDict
  simpa using foldl_dictSet_gen kvs [] (by intro p _; rfl) h

theorem joinCommaSpace_single (e : List Char) : joinCommaSpace [e] = e := rfl

theorem foldl_join_aux : ∀ (es : List (List Char)) (a b : List Char),
    List.foldl (fun acc y => acc ++ ',' :: ' ' :: y) (a ++ b) es =
      a ++ List.foldl (fun acc y => acc ++ ',' :: ' ' :: y) b es := by
  intro es
  induction es with
  | nil => intro a b; rfl
  | cons e es ih =>
    intro a b
    rw [List.foldl_cons, List.foldl_cons, List.append_assoc]
    exact ih a (b ++ ',' :: ' ' :: e)

theorem joinCommaSpace_cons (e e2 : List Char) (es : List (List Char)) :
    joinCommaSpace (e :: e2 :: es) =
      e ++ ',' :: ' ' :: joinCommaSpace (e2 :: es) := by
  show List.foldl (fun acc y => acc ++ ',' :: ' ' :: y) e (e2 :: es) =
    e ++ ',' :: ' ' :: List.foldl (fun acc y => acc ++ ',' :: ' ' :: y) e2 es
  rw [List.foldl_cons]
  have h1 : e ++ ',' :: ' ' :: e2 = e ++ ([',', ' '] ++ e2) := rfl
  rw [h1, foldl_join_aux es e ([',', ' '] ++ e2)]
  have h2 : ([',', ' '] : List Char) ++ e2 = [',', ' '] ++ e2 := rfl
  rw [foldl_join_aux es [',', ' '] e2]
  rfl

theorem length_le_joinCommaSpace (e : List Char) (es : List (List Char))
    (he : e ∈ es) : e.length ≤ (joinCommaSpace es).length := by
  induction es with
  | nil => simp at he
  | cons e1 es ih =>
    cases es with
    | nil =>
      simp only [List.mem_singleton] at he
      subst he
      rfl
    | cons e2 es2 =>
      rw [joinCommaSpace_cons]
      rcases List.mem_cons.mp he with rfl | hmem
      · simp only [List.length_append]
        omega
      · have := ih hmem
        simp only [List.length_append, List.length_cons]
        omega

theorem dumpsListF_forall (dv : Value → Option (List Char)) :
    ∀ (xs : List Value) (es : List (List Char)),
    dumpsListF dv xs = some es →
    List.Forall₂ (fun x e => dv x = some e) xs es := by
  intro xs
  induction xs with
  | nil =>
    intro es h
    simp only [dumpsListF] at h
    injection h with h
    subst h
    exact List.Forall₂.nil
  | cons x rest ih =>
    intro es h
    simp only [dumpsListF] at h
    cases hx : dv x with
    | none => rw [hx] at h; exact Option.noConfusion h
    | some e =>
      cases hr : dumpsListF dv rest with
      | none => rw [hx, hr] at h; exact Option.noConfusion h
      | some es' =>
        rw [hx, hr] at h
        injection h with h
        subst h
        exact List.Forall₂.cons hx (ih es' hr)

theorem dumpsPairsF_forall (dv : Value → Option (List Char)) :
    ∀ (kvs : List (String × Value)) (es : List (List Char)),
    dumpsPairsF dv kvs = some es →
    List.Forall₂ (fun p e => ∃ ev, dv p.2 = some ev ∧
      e = ('"' :: escJson p.1.data ++ ['"', ':', ' ']) ++ ev) kvs es := by
  intro kvs
  induction kvs with
  | nil =>
    intro es h
    simp only [dumpsPairsF] at h
    injection h with h
    subst h
    exact List.Forall₂.nil
  | cons p rest ih =>
    intro es h
    rcases p with ⟨k, v⟩
    simp only [dumpsPairsF] at h
    cases hx : dv v with
    | none => rw [hx] at h; exact Option.noConfusion h
    | some e =>
      cases hr : dumpsPairsF dv rest with
      | none => rw [hx, hr] at h; exact Option.noConfusion h
      | some es' =>
        rw [hx, hr] at h
        injection h with h
        subst h
        exact List.Forall₂.cons ⟨e, hx, rfl⟩ (ih es' hr)

theorem jsonDumpsF_head : ∀ (f : Nat) (v : Value) (enc : List Char),
    jsonDumpsF f v = some enc →
    ∃ c cs, enc = c :: cs ∧ isWsChar c = false ∧ c ≠ ']' ∧ c ≠ '\x7d' ∧
      c ≠ ',' := by
  intro f v enc h
  cases f with
  | zero => exact absurd h (by simp [jsonDumpsF])
  | succ f' =>
    cases v with
    | null =>
      injection h with h
      exact ⟨'n', _, h.symm, by decide, by decide, by decide, by decide⟩
    | bool b =>
      cases b with
      | true =>
        injection h with h
        exact ⟨'t', _, h.symm, by decide, by decide, by decide, by decide⟩
      | false =>
        injection h with h
        exact ⟨'f', _, h.symm, by decide, by decide, by decide, by decide⟩
    | int n =>
      injection h with h
      by_cases hn : n < 0
      · rw [show intChars n = '-' :: natChars n.natAbs from by
          simp [intChars, hn]] at h
        exact ⟨'-', _, h.symm, by decide, by decide, by decide, by decide⟩
      · rw [show intChars n = natChars n.natAbs from by simp [intChars, hn]] at h
        rcases natChars_spec n.natAbs with ⟨_, hne, hdig, _⟩
        cases hh : natChars n.natAbs with
        | nil => exact absurd hh hne
        | cons c cs =>
          rw [hh] at h hdig
          simp only [List.all_cons, Bool.and_eq_true] at hdig
          refine ⟨c, cs, h.symm, not_ws_of_word c (word_of_digit c hdig.1),
            ?_, ?_, ?_⟩
          · intro hc; rw [hc] at hdig; exact absurd hdig.1 (by decide)
          · intro hc; rw [hc] at hdig; exact absurd hdig.1 (by decide)
          · intro hc; rw [hc] at hdig; exact absurd hdig.1 (by decide)
    | float m e =>
      injection h with h
      by_cases hm : m < 0
      · rw [show floatChars m e = '-' :: floatCharsN m.natAbs e from by
          simp [floatChars, hm]] at h
        exact ⟨'-', _, h.symm, by decide, by decide, by decide, by decide⟩
      · rw [show floatChars m e = floatCharsN m.natAbs e from by
          simp [floatChars, hm]] at h
        rcases floatCharsN_head m.natAbs e with ⟨c, cs, hcc, hcd⟩
        rw [hcc] at h
        refine ⟨c, cs, h.symm, not_ws_of_word c (word_of_digit c hcd),
          ?_, ?_, ?_⟩
        · intro hc; rw [hc] at hcd; exact absurd hcd (by decide)
        · intro hc; rw [hc] at hcd; exact absurd hcd (by decide)
        · intro hc; rw [hc] at hcd; exact absurd hcd (by decide)
    | str s =>
      injection h with h
      exact ⟨'"', _, h.symm, by decide, by decide, by decide, by decide⟩
    | oid t => exact absurd h (by simp [jsonDumpsF])
    | arr xs =>
      simp only [jsonDumpsF] at h
      cases hl : dumpsListF (jsonDumpsF f') xs with
      | none => rw [hl] at h; exact Option.noConfusion h
      | some es =>
        rw [hl] at h
        injection h with h
        exact ⟨'[', _, h.symm, by decide, by decide, by decide, by decide⟩
    | dict kvs =>
      simp only [jsonDumpsF] at h
      cases hl : dumpsPairsF (jsonDumpsF f') kvs with
      | none => rw [hl] at h; exact Option.noConfusion h
      | some es =>
        rw [hl] at h
        injection h with h
        exact ⟨'\x7b', _, h.symm, by decide, by decide, by decide, by decide⟩

theorem parseElemsF_run (g : Nat) :
    ∀ (fuelE : Nat) (xs : List Value) (es : List (List Char)),
    List.Forall₂ (fun x e =>
      ∀ X : List Char, headNum X → jsonParseV g (e ++ X) = some (x, X)) xs es →
    xs ≠ [] → xs.length ≤ fuelE →
    ∀ (wsp rest : List Char), wsp.all isWsChar = true →
    parseElemsF (jsonParseV g) ']' fuelE
      (wsp ++ joinCommaSpace es ++ ']' :: rest) = some (xs, rest) := by
  intro fuelE xs
  induction xs generalizing fuelE with
  | nil => intro es _ hne; exact absurd rfl hne
  | cons x xs ih =>
    intro es hfa _ hlen wsp rest hwsp
    cases hfa with
    | cons hP htail =>
      rename_i e es'
      cases fuelE with
      | zero => simp at hlen
      | succ fE =>
        cases xs with
        | nil =>
          cases htail
          rw [joinCommaSpace_single]
          have hpv : jsonParseV g (wsp ++ (e ++ ']' :: rest)) =
              some (x, ']' :: rest) := by
            rw [jsonParseV_ws g wsp _ hwsp]
            exact hP (']' :: rest)
              (show headNum _ from ⟨by decide, by decide⟩)
          simp only [parseElemsF, List.append_assoc, hpv]
          rw [show skipWs (']' :: rest) = ']' :: rest from rfl]
          simp
        | cons x2 xs2 =>
          cases htail with
          | cons hP2 htail2 =>
            rename_i e2 es2
            rw [joinCommaSpace_cons]
            have hpv : jsonParseV g (wsp ++ (e ++ (',' :: ' ' ::
                (joinCommaSpace (e2 :: es2) ++ ']' :: rest)))) =
                some (x, ',' :: ' ' ::
                  (joinCommaSpace (e2 :: es2) ++ ']' :: rest)) := by
              rw [jsonParseV_ws g wsp _ hwsp]
              exact hP _
                (show headNum _ from ⟨by decide, by decide⟩)
            have hrec := ih fE (e2 :: es2) (List.Forall₂.cons hP2 htail2)
              (by simp) (by simpa using Nat.succ_le_succ_iff.mp hlen)
              [' '] rest (by decide)
            simp only [List.cons_append, List.nil_append] at hrec
            simp only [parseElemsF, List.append_assoc, List.cons_append, hpv]
            rw [show skipWs (',' :: ' ' ::
              (joinCommaSpace (e2 :: es2) ++ ']' :: rest)) = ',' :: ' ' ::
              (joinCommaSpace (e2 :: es2) ++ ']' :: rest) from rfl]
            simp [hrec]

theorem jsonKey_ws (wsp l : List Char) (h : wsp.all isWsChar = true) :
    jsonKey (wsp ++ l) = jsonKey l := by
  unfold jsonKey
  rw [show skipWs (wsp ++ l) = skipWs l from dropWhile_append_sat _ _ _ h]

theorem string_mk_data (s : String) : String.mk s.data = s := by
  cases s
  rfl

theorem jsonKey_run (k : String) (X : List Char) :
    jsonKey ('"' :: (escJson k.data ++ '"' :: X)) = some (k, X) := by
  unfold jsonKey
  rw [show skipWs ('"' :: (escJson k.data ++ '"' :: X)) =
    '"' :: (escJson k.data ++ '"' :: X) from rfl]
  simp only [if_pos rfl]
  rw [parseStrBody_run jsonEscs false (by decide) (by decide) k.data _ X
    (by
      simp only [List.length_append, List.length_cons]
      have := escJson_length_ge k.data
      omega)]
  simp [string_mk_data]

theorem parsePairsF_run (g : Nat) :
    ∀ (fuelP : Nat) (kvs : List (String × Value)) (es : List (List Char)),
    List.Forall₂ (fun p e => ∃ ev,
      e = ('"' :: escJson (Prod.fst p).data ++ ['"', ':', ' ']) ++ ev ∧
      ∀ X : List Char, headNum X → jsonParseV g (ev ++ X) = some (p.2, X))
      kvs es →
    kvs ≠ [] → kvs.length ≤ fuelP →
    ∀ (wsp rest : List Char), wsp.all isWsChar = true →
    parsePairsF (jsonParseV g) jsonKey '\x7d' fuelP
      (wsp ++ joinCommaSpace es ++ '\x7d' :: rest) = some (kvs, rest) := by
  intro fuelP kvs
  induction kvs generalizing fuelP with
  | nil => intro es _ hne; exact absurd rfl hne
  | cons p kvs ih =>
    intro es hfa _ hlen wsp rest hwsp
    cases hfa with
    | cons hQ htail =>
      rename_i e es'
      rcases hQ with ⟨ev, hef, hPv⟩
      rcases p with ⟨k, v⟩
      cases fuelP with
      | zero => simp at hlen
      | succ fP =>
        cases kvs with
        | nil =>
          cases htail
          rw [joinCommaSpace_single, hef]
          have hkey : jsonKey (wsp ++ ('"' :: (escJson k.data ++ '"' :: ':' ::
              ' ' :: (ev ++ '\x7d' :: rest)))) =
              some (k, ':' :: ' ' :: (ev ++ '\x7d' :: rest)) := by
            rw [jsonKey_ws wsp _ hwsp]
            exact jsonKey_run k _
          have hval : jsonParseV g (' ' :: (ev ++ '\x7d' :: rest)) =
              some (v, '\x7d' :: rest) := by
            have := jsonParseV_ws g [' '] (ev ++ '\x7d' :: rest) (by decide)
            simp only [List.cons_append, List.nil_append] at this
            rw [this]
            exact hPv _
              (show headNum _ from ⟨by decide, by decide⟩)
          simp only [parsePairsF, List.append_assoc, List.cons_append,
            List.nil_append, hkey]
          rw [show skipWs (':' :: ' ' :: (ev ++ '\x7d' :: rest)) =
            ':' :: ' ' :: (ev ++ '\x7d' :: rest) from rfl]
          simp only [hval]
          rw [show skipWs ('\x7d' :: rest) = '\x7d' :: rest from rfl]
          simp
        | cons p2 kvs2 =>
          cases htail with
          | cons hQ2 htail2 =>
            rename_i e2 es2
            rw [joinCommaSpace_cons, hef]
            have hkey : jsonKey (wsp ++ ('"' :: (escJson k.data ++ '"' :: ':' ::
                ' ' :: (ev ++ ',' :: ' ' :: (joinCommaSpace (e2 :: es2) ++
                  '\x7d' :: rest))))) =
                some (k, ':' :: ' ' :: (ev ++ ',' :: ' ' ::
                  (joinCommaSpace (e2 :: es2) ++ '\x7d' :: rest))) := by
              rw [jsonKey_ws wsp _ hwsp]
              exact jsonKey_run k _
            have hval : jsonParseV g (' ' :: (ev ++ ',' :: ' ' ::
                (joinCommaSpace (e2 :: es2) ++ '\x7d' :: rest))) =
                some (v, ',' :: ' ' :: (joinCommaSpace (e2 :: es2) ++
                  '\x7d' :: rest)) := by
              have := jsonParseV_ws g [' ']
                (ev ++ ',' :: ' ' :: (joinCommaSpace (e2 :: es2) ++
                  '\x7d' :: rest)) (by decide)
              simp only [List.cons_append, List.nil_append] at this
              rw [this]
              exact hPv _
                (show headNum _ from ⟨by decide, by decide⟩)
            have hrec := ih fP (e2 :: es2) (List.Forall₂.cons hQ2 htail2)
              (by simp) (by simpa using Nat.succ_le_succ_iff.mp hlen)
              [' '] rest (by decide)
            simp only [List.cons_append, List.nil_append] at hrec
            simp only [parsePairsF, List.append_assoc, List.cons_append,
              List.nil_append, hkey]
            rw [show skipWs (':' :: ' ' :: (ev ++ ',' :: ' ' ::
              (joinCommaSpace (e2 :: es2) ++ '\x7d' :: rest))) =
              ':' :: ' ' :: (ev ++ ',' :: ' ' ::
              (joinCommaSpace (e2 :: es2) ++ '\x7d' :: rest)) from rfl]
            simp only [hval]
            rw [show skipWs (',' :: ' ' :: (joinCommaSpace (e2 :: es2) ++
              '\x7d' :: rest)) = ',' :: ' ' :: (joinCommaSpace (e2 :: es2) ++
              '\x7d' :: rest) from rfl]
            simp [hrec]

theorem count_le_joinCommaSpace : ∀ (es : List (List Char)),
    (∀ e ∈ es, e ≠ []) → es.length ≤ (joinCommaSpace es).length := by
  intro es
  induction es with
  | nil => intro _; simp
  | cons e es ih =>
    intro h
    cases es with
    | nil =>
      have h1 : e ≠ [] := h e (by simp)
      have h2 : 1 ≤ e.length := List.length_pos.mpr h1
      simpa [joinCommaSpace_single] using h2
    | cons e2 es2 =>
      rw [joinCommaSpace_cons]
      have h1 : e ≠ [] := h e (by simp)
      have h2 := ih (fun x hx => h x (List.mem_cons_of_mem _ hx))
      have h3 : 1 ≤ e.length := List.length_pos.mpr h1
      simp only [List.length_append, List.length_cons] at h2 ⊢
      omega

theorem forall₂_imp_mem {α β : Type} {R S : α → β → Prop} :
    ∀ {l1 : List α} {l2 : List β}, List.Forall₂ R l1 l2 →
    (∀ a b, a ∈ l1 → b ∈ l2 → R a b → S a b) → List.Forall₂ S l1 l2 := by
  intro l1 l2 hfa
  induction hfa with
  | nil => intro _; exact List.Forall₂.nil
  | cons hR _ ih =>
    intro h
    exact List.Forall₂.cons
      (h _ _ (by simp) (by simp) hR)
      (ih (fun a b ha hb => h a b (List.mem_cons_of_mem _ ha)
        (List.mem_cons_of_mem _ hb)))

theorem digit_head_false_of_headNW (l : List Char) :
    headNW l →
    (match l with | [] => True | c :: _ => Char.isDigit c = false) := by
  cases l with
  | nil => intro _; trivial
  | cons c cs =>
    intro h
    have h' : isWordChar c = false := h
    cases hd : c.isDigit with
    | false => exact hd
    | true =>
      have := word_of_digit c hd
      rw [h'] at this
      exact Bool.noConfusion this

theorem joinCommaSpace_head (e : List Char) (es : List (List Char)) :
    ∃ Z : List Char, joinCommaSpace (e :: es) = e ++ Z := by
  cases es with
  | nil => exact ⟨[], by simp [joinCommaSpace_single]⟩
  | cons e2 es2 => exact ⟨',' :: ' ' :: joinCommaSpace (e2 :: es2),
      joinCommaSpace_cons e e2 es2⟩

theorem jsonParseV_neg (g : Nat) (X : List Char) :
    jsonParseV (g + 1) ('-' :: X) =
      match parseNumTok X with
      | some (.int n, r) => some (.int (-(n : Int)), r)
      | some (.flt m e, r) => some (.float (-(m : Int)) e, r)
      | none => none := rfl

theorem jsonParseV_quote (g : Nat) (X : List Char) :
    jsonParseV (g + 1) ('"' :: X) =
      (parseStrBody '"' jsonEscs false X.length X).map
        (fun p => (Value.str (String.mk p.1), p.2)) := rfl

theorem jsonParseV_other (g : Nat) (c : Char) (X : List Char)
    (hws : isWsChar c = false) (h1 : c ≠ '\x7b') (h2 : c ≠ '[') (h3 : c ≠ '"')
    (h4 : c ≠ 'n') (h5 : c ≠ 't') (h6 : c ≠ 'f') (h7 : c ≠ '-') :
    jsonParseV (g + 1) (c :: X) =
      match parseNumTok (c :: X) with
      | some (.int n, r) => some (.int ((n : Nat) : Int), r)
      | some (.flt m e, r) => some (.float ((m : Nat) : Int) e, r)
      | none => none := by
  show jsonParseV (g + 1) (c :: X) = _
  unfold jsonParseV
  rw [show skipWs (c :: X) = c :: X from
    dropWhile_head_false isWsChar (c :: X) hws]
  simp only [if_neg h1, if_neg h2, if_neg h3, if_neg h4, if_neg h5, if_neg h6,
    if_neg h7]

theorem forall₂_right_mem {α β : Type} {R : α → β → Prop} :
    ∀ {l1 : List α} {l2 : List β}, List.Forall₂ R l1 l2 →
    ∀ b ∈ l2, ∃ a ∈ l1, R a b := by
  intro l1 l2 h
  induction h with
  | nil => intro b hb; simp at hb
  | cons hR _ ih =>
    intro b hb
    rcases List.mem_cons.mp hb with rfl | hb'
    · exact ⟨_, by simp, hR⟩
    · rcases ih b hb' with ⟨a, ha, hab⟩
      exact ⟨a, List.mem_cons_of_mem _ ha, hab⟩

theorem wfv_arr_mem (xs : List Value) (h : WfV (.arr xs)) :
    ∀ x ∈ xs, WfV x := by
  cases h with | arr _ h1 => exact h1

theorem wfv_dict_nodup (kvs : List (String × Value)) (h : WfV (.dict kvs)) :
    (kvs.map Prod.fst).Nodup := by
  cases h with | dict _ h1 _ => exact h1

theorem wfv_dict_mem (kvs : List (String × Value)) (h : WfV (.dict kvs)) :
    ∀ p ∈ kvs, WfV p.2 := by
  cases h with | dict _ _ h2 => exact h2

theorem jsonParseV_dumps :
    ∀ (f : Nat) (v : Value) (enc : List Char),
    jsonDumpsF f v = some enc → WfV v →
    ∀ (g : Nat) (rest : List Char), enc.length < g → headNum rest →
    jsonParseV g (enc ++ rest) = some (v, rest) := by
  intro f
  induction f with
  | zero => intro v enc h; exact absurd h (by simp [jsonDumpsF])
  | succ f ih =>
    intro v enc h hwf g rest hg hrest
    obtain ⟨g', rfl⟩ : ∃ g', g = g' + 1 := ⟨g - 1, by omega⟩
    cases v with
    | null =>
      injection h with h
      subst h
      rfl
    | bool b =>
      cases b with
      | true => injection h with h; subst h; rfl
      | false => injection h with h; subst h; rfl
    | int n =>
      injection h with h
      subst h
      by_cases hn : n < 0
      · rw [show intChars n = '-' :: natChars n.natAbs from by
          simp [intChars, hn]]
        have hpn := parseNumTok_natChars n.natAbs rest hrest
        rw [List.cons_append, jsonParseV_neg]
        simp only [hpn]
        have hval : -((n.natAbs : Nat) : Int) = n := by omega
        rw [hval]
      · rw [show intChars n = natChars n.natAbs from by simp [intChars, hn]]
        rcases natChars_spec n.natAbs with ⟨_, hne, hdig, _⟩
        cases hh : natChars n.natAbs with
        | nil => exact absurd hh hne
        | cons c cs =>
          rw [hh] at hdig
          simp only [List.all_cons, Bool.and_eq_true] at hdig
          have hcd : c.isDigit = true := hdig.1
          have hpn : parseNumTok (c :: (cs ++ rest)) =
              some (.int n.natAbs, rest) := by
            have := parseNumTok_natChars n.natAbs rest hrest
            rw [hh] at this
            simpa using this
          rw [List.cons_append,
            jsonParseV_other g' c (cs ++ rest)
              (not_ws_of_word c (word_of_digit c hcd))
              (by intro hc; subst hc; exact absurd hcd (by decide))
              (by intro hc; subst hc; exact absurd hcd (by decide))
              (by intro hc; subst hc; exact absurd hcd (by decide))
              (by intro hc; subst hc; exact absurd hcd (by decide))
              (by intro hc; subst hc; exact absurd hcd (by decide))
              (by intro hc; subst hc; exact absurd hcd (by decide))
              (by intro hc; subst hc; exact absurd hcd (by decide))]
          simp only [hpn]
          have hval : ((n.natAbs : Nat) : Int) = n := by omega
          rw [hval]
    | float m e =>
      injection h with h
      subst h
      have hcanon : floatCanon m e = true := by
        cases hwf with
        | flt _ _ hc => exact hc
      have hcn : (m.natAbs = 0 → e = 0) ∧
          (m.natAbs ≠ 0 → m.natAbs % 10 ≠ 0) := by
        unfold floatCanon at hcanon
        by_cases hm0 : m = 0
        · rw [if_pos hm0] at hcanon
          refine ⟨fun _ => by simpa using hcanon, fun hna => absurd ?_ hna⟩
          simp [hm0]
        · rw [if_neg hm0] at hcanon
          have hmod : m % 10 ≠ 0 := by simpa using hcanon
          refine ⟨fun hna => absurd (Int.natAbs_eq_zero.mp hna) hm0,
            fun _ hcon => ?_⟩
          apply hmod
          have h10 : (10 : Nat) ∣ m.natAbs := Nat.dvd_of_mod_eq_zero hcon
          have hdvd : (10 : Int) ∣ m := by
            rw [← Int.natAbs_dvd_natAbs]
            exact h10
          exact Int.emod_eq_zero_of_dvd hdvd

      by_cases hm : m < 0
      · rw [show floatChars m e = '-' :: floatCharsN m.natAbs e from by
          simp [floatChars, hm]]
        have hpn := parseNumTok_fltChars m.natAbs e hcn.1 hcn.2 rest hrest
        rw [List.cons_append, jsonParseV_neg]
        simp only [hpn]
        have hval : -((m.natAbs : Nat) : Int) = m := by omega
        rw [hval]
      · rw [show floatChars m e = floatCharsN m.natAbs e from by
          simp [floatChars, hm]]
        rcases floatCharsN_head m.natAbs e with ⟨c, cs, hcc, hcd⟩
        have hpn : parseNumTok (c :: (cs ++ rest)) =
            some (.flt m.natAbs e, rest) := by
          have := parseNumTok_fltChars m.natAbs e hcn.1 hcn.2 rest hrest
          rw [hcc] at this
          simpa using this
        rw [hcc, List.cons_append,
          jsonParseV_other g' c (cs ++ rest)
            (not_ws_of_word c (word_of_digit c hcd))
            (by intro hc; subst hc; exact absurd hcd (by decide))
            (by intro hc; subst hc; exact absurd hcd (by decide))
            (by intro hc; subst hc; exact absurd hcd (by decide))
            (by intro hc; subst hc; exact absurd hcd (by decide))
            (by intro hc; subst hc; exact absurd hcd (by decide))
            (by intro hc; subst hc; exact absurd hcd (by decide))
            (by intro hc; subst hc; exact absurd hcd (by decide))]
        simp only [hpn]
        have hval : ((m.natAbs : Nat) : Int) = m := by omega
        rw [hval]
    | str s =>
      injection h with h
      subst h
      have e1 : ('"' :: escJson s.data ++ ['"']) ++ rest =
          '"' :: (escJson s.data ++ '"' :: rest) := by simp
      rw [e1, jsonParseV_quote]
      rw [parseStrBody_run jsonEscs false (by decide) (by decide) s.data _ rest
        (by
          simp only [List.length_append, List.length_cons]
          have := escJson_length_ge s.data
          omega)]
      simp [string_mk_data]
    | oid t => exact absurd h (by simp [jsonDumpsF])
    | arr xs =>
      simp only [jsonDumpsF] at h
      cases hl : dumpsListF (jsonDumpsF f) xs with
      | none => rw [hl] at h; exact Option.noConfusion h
      | some es =>
        rw [hl] at h
        injection h with h
        subst h
        cases xs with
        | nil =>
          have hes : [] = es := by
            have : dumpsListF (jsonDumpsF f) [] = some es := hl
            injection this
          subst hes
          rfl
        | cons x xs' =>
          have hfa := dumpsListF_forall (jsonDumpsF f) (x :: xs') es hl
          have hwfm := wfv_arr_mem (x :: xs') hwf
          cases hfa with
          | cons hPx htail =>
            rename_i e es'
            have hfaC : List.Forall₂ (fun x' e' => jsonDumpsF f x' = some e')
                (x :: xs') (e :: es') := List.Forall₂.cons hPx htail
            have hne_es : ∀ e' ∈ e :: es', e' ≠ [] := by
              intro e' he'
              rcases forall₂_right_mem hfaC e' he'
                with ⟨a, _, hab⟩
              rcases jsonDumpsF_head f a e' hab with ⟨c1, cs1, hec, _⟩
              simp [hec]
            simp only [List.length_cons, List.length_append,
              List.length_nil] at hg
            have hP : List.Forall₂ (fun x' e' => ∀ X : List Char,
                headNum X →
                jsonParseV g' (e' ++ X) = some (x', X)) (x :: xs') (e :: es')
                := by
              refine forall₂_imp_mem hfaC ?_
              intro a b ha hb hR X hX
              refine ih a b hR (hwfm a ha) g' X ?_ hX
              have h1 := length_le_joinCommaSpace b _ hb
              omega
            have hcount : (x :: xs').length ≤ g' := by
              have hc := count_le_joinCommaSpace (e :: es') hne_es
              have hlen2 : (x :: xs').length = (e :: es').length :=
                List.Forall₂.length_eq hfaC
              simp only [List.length_cons] at hc hlen2 ⊢
              omega
            have hrun := parseElemsF_run g' g' (x :: xs') (e :: es') hP
              (by simp) hcount [] rest (by decide)
            simp only [List.nil_append] at hrun
            rcases jsonDumpsF_head f x e hPx with ⟨c1, cs1, hec, hc1ws, hc1br, _, _⟩
            rcases joinCommaSpace_head e es' with ⟨Z, hZ⟩
            have hjoin_form : joinCommaSpace (e :: es') ++ ']' :: rest =
                c1 :: (cs1 ++ (Z ++ ']' :: rest)) := by
              rw [hZ, hec]
              simp [List.append_assoc]
            have e1 : ('[' :: joinCommaSpace (e :: es') ++ [']']) ++ rest =
                '[' :: (joinCommaSpace (e :: es') ++ ']' :: rest) := by simp
            rw [e1]
            show jsonParseV (g' + 1) _ = _
            unfold jsonParseV
            rw [show skipWs ('[' :: (joinCommaSpace (e :: es') ++ ']' :: rest)) =
              '[' :: (joinCommaSpace (e :: es') ++ ']' :: rest) from rfl]
            simp only [if_neg (by decide : ¬('[' = '\x7b')),
              if_pos (rfl : '[' = '[')]
            rw [hjoin_form]
            rw [show skipWs (c1 :: (cs1 ++ (Z ++ ']' :: rest))) =
              c1 :: (cs1 ++ (Z ++ ']' :: rest)) from
              dropWhile_head_false isWsChar _ hc1ws]
            simp only [if_neg hc1br]
            rw [← hjoin_form]
            simp [hrun]
    | dict kvs =>
      simp only [jsonDumpsF] at h
      cases hl : dumpsPairsF (jsonDumpsF f) kvs with
      | none => rw [hl] at h; exact Option.noConfusion h
      | some es =>
        rw [hl] at h
        injection h with h
        subst h
        have hnd := wfv_dict_nodup kvs hwf
        have hwfm := wfv_dict_mem kvs hwf
        cases kvs with
        | nil =>
          have hes : [] = es := by
            have : dumpsPairsF (jsonDumpsF f) [] = some es := hl
            injection this
          subst hes
          rfl
        | cons p kvs' =>
          have hfa := dumpsPairsF_forall (jsonDumpsF f) (p :: kvs') es hl
          cases hfa with
          | cons hPp htail =>
            rename_i e es'
            have hfaC : List.Forall₂ (fun q e' => ∃ ev,
                jsonDumpsF f q.2 = some ev ∧
                e' = ('"' :: escJson q.1.data ++ ['"', ':', ' ']) ++ ev)
                (p :: kvs') (e :: es') := List.Forall₂.cons hPp htail
            have hne_es : ∀ e' ∈ e :: es', e' ≠ [] := by
              intro e' he'
              rcases forall₂_right_mem hfaC e' he'
                with ⟨a, _, ⟨ev, _, hee⟩⟩
              simp [hee]
            simp only [List.length_cons, List.length_append,
              List.length_nil] at hg
            have hP : List.Forall₂ (fun q e' => ∃ ev,
                e' = ('"' :: escJson (Prod.fst q).data ++ ['"', ':', ' ']) ++ ev ∧
                ∀ X : List Char, headNum X →
                  jsonParseV g' (ev ++ X) = some (q.2, X))
                (p :: kvs') (e :: es') := by
              refine forall₂_imp_mem hfaC ?_
              intro a b ha hb hR
              rcases hR with ⟨ev, hdv, hee⟩
              refine ⟨ev, hee, ?_⟩
              intro X hX
              refine ih a.2 ev hdv (hwfm a ha) g' X ?_ hX
              have h1 := length_le_joinCommaSpace b _ hb
              have h2 : ev.length ≤ b.length := by
                rw [hee]
                simp only [List.length_append]
                omega
              omega
            have hcount : (p :: kvs').length ≤ g' := by
              have hc := count_le_joinCommaSpace (e :: es') hne_es
              have hlen2 : (p :: kvs').length = (e :: es').length :=
                List.Forall₂.length_eq hfaC
              simp only [List.length_cons] at hc hlen2 ⊢
              omega
            have hrun := parsePairsF_run g' g' (p :: kvs') (e :: es') hP
              (by simp) hcount [] rest (by decide)
            simp only [List.nil_append] at hrun
            rcases hPp with ⟨ev1, _, hee1⟩
            rcases joinCommaSpace_head e es' with ⟨Z, hZ⟩
            have hjoin_form : joinCommaSpace (e :: es') ++ '\x7d' :: rest =
                '"' :: ((escJson (Prod.fst p).data ++ ['"', ':', ' '] ++ ev1) ++
                  (Z ++ '\x7d' :: rest)) := by
              rw [hZ, hee1]
              simp [List.append_assoc]
            have e1 : ('\x7b' :: joinCommaSpace (e :: es') ++ ['\x7d']) ++ rest =
                '\x7b' :: (joinCommaSpace (e :: es') ++ '\x7d' :: rest) := by simp
            rw [e1]
            show jsonParseV (g' + 1) _ = _
            unfold jsonParseV
            rw [show skipWs ('\x7b' :: (joinCommaSpace (e :: es') ++
              '\x7d' :: rest)) =
              '\x7b' :: (joinCommaSpace (e :: es') ++ '\x7d' :: rest) from rfl]
            simp only [if_pos (rfl : '\x7b' = '\x7b')]
            rw [hjoin_form]
            rw [show skipWs ('"' :: ((escJson (Prod.fst p).data ++
              ['"', ':', ' '] ++ ev1) ++ (Z ++ '\x7d' :: rest))) =
              '"' :: ((escJson (Prod.fst p).data ++ ['"', ':', ' '] ++ ev1) ++
              (Z ++ '\x7d' :: rest)) from rfl]
            simp only [if_neg (by decide : ¬('"' = '\x7d'))]
            rw [← hjoin_form]
            simp [hrun, mkDict_id (p :: kvs') hnd]

/-! ## Infrastructure for the normalization transport -/

theorem detok_mapWords_length (f : List Char → List Char)
    (hf : ∀ w, (f w).length = w.length) :
    ∀ ts : List Tok, (detok (mapWords f ts)).length = (detok ts).length := by
  intro ts
  induction ts with
  | nil => rfl
  | cons t ts ih =>
    cases t with
    | word w =>
      show (detok (.word (f w) :: mapWords f ts)).length =
        (detok (.word w :: ts)).length
      rw [detok_cons_word, detok_cons_word]
      simp only [List.length_append, hf w, ih]
    | sym c =>
      show (detok (.sym c :: mapWords f ts)).length =
        (detok (.sym c :: ts)).length
      rw [detok_cons_sym, detok_cons_sym]
      simp only [List.length_cons, ih]

theorem wordMap_length (f : List Char → List Char)
    (hf : ∀ w, (f w).length = w.length) (l : List Char) :
    (wordMap f l).length = l.length := by
  unfold wordMap
  rw [detok_mapWords_length f hf (toks l), detok_toks l.length l le_rfl]

theorem fixedChars_nw_pre (p l : List Char)
    (hp : p.all (fun c => !isWordChar c) = true) :
    fixedChars (p ++ l) ↔ fixedChars l := by
  unfold fixedChars
  rw [wordMap_nw_pre canonKw p hp l]
  constructor
  · intro h
    exact List.append_cancel_left h
  · intro h
    rw [h]

theorem fixedChars_skipWs (l : List Char) (h : fixedChars l) :
    fixedChars (skipWs l) := by
  have hsplit := skipWs_split l
  rw [hsplit] at h
  exact (fixedChars_nw_pre _ _
    (all_nw_of_all_ws _ (all_ws_takeWhile l))).mp h

theorem headNW_of_skipWs (l : List Char) (c : Char) (cs : List Char)
    (h : skipWs l = c :: cs) (hc : isWordChar c = false) : headNW l := by
  cases l with
  | nil => trivial
  | cons a as =>
    by_cases ha : isWsChar a = true
    · exact not_word_of_ws a ha
    · have hsk : skipWs (a :: as) = a :: as := by
        simp [skipWs, List.dropWhile_cons, ha]
      rw [hsk] at h
      injection h with h1 _
      rw [h1]
      exact hc

theorem dictSet_keys_of_mem {α : Type} (d : List (String × α)) (k : String)
    (v : α) (h : d.any (fun p => p.1 = k) = true) :
    (dictSet d k v).map Prod.fst = d.map Prod.fst := by
  unfold dictSet
  rw [if_pos h, List.map_map]
  refine List.map_congr_left ?_
  intro p _
  by_cases hp : p.1 = k
  · simp [Function.comp, hp]
  · simp [Function.comp, hp]

theorem dictSet_keys_new {α : Type} (d : List (String × α)) (k : String)
    (v : α) (h : d.any (fun p => p.1 = k) = false) :
    (dictSet d k v).map Prod.fst = d.map Prod.fst ++ [k] := by
  unfold dictSet
  rw [if_neg (by rw [h]; exact Bool.false_ne_true)]
  simp

theorem dictSet_nodup {α : Type} (d : List (String × α)) (k : String) (v : α)
    (h : (d.map Prod.fst).Nodup) :
    ((dictSet d k v).map Prod.fst).Nodup := by
  cases ha : d.any (fun p => p.1 = k) with
  | true => rw [dictSet_keys_of_mem d k v ha]; exact h
  | false =>
    rw [dictSet_keys_new d k v ha]
    rw [List.nodup_append]
    refine ⟨h, List.nodup_singleton k, ?_⟩
    intro x hx
    simp only [List.mem_singleton]
    intro hxk
    subst hxk
    rcases List.mem_map.mp hx with ⟨p, hp, hpk⟩
    have : d.any (fun p => p.1 = x) = true :=
      List.any_eq_true.mpr ⟨p, hp, by simp [hpk]⟩
    rw [this] at ha
    exact Bool.noConfusion ha

theorem foldl_dictSet_nodup {α : Type} :
    ∀ (ps : List (String × α)) (d : List (String × α)),
    (d.map Prod.fst).Nodup →
    ((ps.foldl (fun d p => dictSet d p.1 p.2) d).map Prod.fst).Nodup := by
  intro ps
  induction ps with
  | nil => intro d h; exact h
  | cons p ps ih =>
    intro d h
    rw [List.foldl_cons]
    exact ih _ (dictSet_nodup d p.1 p.2 h)

theorem mkDict_nodup {α : Type} (ps : List (String × α)) :
    ((mkDict ps).map Prod.fst).Nodup :=
  foldl_dictSet_nodup ps [] List.nodup_nil

theorem dictSet_keys_sub {α : Type} (d : List (String × α)) (k k' : String)
    (v : α) (h : k ∈ d.map Prod.fst) : k ∈ (dictSet d k' v).map Prod.fst := by
  cases ha : d.any (fun p => p.1 = k') with
  | true => rw [dictSet_keys_of_mem d k' v ha]; exact h
  | false => rw [dictSet_keys_new d k' v ha]; exact List.mem_append_left _ h

theorem dictSet_keys_self {α : Type} (d : List (String × α)) (k : String)
    (v : α) : k ∈ (dictSet d k v).map Prod.fst := by
  cases ha : d.any (fun p => p.1 = k) with
  | true =>
    rw [dictSet_keys_of_mem d k v ha]
    rcases List.any_eq_true.mp ha with ⟨p, hp, hpk⟩
    simp only [decide_eq_true_eq] at hpk
    exact hpk ▸ List.mem_map_of_mem Prod.fst hp
  | false =>
    rw [dictSet_keys_new d k v ha]
    exact List.mem_append_right _ (by simp)

theorem foldl_dictSet_keys_sub {α : Type} :
    ∀ (ps : List (String × α)) (d : List (String × α)) (k : String),
    (k ∈ d.map Prod.fst ∨ ∃ p ∈ ps, Prod.fst p = k) →
    k ∈ ((ps.foldl (fun d p => dictSet d p.1 p.2) d).map Prod.fst) := by
  intro ps
  induction ps with
  | nil =>
    intro d k h
    rcases h with h | ⟨p, hp, _⟩
    · exact h
    · simp at hp
  | cons q ps ih =>
    intro d k h
    rw [List.foldl_cons]
    refine ih _ k ?_
    rcases h with h | ⟨p, hp, hpk⟩
    · exact Or.inl (dictSet_keys_sub d k q.1 q.2 h)
    · rcases List.mem_cons.mp hp with rfl | hp'
      · exact Or.inl (hpk ▸ dictSet_keys_self d p.1 p.2)
      · exact Or.inr ⟨p, hp', hpk⟩

theorem mkDict_keys_sub {α : Type} (ps : List (String × α)) (p : String × α)
    (hp : p ∈ ps) : p.1 ∈ (mkDict ps).map Prod.fst :=
  foldl_dictSet_keys_sub ps [] p.1 (Or.inr ⟨p, hp, rfl⟩)

theorem dictSet_mem_sub {α : Type} (d : List (String × α)) (k : String)
    (v : α) (q : String × α) (h : q ∈ dictSet d k v) :
    q ∈ d ∨ q = (k, v) := by
  unfold dictSet at h
  by_cases ha : d.any (fun p => p.1 = k) = true
  · rw [if_pos ha] at h
    rcases List.mem_map.mp h with ⟨p, hp, hpq⟩
    by_cases hpk : p.1 = k
    · rw [if_pos hpk] at hpq
      exact Or.inr hpq.symm
    · rw [if_neg hpk] at hpq
      exact Or.inl (hpq ▸ hp)
  · rw [if_neg ha] at h
    rcases List.mem_append.mp h with h | h
    · exact Or.inl h
    · exact Or.inr (List.mem_singleton.mp h)

theorem foldl_dictSet_mem_sub {α : Type} :
    ∀ (ps : List (String × α)) (d : List (String × α)) (q : String × α),
    q ∈ ps.foldl (fun d p => dictSet d p.1 p.2) d → q ∈ d ∨ q ∈ ps := by
  intro ps
  induction ps with
  | nil => intro d q h; exact Or.inl h
  | cons p ps ih =>
    intro d q h
    rw [List.foldl_cons] at h
    rcases ih _ q h with h' | h'
    · rcases dictSet_mem_sub d p.1 p.2 q h' with h'' | h''
      · exact Or.inl h''
      · exact Or.inr (by rw [h'']; simp)
    · exact Or.inr (List.mem_cons_of_mem _ h')

theorem mkDict_mem_sub {α : Type} (ps : List (String × α)) (q : String × α)
    (h : q ∈ mkDict ps) : q ∈ ps := by
  rcases foldl_dictSet_mem_sub ps [] q h with h' | h'
  · simp at h'
  · exact h'

theorem parseElemsF_all {pv : List Char → Option (Value × List Char)}
    {P : Value → Prop} (close : Char)
    (hpv : ∀ l v r, pv l = some (v, r) → P v) :
    ∀ (fuel : Nat) (l : List Char) (vs : List Value) (r : List Char),
    parseElemsF pv close fuel l = some (vs, r) → ∀ v ∈ vs, P v := by
  intro fuel
  induction fuel with
  | zero => intro l vs r h; exact absurd h (by simp [parseElemsF])
  | succ f ih =>
    intro l vs r h
    simp only [parseElemsF] at h
    split at h
    · exact Option.noConfusion h
    · rename_i v r1 hv
      split at h
      · exact Option.noConfusion h
      · rename_i c cs hsk
        split at h
        · injection h with h
          rw [Prod.mk.injEq] at h
          intro v' hv'
          rw [← h.1] at hv'
          rw [List.mem_singleton.mp hv']
          exact hpv l v r1 hv
        · split at h
          · split at h
            · exact Option.noConfusion h
            · rename_i vs2 r2 hrec
              injection h with h
              rw [Prod.mk.injEq] at h
              intro v' hv'
              rw [← h.1] at hv'
              rcases List.mem_cons.mp hv' with rfl | hv''
              · exact hpv l v' r1 hv
              · exact ih cs vs2 r2 hrec v' hv''
          · exact Option.noConfusion h

theorem parsePairsF_all {pv : List Char → Option (Value × List Char)}
    {pk : List Char → Option (String × List Char)} {P : Value → Prop}
    (close : Char) (hpv : ∀ l v r, pv l = some (v, r) → P v) :
    ∀ (fuel : Nat) (l : List Char) (ps : List (String × Value))
      (r : List Char),
    parsePairsF pv pk close fuel l = some (ps, r) → ∀ p ∈ ps, P p.2 := by
  intro fuel
  induction fuel with
  | zero => intro l ps r h; exact absurd h (by simp [parsePairsF])
  | succ f ih =>
    intro l ps r h
    simp only [parsePairsF] at h
    split at h
    · exact Option.noConfusion h
    · rename_i k r1 hk
      split at h
      · rename_i r2 hsk
        split at h
        · exact Option.noConfusion h
        · rename_i v r3 hv
          split at h
          · exact Option.noConfusion h
          · rename_i c2 cs2 hsk2
            split at h
            · injection h with h
              rw [Prod.mk.injEq] at h
              intro p hp
              rw [← h.1] at hp
              rw [List.mem_singleton.mp hp]
              exact hpv r2 v r3 hv
            · split at h
              · split at h
                · exact Option.noConfusion h
                · rename_i ps2 r4 hrec
                  injection h with h
                  rw [Prod.mk.injEq] at h
                  intro p hp
                  rw [← h.1] at hp
                  rcases List.mem_cons.mp hp with rfl | hp'
                  · exact hpv r2 v r3 hv
                  · exact ih cs2 ps2 r4 hrec p hp'
              · exact Option.noConfusion h
      · exact Option.noConfusion h

theorem dumpsListF_some_of (dv : Value → Option (List Char)) :
    ∀ xs : List Value, (∀ x ∈ xs, ∃ e, dv x = some e) →
    ∃ es, dumpsListF dv xs = some es := by
  intro xs
  induction xs with
  | nil => intro _; exact ⟨[], rfl⟩
  | cons x rest ih =>
    intro h
    rcases h x (by simp) with ⟨e, he⟩
    rcases ih (fun y hy => h y (List.mem_cons_of_mem _ hy)) with ⟨es, hes⟩
    refine ⟨e :: es, ?_⟩
    simp only [dumpsListF, he, hes]

theorem dumpsPairsF_some_of (dv : Value → Option (List Char)) :
    ∀ kvs : List (String × Value), (∀ p ∈ kvs, ∃ e, dv p.2 = some e) →
    ∃ es, dumpsPairsF dv kvs = some es := by
  intro kvs
  induction kvs with
  | nil => intro _; exact ⟨[], rfl⟩
  | cons p rest ih =>
    intro h
    rcases p with ⟨k, v⟩
    rcases h (k, v) (by simp) with ⟨e, he⟩
    rcases ih (fun q hq => h q (List.mem_cons_of_mem _ hq)) with ⟨es, hes⟩
    exact ⟨(('"' :: escJson k.data ++ ['"', ':', ' ']) ++ e) :: es,
      by simp only [dumpsPairsF, he, hes]⟩

theorem jsonParseV_wf_dumps :
    ∀ (g : Nat) (l : List Char) (v : Value) (r : List Char),
    jsonParseV g l = some (v, r) →
    WfV v ∧ ∃ e, jsonDumpsF g v = some e := by
  intro g
  induction g with
  | zero => intro l v r h; exact absurd h (by simp [jsonParseV])
  | succ g ih =>
    intro l v r h
    simp only [jsonParseV] at h
    split at h
    · exact Option.noConfusion h
    · rename_i c cs hsk
      split at h
      · -- object
        split at h
        · exact Option.noConfusion h
        · rename_i d ds hsk2
          split at h
          · injection h with h
            rw [Prod.mk.injEq] at h
            rw [← h.1]
            exact ⟨WfV.dict [] (by simp) (by simp), ⟨_, rfl⟩⟩
          · split at h
            · exact Option.noConfusion h
            · rename_i ps r2 hp
              injection h with h
              rw [Prod.mk.injEq] at h
              rw [← h.1]
              have hall : ∀ p ∈ ps, WfV p.2 ∧ ∃ e, jsonDumpsF g p.2 = some e :=
                parsePairsF_all '\x7d' (fun l' v' r' h' => ih l' v' r' h')
                  g (d :: ds) ps r2 hp
              constructor
              · refine WfV.dict (mkDict ps) (mkDict_nodup ps) ?_
                intro q hq
                exact (hall q (mkDict_mem_sub ps q hq)).1
              · rcases dumpsPairsF_some_of (jsonDumpsF g) (mkDict ps)
                  (fun q hq => (hall q (mkDict_mem_sub ps q hq)).2) with ⟨es, hes⟩
                exact ⟨'\x7b' :: joinCommaSpace es ++ ['\x7d'],
                  by simp only [jsonDumpsF, hes]⟩
      · split at h
        · -- array
          split at h
          · exact Option.noConfusion h
          · rename_i d ds hsk2
            split at h
            · injection h with h
              rw [Prod.mk.injEq] at h
              rw [← h.1]
              exact ⟨WfV.arr [] (by simp), ⟨_, rfl⟩⟩
            · split at h
              · exact Option.noConfusion h
              · rename_i vs r2 hp
                injection h with h
                rw [Prod.mk.injEq] at h
                rw [← h.1]
                have hall : ∀ x ∈ vs, WfV x ∧ ∃ e, jsonDumpsF g x = some e :=
                  parseElemsF_all ']' (fun l' v' r' h' => ih l' v' r' h')
                    g (d :: ds) vs r2 hp
                constructor
                · exact WfV.arr vs (fun x hx => (hall x hx).1)
                · rcases dumpsListF_some_of (jsonDumpsF g) vs
                    (fun x hx => (hall x hx).2) with ⟨es, hes⟩
                  exact ⟨'[' :: joinCommaSpace es ++ [']'],
                    by simp only [jsonDumpsF, hes]⟩
        · split at h
          · -- string
            cases hb : parseStrBody '"' jsonEscs false cs.length cs with
            | none => rw [hb] at h; exact Option.noConfusion h
            | some p =>
              rcases p with ⟨b, r2⟩
              rw [hb] at h
              simp only [Option.map] at h
              injection h with h
              rw [Prod.mk.injEq] at h
              rw [← h.1]
              exact ⟨WfV.str _, ⟨_, rfl⟩⟩
          · split at h
            · -- null
              split at h
              · injection h with h
                rw [Prod.mk.injEq] at h
                rw [← h.1]
                exact ⟨WfV.null, ⟨_, rfl⟩⟩
              · exact Option.noConfusion h
            · split at h
              · -- true
                split at h
                · injection h with h
                  rw [Prod.mk.injEq] at h
                  rw [← h.1]
                  exact ⟨WfV.bool true, ⟨_, rfl⟩⟩
                · exact Option.noConfusion h
              · split at h
                · -- false
                  split at h
                  · injection h with h
                    rw [Prod.mk.injEq] at h
                    rw [← h.1]
                    exact ⟨WfV.bool false, ⟨_, rfl⟩⟩
                  · exact Option.noConfusion h
                · split at h
                  · -- negative number
                    split at h
                    · rename_i n r2 hn
                      injection h with h
                      rw [Prod.mk.injEq] at h
                      rw [← h.1]
                      exact ⟨WfV.int _, ⟨_, rfl⟩⟩
                    · rename_i m2 e2 r2 hn
                      injection h with h
                      rw [Prod.mk.injEq] at h
                      rw [← h.1]
                      rcases parseNumTok_canon _ _ _ _ hn with ⟨hc0, hcd⟩
                      exact ⟨WfV.flt _ _ (floatCanon_ofNat m2 e2 hc0 hcd).2,
                        ⟨_, rfl⟩⟩
                    · exact Option.noConfusion h
                  · -- nonnegative number
                    split at h
                    · rename_i n r2 hn
                      injection h with h
                      rw [Prod.mk.injEq] at h
                      rw [← h.1]
                      exact ⟨WfV.int _, ⟨_, rfl⟩⟩
                    · rename_i m2 e2 r2 hn
                      injection h with h
                      rw [Prod.mk.injEq] at h
                      rw [← h.1]
                      rcases parseNumTok_canon _ _ _ _ hn with ⟨hc0, hcd⟩
                      exact ⟨WfV.flt _ _ (floatCanon_ofNat m2 e2 hc0 hcd).1,
                        ⟨_, rfl⟩⟩
                    · exact Option.noConfusion h

theorem dumpsListF_of_forall₂ (dv : Value → Option (List Char)) :
    ∀ (xs : List Value) (es : List (List Char)),
    List.Forall₂ (fun x e => dv x = some e) xs es →
    dumpsListF dv xs = some es := by
  intro xs es h
  induction h with
  | nil => rfl
  | cons hx _ ih => simp only [dumpsListF, hx, ih]

theorem dumpsPairsF_of_forall₂ (dv : Value → Option (List Char)) :
    ∀ (kvs : List (String × Value)) (es : List (List Char)),
    List.Forall₂ (fun p e => ∃ ev, dv p.2 = some ev ∧
      e = ('"' :: escJson p.1.data ++ ['"', ':', ' ']) ++ ev) kvs es →
    dumpsPairsF dv kvs = some es := by
  intro kvs
  induction kvs with
  | nil => intro es h; cases h; rfl
  | cons p kvs' ih =>
    intro es h
    cases h with
    | cons hx htail =>
      rename_i e es'
      rcases hx with ⟨ev, hev, hee⟩
      rcases p with ⟨k, v⟩
      subst hee
      simp only [dumpsPairsF, hev, ih es' htail]

theorem jsonDumpsF_arr (f : Nat) (xs : List Value) :
    jsonDumpsF (f + 1) (.arr xs) =
      match dumpsListF (jsonDumpsF f) xs with
      | some es => some ('[' :: joinCommaSpace es ++ [']'])
      | none => none := rfl

theorem jsonDumpsF_dict (f : Nat) (kvs : List (String × Value)) :
    jsonDumpsF (f + 1) (.dict kvs) =
      match dumpsPairsF (jsonDumpsF f) kvs with
      | some es => some ('\x7b' :: joinCommaSpace es ++ ['\x7d'])
      | none => none := rfl

theorem jsonDumpsF_mono :
    ∀ (f : Nat) (v : Value) (e : List Char), jsonDumpsF f v = some e →
    ∀ f' : Nat, f ≤ f' → jsonDumpsF f' v = some e := by
  intro f
  induction f with
  | zero => intro v e h; exact absurd h (by simp [jsonDumpsF])
  | succ f ih =>
    intro v e h f' hf
    obtain ⟨f2, rfl⟩ : ∃ f2, f' = f2 + 1 := ⟨f' - 1, by omega⟩
    have hf2 : f ≤ f2 := by omega
    cases v with
    | null => exact h
    | bool b => cases b <;> exact h
    | int n => exact h
    | float m e2 => exact h
    | str s => exact h
    | oid t => exact absurd h (by simp [jsonDumpsF])
    | arr xs =>
      rw [jsonDumpsF_arr] at h
      split at h
      · rename_i es hes
        have hfa := dumpsListF_forall (jsonDumpsF f) xs es hes
        have hfa2 : List.Forall₂ (fun x e => jsonDumpsF f2 x = some e) xs es :=
          forall₂_imp_mem hfa (fun a b _ _ hr => ih a b hr f2 hf2)
        rw [jsonDumpsF_arr, dumpsListF_of_forall₂ (jsonDumpsF f2) xs es hfa2]
        exact h
      · exact Option.noConfusion h
    | dict kvs =>
      rw [jsonDumpsF_dict] at h
      split at h
      · rename_i es hes
        have hfa := dumpsPairsF_forall (jsonDumpsF f) kvs es hes
        have hfa2 : List.Forall₂ (fun p e => ∃ ev,
            jsonDumpsF f2 p.2 = some ev ∧
            e = ('"' :: escJson p.1.data ++ ['"', ':', ' ']) ++ ev) kvs es :=
          forall₂_imp_mem hfa (fun a b _ _ hr => by
            rcases hr with ⟨ev, hev, hee⟩
            exact ⟨ev, ih a.2 ev hev f2 hf2, hee⟩)
        rw [jsonDumpsF_dict, dumpsPairsF_of_forall₂ (jsonDumpsF f2) kvs es hfa2]
        exact h
      · exact Option.noConfusion h

theorem jsonDumpsF_len :
    ∀ (f : Nat) (v : Value) (e : List Char), jsonDumpsF f v = some e →
    jsonDumpsF (e.length + 1) v = some e := by
  intro f
  induction f with
  | zero => intro v e h; exact absurd h (by simp [jsonDumpsF])
  | succ f ih =>
    intro v e h
    cases v with
    | null => injection h with h; subst h; rfl
    | bool b => cases b <;> (injection h with h; subst h; rfl)
    | int n => injection h with h; subst h; rfl
    | float m e2 => injection h with h; subst h; rfl
    | str s => injection h with h; subst h; rfl
    | oid t => exact absurd h (by simp [jsonDumpsF])
    | arr xs =>
      rw [jsonDumpsF_arr] at h
      split at h
      · rename_i es hes
        injection h with h
        subst h
        have hfa := dumpsListF_forall (jsonDumpsF f) xs es hes
        have hfa2 : List.Forall₂ (fun x ei =>
            jsonDumpsF ('[' :: joinCommaSpace es ++ [']']).length x = some ei)
            xs es := by
          refine forall₂_imp_mem hfa ?_
          intro a b _ hb hr
          have h1 := ih a b hr
          refine jsonDumpsF_mono _ a b h1 _ ?_
          have h2 := length_le_joinCommaSpace b es hb
          simp only [List.length_cons, List.length_append, List.length_nil]
          omega
        rw [jsonDumpsF_arr, dumpsListF_of_forall₂ _ xs es hfa2]
      · exact Option.noConfusion h
    | dict kvs =>
      rw [jsonDumpsF_dict] at h
      split at h
      · rename_i es hes
        injection h with h
        subst h
        have hfa := dumpsPairsF_forall (jsonDumpsF f) kvs es hes
        have hfa2 : List.Forall₂ (fun p ei => ∃ ev,
            jsonDumpsF ('\x7b' :: joinCommaSpace es ++ ['\x7d']).length p.2 =
              some ev ∧
            ei = ('"' :: escJson p.1.data ++ ['"', ':', ' ']) ++ ev) kvs es := by
          refine forall₂_imp_mem hfa ?_
          intro a b _ hb hr
          rcases hr with ⟨ev, hev, hee⟩
          have h1 := ih a.2 ev hev
          refine ⟨ev, jsonDumpsF_mono _ a.2 ev h1 _ ?_, hee⟩
          have h2 := length_le_joinCommaSpace b es hb
          have h3 : ev.length ≤ b.length := by
            rw [hee]
            simp only [List.length_append]
            omega
          simp only [List.length_cons, List.length_append, List.length_nil]
          omega
        rw [jsonDumpsF_dict, dumpsPairsF_of_forall₂ _ kvs es hfa2]
      · exact Option.noConfusion h

/-! ## Escape transparency

JSON-escapable characters are never word characters, so word runs inside an
escaped string body are exactly word runs of the decoded body; the scanner
therefore acts on encoded string regions exactly as on the decoded text. -/

theorem wordMap_escJson (f : List Char → List Char)
    (hf : ∀ w, wordish w → wordish (f w)) :
    ∀ (n : Nat) (l : List Char), l.length ≤ n →
    wordMap f (escJson l) = escJson (wordMap f l) := by
  intro n
  induction n with
  | zero =>
    intro l hl
    have hnil : l = [] := List.length_eq_zero.mp (Nat.le_zero.mp hl)
    subst hnil
    rfl
  | succ n ih =>
    intro l hl
    cases l with
    | nil => rfl
    | cons c cs =>
      by_cases hcw : isWordChar c = true
      · have hsplit : c :: cs =
            (c :: cs.takeWhile isWordChar) ++ cs.dropWhile isWordChar := by
          rw [List.cons_append, List.takeWhile_append_dropWhile]
        have hw : wordish (c :: cs.takeWhile isWordChar) :=
          ⟨by simp, by simp [List.all_cons, hcw, List.all_takeWhile]⟩
        have hrd : headNW (cs.dropWhile isWordChar) := headNW_dropWhile cs
        have hlen : (cs.dropWhile isWordChar).length ≤ n := by
          have h1 : (cs.dropWhile isWordChar).length ≤ cs.length :=
            (List.dropWhile_sublist _).length_le
          simp only [List.length_cons] at hl
          omega
        rw [hsplit, escJson_append,
          escJson_all_word _ hw.2,
          wordMap_word f _ _ hw (escJson_head_nw _ hrd),
          ih _ hlen,
          wordMap_word f _ _ hw hrd,
          escJson_append,
          escJson_all_word _ (hf _ hw).2]
      · simp only [Bool.not_eq_true] at hcw
        rw [escJson_cons]
        unfold escJsonChar
        by_cases hqb : (decide (c = '"') || decide (c = '\\')) = true
        · rw [if_pos hqb]
          have hbw : isWordChar '\\' = false := by decide
          rw [show ('\\' :: c :: []) ++ escJson cs =
            '\\' :: c :: escJson cs from rfl]
          rw [wordMap_cons_sym f _ _ hbw, wordMap_cons_sym f _ _ hcw,
            ih cs (by simp only [List.length_cons] at hl; omega),
            wordMap_cons_sym f c cs hcw, escJson_cons]
          unfold escJsonChar
          rw [if_pos hqb]
          rfl
        · rw [if_neg hqb]
          rw [show ([c] : List Char) ++ escJson cs = c :: escJson cs from rfl]
          rw [wordMap_cons_sym f _ _ hcw,
            ih cs (by simp only [List.length_cons] at hl; omega),
            wordMap_cons_sym f c cs hcw, escJson_cons]
          unfold escJsonChar
          rw [if_neg hqb]
          rfl

theorem jsonKey_dest (l : List Char) (k : String) (r : List Char)
    (h : jsonKey l = some (k, r)) :
    ∃ wsp : List Char, wsp.all isWsChar = true ∧
      l = wsp ++ '"' :: escJson k.data ++ '"' :: r := by
  unfold jsonKey at h
  split at h
  · exact Option.noConfusion h
  · rename_i c cs hsk
    split at h
    · rename_i hc
      subst hc
      cases hb : parseStrBody '"' jsonEscs false cs.length cs with
      | none => rw [hb] at h; exact Option.noConfusion h
      | some p =>
        rw [hb] at h
        simp only [Option.map] at h
        injection h with h
        rw [Prod.mk.injEq] at h
        have hcs := parseStrBody_json_dest cs.length cs p.1 p.2 hb
        have hl := skipWs_split l
        rw [hsk] at hl
        refine ⟨l.takeWhile isWsChar, all_ws_takeWhile l, ?_⟩
        conv_lhs => rw [hl]
        have hk : k.data = p.1 := by rw [← h.1]
        rw [hcs, ← h.2, hk]
        simp [List.append_assoc]
    · exact Option.noConfusion h

theorem forall₂_of_zip {α β : Type} {R : α → β → Prop} :
    ∀ (xs : List α) (ys : List β), xs.length = ys.length →
    (∀ p ∈ xs.zip ys, R (Prod.fst p) (Prod.snd p)) →
    List.Forall₂ R xs ys := by
  intro xs
  induction xs with
  | nil =>
    intro ys hlen _
    cases ys with
    | nil => exact List.Forall₂.nil
    | cons y ys => simp at hlen
  | cons x xs ih =>
    intro ys hlen hmem
    cases ys with
    | nil => simp at hlen
    | cons y ys =>
      refine List.Forall₂.cons (hmem (x, y) (by simp [List.zip_cons_cons]))
        (ih ys (by simpa using hlen) ?_)
      intro p hp
      exact hmem p (by simp [List.zip_cons_cons]; exact Or.inr hp)

theorem zip_of_forall₂ {α β : Type} {R : α → β → Prop} :
    ∀ {xs : List α} {ys : List β}, List.Forall₂ R xs ys →
    xs.length = ys.length ∧
      ∀ p ∈ xs.zip ys, R (Prod.fst p) (Prod.snd p) := by
  intro xs ys h
  induction h with
  | nil => exact ⟨rfl, by simp⟩
  | cons hR htail ih =>
    refine ⟨by simp [ih.1], ?_⟩
    intro p hp
    rw [List.zip_cons_cons] at hp
    rcases List.mem_cons.mp hp with rfl | hp'
    · exact hR
    · exact ih.2 p hp'

theorem list_eq_of_forall₂_eq {α : Type} :
    ∀ {xs ys : List α}, List.Forall₂ (fun a b => b = a) xs ys → ys = xs := by
  intro xs ys h
  induction h with
  | nil => rfl
  | cons hR _ ih => rw [hR, ih]

theorem forall₂_any_keys {α β : Type} {R : α → β → Prop} :
    ∀ {d : List (String × α)} {e : List (String × β)},
    List.Forall₂ (fun p q => p.1 = q.1 ∧ R p.2 q.2) d e →
    ∀ k : String, d.any (fun p => p.1 = k) = e.any (fun p => p.1 = k) := by
  intro d e h k
  induction h with
  | nil => rfl
  | cons hpq _ ih => simp only [List.any_cons, hpq.1, ih]

theorem forall₂_append_rel {α β : Type} {R : α → β → Prop} :
    ∀ {a : List α} {b : List β} {c : List α} {d : List β},
    List.Forall₂ R a b → List.Forall₂ R c d →
    List.Forall₂ R (a ++ c) (b ++ d) := by
  intro a b c d hab hcd
  induction hab with
  | nil => exact hcd
  | cons h _ ih => exact List.Forall₂.cons h ih

theorem forall₂_map_update {α β : Type} {R : α → β → Prop} :
    ∀ {d : List (String × α)} {e : List (String × β)},
    List.Forall₂ (fun p q => p.1 = q.1 ∧ R p.2 q.2) d e →
    ∀ (k : String) (a : α) (b : β), R a b →
    List.Forall₂ (fun p q => p.1 = q.1 ∧ R p.2 q.2)
      (d.map (fun p => if p.1 = k then (k, a) else p))
      (e.map (fun p => if p.1 = k then (k, b) else p)) := by
  intro d e h
  induction h with
  | nil => intro k a b _; exact List.Forall₂.nil
  | cons hpq htail ih =>
    intro k a b hab
    rename_i p q d' e'
    simp only [List.map_cons]
    refine List.Forall₂.cons ?_ (ih k a b hab)
    by_cases hk : p.1 = k
    · rw [if_pos hk, if_pos (hpq.1 ▸ hk)]
      exact ⟨rfl, hab⟩
    · rw [if_neg hk, if_neg (fun hq => hk (by rw [hpq.1]; exact hq))]
      exact hpq

theorem dictSet_rel {α β : Type} {R : α → β → Prop}
    {d : List (String × α)} {e : List (String × β)}
    (hde : List.Forall₂ (fun p q => p.1 = q.1 ∧ R p.2 q.2) d e)
    (k : String) (a : α) (b : β) (hab : R a b) :
    List.Forall₂ (fun p q => p.1 = q.1 ∧ R p.2 q.2)
      (dictSet d k a) (dictSet e k b) := by
  unfold dictSet
  rw [← forall₂_any_keys hde k]
  by_cases ha : d.any (fun p => p.1 = k) = true
  · rw [if_pos ha, if_pos ha]
    exact forall₂_map_update hde k a b hab
  · rw [if_neg ha, if_neg ha]
    exact forall₂_append_rel hde
      (List.Forall₂.cons ⟨rfl, hab⟩ List.Forall₂.nil)

theorem foldl_dictSet_rel {α β : Type} {R : α → β → Prop} :
    ∀ (ps : List (String × α)) (qs : List (String × β))
      (d : List (String × α)) (e : List (String × β)),
    List.Forall₂ (fun p q => p.1 = q.1 ∧ R p.2 q.2) ps qs →
    List.Forall₂ (fun p q => p.1 = q.1 ∧ R p.2 q.2) d e →
    List.Forall₂ (fun p q => p.1 = q.1 ∧ R p.2 q.2)
      (ps.foldl (fun d p => dictSet d p.1 p.2) d)
      (qs.foldl (fun d p => dictSet d p.1 p.2) e) := by
  intro ps
  induction ps with
  | nil =>
    intro qs d e hpq hde
    cases hpq
    exact hde
  | cons p ps ih =>
    intro qs d e hpq hde
    cases hpq with
    | cons hp htail =>
      rename_i q qs'
      rw [List.foldl_cons, List.foldl_cons]
      have h1 : List.Forall₂ (fun p q => p.1 = q.1 ∧ R p.2 q.2)
          (dictSet d p.1 p.2) (dictSet e q.1 q.2) := by
        rw [← hp.1]
        exact dictSet_rel hde p.1 p.2 q.2 hp.2
      exact ih qs' _ _ htail h1

theorem mkDict_rel {α β : Type} (R : α → β → Prop)
    {ps : List (String × α)} {qs : List (String × β)}
    (h : List.Forall₂ (fun p q => p.1 = q.1 ∧ R p.2 q.2) ps qs) :
    List.Forall₂ (fun p q => p.1 = q.1 ∧ R p.2 q.2)
      (mkDict ps) (mkDict qs) :=
  foldl_dictSet_rel ps qs [] [] h List.Forall₂.nil

theorem simV_eq_of_fixed : ∀ {a b : Value}, SimV a b → FixedV a → b = a := by
  intro a b h
  induction h with
  | null => intro _; rfl
  | bool b => intro _; rfl
  | int n => intro _; rfl
  | flt m e => intro _; rfl
  | str s =>
    intro hf
    cases hf with
    | str _ hfs =>
      rw [show wordMap canonKw s.data = s.data from hfs, string_mk_data]
  | arr xs ys hlen hmem ih =>
    intro hf
    cases hf with
    | arr _ hfx =>
      have hfa : List.Forall₂ (fun u w => w = u) xs ys := by
        refine forall₂_of_zip xs ys hlen ?_
        intro p hp
        rcases List.of_mem_zip hp with ⟨h1, _⟩
        exact ih p hp (hfx _ h1)
      rw [list_eq_of_forall₂_eq hfa]
  | dict ps qs hlen hkeys hvals ih =>
    intro hf
    cases hf with
    | dict _ hfk hfv =>
      have hkeyfix : ∀ q ∈ ps,
          String.mk (wordMap canonKw (Prod.fst q).data) = Prod.fst q := by
        intro q hq
        have hm := mkDict_keys_sub ps q hq
        rcases List.mem_map.mp hm with ⟨q', hq', hqk⟩
        have hfix := hfk q' hq'
        rw [hqk] at hfix
        rw [show wordMap canonKw (Prod.fst q).data = (Prod.fst q).data
          from hfix, string_mk_data]
      have hS : List.Forall₂ (fun p q =>
          p.1 = q.1 ∧ (FixedV p.2 → q.2 = p.2)) ps qs := by
        refine forall₂_of_zip ps qs hlen ?_
        intro p hp
        rcases List.of_mem_zip hp with ⟨h1, _⟩
        exact ⟨((hkeys p hp).trans (hkeyfix p.1 h1)).symm,
          fun hfx => ih p hp hfx⟩
      have hrel := mkDict_rel (fun a b => FixedV a → b = a) hS
      have hfa : List.Forall₂ (fun u w => w = u)
          (mkDict ps) (mkDict qs) := by
        rcases zip_of_forall₂ hrel with ⟨hlen2, hmem2⟩
        refine forall₂_of_zip _ _ hlen2 ?_
        intro p hp
        rcases List.of_mem_zip hp with ⟨h1, _⟩
        rcases hmem2 p hp with ⟨hk, hv⟩
        have hveq := hv (hfv p.1 h1)
        exact Prod.ext hk.symm hveq
      rw [list_eq_of_forall₂_eq hfa]

theorem pyParseV_brace (g : Nat) (X : List Char) :
    pyParseV (g + 1) ('\x7b' :: X) =
      match skipWs X with
      | [] => none
      | d :: ds =>
        if d = '\x7d' then some (.dict [], ds)
        else
          match parsePairsF (pyParseV g) pyKey '\x7d' g (d :: ds) with
          | none => none
          | some (ps, r) => some (.dict (mkDict ps), r) := rfl

theorem pyParseV_brack (g : Nat) (X : List Char) :
    pyParseV (g + 1) ('[' :: X) =
      match skipWs X with
      | [] => none
      | d :: ds =>
        if d = ']' then some (.arr [], ds)
        else
          match parseElemsF (pyParseV g) ']' g (d :: ds) with
          | none => none
          | some (vs, r) => some (.arr vs, r) := rfl

theorem pyParseV_dquote (g : Nat) (X : List Char) :
    pyParseV (g + 1) ('"' :: X) =
      (parseStrBody '"' pyEscs true X.length X).map
        (fun p => (Value.str (String.mk p.1), p.2)) := rfl

theorem pyParseV_minus (g : Nat) (X : List Char) :
    pyParseV (g + 1) ('-' :: X) =
      match parseNumTok X with
      | some (.int n, r) => some (.int (-(n : Int)), r)
      | some (.flt m e, r) => some (.float (-(m : Int)) e, r)
      | none => none := rfl

theorem pyParseV_none_lit (g : Nat) (tail : List Char) :
    pyParseV (g + 1) ('N' :: 'o' :: 'n' :: 'e' :: tail) =
      some (.null, tail) := rfl

theorem pyParseV_true_lit (g : Nat) (tail : List Char) :
    pyParseV (g + 1) ('T' :: 'r' :: 'u' :: 'e' :: tail) =
      some (.bool true, tail) := rfl

theorem pyParseV_false_lit (g : Nat) (tail : List Char) :
    pyParseV (g + 1) ('F' :: 'a' :: 'l' :: 's' :: 'e' :: tail) =
      some (.bool false, tail) := rfl

theorem pyParseV_other_py (g : Nat) (c : Char) (X : List Char)
    (hws : isWsChar c = false) (h1 : ¬c = '\x7b') (h2 : ¬c = '[')
    (h3 : ¬((decide (c = '"') || decide (c = '\x27')) = true))
    (h4 : ¬c = 'N') (h5 : ¬c = 'T') (h6 : ¬c = 'F') (h7 : ¬c = '-')
    (h8 : ¬c = '+') :
    pyParseV (g + 1) (c :: X) =
      match parseNumTok (c :: X) with
      | some (.int n, r) => some (.int ((n : Nat) : Int), r)
      | some (.flt m e, r) => some (.float ((m : Nat) : Int) e, r)
      | none => none := by
  unfold pyParseV
  rw [show skipWs (c :: X) = c :: X from
    dropWhile_head_false isWsChar (c :: X) hws]
  simp only [if_neg h1, if_neg h2, if_neg h3, if_neg h4, if_neg h5, if_neg h6,
    if_neg h7, if_neg h8]

theorem pyKey_run (kd : List Char) (X : List Char) :
    pyKey ('"' :: (escJson kd ++ '"' :: X)) = some (String.mk kd, X) := by
  have h1 : pyKey ('"' :: (escJson kd ++ '"' :: X)) =
      Option.map (fun p => (String.mk p.1, p.2))
        (parseStrBody '"' pyEscs true (escJson kd ++ '"' :: X).length
          (escJson kd ++ '"' :: X)) := rfl
  rw [h1, parseStrBody_run pyEscs true (by decide) (by decide) kd _ X
    (by
      simp only [List.length_append, List.length_cons]
      have := escJson_length_ge kd
      omega)]
  rfl

theorem pyKey_ws (wsp l : List Char) (h : wsp.all isWsChar = true) :
    pyKey (wsp ++ l) = pyKey l := by
  unfold pyKey
  rw [show skipWs (wsp ++ l) = skipWs l from dropWhile_append_sat _ _ _ h]

theorem wordMap_head (c : Char) (cs : List Char) :
    ∃ c' cs', wordMap canonKw (c :: cs) = c' :: cs' ∧
      (isWordChar c = false → c' = c) ∧
      (isWordChar c = true → isWordChar c' = true) := by
  by_cases hw : isWordChar c = true
  · have hsplit : c :: cs =
        (c :: cs.takeWhile isWordChar) ++ cs.dropWhile isWordChar := by
      rw [List.cons_append, List.takeWhile_append_dropWhile]
    have hwW : wordish (c :: cs.takeWhile isWordChar) :=
      ⟨by simp, by simp [List.all_cons, hw, List.all_takeWhile]⟩
    rw [hsplit, wordMap_word canonKw _ _ hwW (headNW_dropWhile cs)]
    have hcw := canonKw_wordish _ hwW
    cases hcc : canonKw (c :: cs.takeWhile isWordChar) with
    | nil => exact absurd hcc hcw.1
    | cons c' rest =>
      refine ⟨c', rest ++ wordMap canonKw (cs.dropWhile isWordChar),
        rfl, ?_, ?_⟩
      · intro hf
        exact (Bool.false_ne_true (hf ▸ hw)).elim
      · intro _
        have hall := hcw.2
        rw [hcc] at hall
        simp only [List.all_cons, Bool.and_eq_true] at hall
        exact hall.1
  · simp only [Bool.not_eq_true] at hw
    rw [wordMap_cons_sym canonKw c cs hw]
    exact ⟨c, wordMap canonKw cs, rfl, fun _ => rfl,
      fun h => absurd h (by simp [hw])⟩

theorem headNW_ws_append (wsp X : List Char) (hw : wsp.all isWsChar = true)
    (hX : headNW X) : headNW (wsp ++ X) := by
  cases wsp with
  | nil => exact hX
  | cons c cs =>
    simp only [List.all_cons, Bool.and_eq_true] at hw
    exact not_word_of_ws c hw.1

theorem headNum_ws_append (wsp X : List Char) (hw : wsp.all isWsChar = true)
    (hX : headNum X) : headNum (wsp ++ X) := by
  cases wsp with
  | nil => exact hX
  | cons c cs =>
    simp only [List.all_cons, Bool.and_eq_true] at hw
    refine ⟨not_word_of_ws c hw.1, ?_⟩
    intro hc
    rw [hc] at hw
    exact absurd hw.1 (by decide)

theorem jsonToPy_sim_elems (g : Nat)
    (IH : ∀ (l : List Char) (v : Value) (r : List Char),
      jsonParseV g l = some (v, r) →
      ∃ (a : List Char) (v' : Value), l = a ++ r ∧ SimV v v' ∧
        ∀ tail : List Char, headNum tail →
          pyParseV g (wordMap canonKw a ++ tail) = some (v', tail)) :
    ∀ (fuel : Nat) (m : List Char) (vs : List Value) (r : List Char),
    parseElemsF (jsonParseV g) ']' fuel m = some (vs, r) →
    ∃ (b : List Char) (vs' : List Value), m = b ++ r ∧ b ≠ [] ∧
      List.Forall₂ SimV vs vs' ∧
      ∀ tail : List Char, headNum tail →
        parseElemsF (pyParseV g) ']' fuel (wordMap canonKw b ++ tail) =
          some (vs', tail) := by
  intro fuel
  induction fuel with
  | zero => intro m vs r h; exact absurd h (by simp [parseElemsF])
  | succ f ih =>
    intro m vs r h
    simp only [parseElemsF] at h
    split at h
    · exact Option.noConfusion h
    · rename_i v r1 hv
      split at h
      · exact Option.noConfusion h
      · rename_i c cs hsk
        rcases IH m v r1 hv with ⟨a1, v1', hma, hsim1, hrun1⟩
        have hr1split : r1 = r1.takeWhile isWsChar ++ c :: cs := by
          have hs := skipWs_split r1
          rw [hsk] at hs
          exact hs
        have hwsall := all_ws_takeWhile r1
        split at h
        · rename_i hc
          subst hc
          injection h with h
          rw [Prod.mk.injEq] at h
          refine ⟨a1 ++ (r1.takeWhile isWsChar ++ [']']), [v1'], ?_,
            by simp, ?_, ?_⟩
          · rw [← h.2, hma]
            conv_lhs => rw [hr1split]
            simp [List.append_assoc]
          · rw [← h.1]
            exact List.Forall₂.cons hsim1 List.Forall₂.nil
          · intro tail htail
            have hnw : (r1.takeWhile isWsChar ++ [']']).all
                (fun x => !isWordChar x) = true := by
              rw [List.all_append]
              rw [all_nw_of_all_ws _ hwsall]
              decide
            have hWm : wordMap canonKw
                (a1 ++ (r1.takeWhile isWsChar ++ [']'])) =
                wordMap canonKw a1 ++ (r1.takeWhile isWsChar ++ [']']) := by
              rw [wordMap_append canonKw _ _
                (headNW_ws_append _ _ hwsall
                  (show headNW [']'] from (by decide : isWordChar ']' = false))),
                wordMap_all_nw canonKw _ hnw]
            rw [hWm]
            have hpv : pyParseV g (wordMap canonKw a1 ++
                (r1.takeWhile isWsChar ++ ']' :: tail)) =
                some (v1', r1.takeWhile isWsChar ++ ']' :: tail) :=
              hrun1 _ (headNum_ws_append _ _ hwsall
                (show headNum (']' :: tail) from ⟨by decide, by decide⟩))
            have hskws : skipWs (r1.takeWhile isWsChar ++ ']' :: tail) =
                ']' :: tail := by
              show List.dropWhile isWsChar _ = _
              rw [dropWhile_append_sat _ _ _ hwsall]
              rfl
            simp only [parseElemsF, List.append_assoc, List.cons_append,
              List.nil_append, hpv, hskws]
            simp
        · split at h
          · rename_i hcne hc
            subst hc
            split at h
            · exact Option.noConfusion h
            · rename_i vs2 r2 hrec
              injection h with h
              rw [Prod.mk.injEq] at h
              rcases ih cs vs2 r2 hrec with ⟨b2, vs2', hcb, hbne, hsim2, hrun2⟩
              refine ⟨a1 ++ (r1.takeWhile isWsChar ++ ',' :: b2),
                v1' :: vs2', ?_, by simp, ?_, ?_⟩
              · rw [← h.2, hma]
                conv_lhs => rw [hr1split, hcb]
                simp [List.append_assoc]
              · rw [← h.1]
                exact List.Forall₂.cons hsim1 hsim2
              · intro tail htail
                have hnw : (r1.takeWhile isWsChar ++ [',']).all
                    (fun x => !isWordChar x) = true := by
                  rw [List.all_append]
                  rw [all_nw_of_all_ws _ hwsall]
                  decide
                have hWm : wordMap canonKw
                    (a1 ++ (r1.takeWhile isWsChar ++ ',' :: b2)) =
                    wordMap canonKw a1 ++ (r1.takeWhile isWsChar ++
                      ',' :: wordMap canonKw b2) := by
                  have hb2 : r1.takeWhile isWsChar ++ ',' :: b2 =
                      (r1.takeWhile isWsChar ++ [',']) ++ b2 := by
                    simp [List.append_assoc]
                  rw [wordMap_append canonKw _ _
                    (headNW_ws_append _ _ hwsall
                      (show headNW (',' :: b2) from
                        (by decide : isWordChar ',' = false))),
                    hb2, wordMap_nw_pre canonKw _ hnw b2]
                  simp [List.append_assoc]
                rw [hWm]
                have hpv : pyParseV g (wordMap canonKw a1 ++
                    (r1.takeWhile isWsChar ++ ',' ::
                      (wordMap canonKw b2 ++ tail))) =
                    some (v1', r1.takeWhile isWsChar ++ ',' ::
                      (wordMap canonKw b2 ++ tail)) :=
                  hrun1 _ (headNum_ws_append _ _ hwsall
                    (show headNum (',' :: (wordMap canonKw b2 ++ tail)) from
                      ⟨by decide, by decide⟩))
                have hskws : skipWs (r1.takeWhile isWsChar ++ ',' ::
                    (wordMap canonKw b2 ++ tail)) =
                    ',' :: (wordMap canonKw b2 ++ tail) := by
                  show List.dropWhile isWsChar _ = _
                  rw [dropWhile_append_sat _ _ _ hwsall]
                  rfl
                have hrec2 := hrun2 tail htail
                simp only [parseElemsF, List.append_assoc, List.cons_append,
                  List.nil_append, hpv, hskws]
                simp only [if_neg (by decide : ¬(',' = ']')), if_pos rfl]
                simp [hrec2]
          · exact Option.noConfusion h

theorem wordMap_key_region (kd Z : List Char) :
    wordMap canonKw ('"' :: (escJson kd ++ '"' :: Z)) =
      '"' :: (escJson (wordMap canonKw kd) ++ '"' :: wordMap canonKw Z) := by
  rw [wordMap_cons_sym canonKw '"' _ (by decide),
    wordMap_append canonKw _ _
      (show headNW ('"' :: Z) from (by decide : isWordChar '"' = false)),
    wordMap_escJson canonKw canonKw_wordish kd.length kd le_rfl,
    wordMap_cons_sym canonKw '"' Z (by decide)]

theorem jsonToPy_sim_pairs (g : Nat)
    (IH : ∀ (l : List Char) (v : Value) (r : List Char),
      jsonParseV g l = some (v, r) →
      ∃ (a : List Char) (v' : Value), l = a ++ r ∧ SimV v v' ∧
        ∀ tail : List Char, headNum tail →
          pyParseV g (wordMap canonKw a ++ tail) = some (v', tail)) :
    ∀ (fuel : Nat) (m : List Char) (ps : List (String × Value))
      (r : List Char),
    parsePairsF (jsonParseV g) jsonKey '\x7d' fuel m = some (ps, r) →
    ∃ (b : List Char) (qs : List (String × Value)), m = b ++ r ∧ b ≠ [] ∧
      List.Forall₂ (fun p q =>
        Prod.fst q = String.mk (wordMap canonKw (Prod.fst p).data) ∧
        SimV p.2 q.2) ps qs ∧
      ∀ tail : List Char, headNum tail →
        parsePairsF (pyParseV g) pyKey '\x7d' fuel
          (wordMap canonKw b ++ tail) = some (qs, tail) := by
  intro fuel
  induction fuel with
  | zero => intro m ps r h; exact absurd h (by simp [parsePairsF])
  | succ f ih =>
    intro m ps r h
    simp only [parsePairsF] at h
    split at h
    · exact Option.noConfusion h
    · rename_i k r1 hk
      split at h
      · rename_i r2 hskr1
        rcases jsonKey_dest m k r1 hk with ⟨wspk, hwspk, hmk⟩
        have hr1split : r1 = r1.takeWhile isWsChar ++ ':' :: r2 := by
          have hs := skipWs_split r1
          rw [hskr1] at hs
          exact hs
        have hws3 := all_ws_takeWhile r1
        split at h
        · exact Option.noConfusion h
        · rename_i v r3 hv
          rcases IH r2 v r3 hv with ⟨a2, v', hra, hsim1, hrun1⟩
          split at h
          · exact Option.noConfusion h
          · rename_i c cs hskr3
            have hr3split : r3 = r3.takeWhile isWsChar ++ c :: cs := by
              have hs := skipWs_split r3
              rw [hskr3] at hs
              exact hs
            have hws4 := all_ws_takeWhile r3
            split at h
            · rename_i hc
              subst hc
              injection h with h
              rw [Prod.mk.injEq] at h
              refine ⟨wspk ++ ('"' :: (escJson k.data ++ '"' ::
                (r1.takeWhile isWsChar ++ ':' ::
                  (a2 ++ (r3.takeWhile isWsChar ++ ['\x7d']))))),
                [(String.mk (wordMap canonKw k.data), v')], ?_, by simp,
                ?_, ?_⟩
              · rw [← h.2, hmk]
                conv_lhs => rw [hr1split]
                conv_lhs => rw [hra]
                conv_lhs => rw [hr3split]
                simp [List.append_assoc]
              · rw [← h.1]
                exact List.Forall₂.cons ⟨rfl, hsim1⟩ List.Forall₂.nil
              · intro tail htail
                have hZ := wordMap_key_region k.data
                  (r1.takeWhile isWsChar ++ ':' ::
                    (a2 ++ (r3.takeWhile isWsChar ++ ['\x7d'])))
                have hWall : wordMap canonKw (wspk ++ ('"' ::
                    (escJson k.data ++ '"' ::
                    (r1.takeWhile isWsChar ++ ':' ::
                      (a2 ++ (r3.takeWhile isWsChar ++ ['\x7d'])))))) =
                    wspk ++ ('"' :: (escJson (wordMap canonKw k.data) ++
                      '"' :: wordMap canonKw
                        (r1.takeWhile isWsChar ++ ':' ::
                          (a2 ++ (r3.takeWhile isWsChar ++ ['\x7d']))))) := by
                  rw [wordMap_nw_pre canonKw wspk
                    (all_nw_of_all_ws _ hwspk), hZ]
                have hcol : (r1.takeWhile isWsChar ++ [':']).all
                    (fun x => !isWordChar x) = true := by
                  rw [List.all_append]
                  rw [all_nw_of_all_ws _ hws3]
                  decide
                have hbrc : (r3.takeWhile isWsChar ++ ['\x7d']).all
                    (fun x => !isWordChar x) = true := by
                  rw [List.all_append]
                  rw [all_nw_of_all_ws _ hws4]
                  decide
                have hWZ : wordMap canonKw (r1.takeWhile isWsChar ++ ':' ::
                    (a2 ++ (r3.takeWhile isWsChar ++ ['\x7d']))) =
                    r1.takeWhile isWsChar ++ ':' :: (wordMap canonKw a2 ++
                      (r3.takeWhile isWsChar ++ ['\x7d'])) := by
                  have hshape : r1.takeWhile isWsChar ++ ':' ::
                      (a2 ++ (r3.takeWhile isWsChar ++ ['\x7d'])) =
                      (r1.takeWhile isWsChar ++ [':']) ++
                        (a2 ++ (r3.takeWhile isWsChar ++ ['\x7d'])) := by
                    simp [List.append_assoc]
                  rw [hshape, wordMap_nw_pre canonKw _ hcol,
                    wordMap_append canonKw _ _
                      (headNW_ws_append _ _ hws4
                        (show headNW ['\x7d'] from
                          (by decide : isWordChar '\x7d' = false))),
                    wordMap_all_nw canonKw _ hbrc]
                  simp [List.append_assoc]
                rw [hWall, hWZ]
                have hkeyrun : pyKey (wspk ++ ('"' ::
                    (escJson (wordMap canonKw k.data) ++ '"' ::
                    (r1.takeWhile isWsChar ++ ':' ::
                      (wordMap canonKw a2 ++ (r3.takeWhile isWsChar ++
                        ['\x7d'])) ++ tail)))) =
                    some (String.mk (wordMap canonKw k.data),
                      r1.takeWhile isWsChar ++ ':' ::
                      (wordMap canonKw a2 ++ (r3.takeWhile isWsChar ++
                        ['\x7d'])) ++ tail) := by
                  rw [pyKey_ws wspk _ hwspk]
                  exact pyKey_run (wordMap canonKw k.data) _
                have hpv : pyParseV g (wordMap canonKw a2 ++
                    (r3.takeWhile isWsChar ++ '\x7d' :: tail)) =
                    some (v', r3.takeWhile isWsChar ++ '\x7d' :: tail) :=
                  hrun1 _ (headNum_ws_append _ _ hws4
                    (show headNum ('\x7d' :: tail) from
                      ⟨by decide, by decide⟩))
                have hskws1 : skipWs (r1.takeWhile isWsChar ++ ':' ::
                    (wordMap canonKw a2 ++
                      (r3.takeWhile isWsChar ++ '\x7d' :: tail))) =
                    ':' :: (wordMap canonKw a2 ++
                      (r3.takeWhile isWsChar ++ '\x7d' :: tail)) := by
                  show List.dropWhile isWsChar _ = _
                  rw [dropWhile_append_sat _ _ _ hws3]
                  rfl
                have hskws2 : skipWs (r3.takeWhile isWsChar ++
                    '\x7d' :: tail) = '\x7d' :: tail := by
                  show List.dropWhile isWsChar _ = _
                  rw [dropWhile_append_sat _ _ _ hws4]
                  rfl
                simp only [parsePairsF, List.append_assoc, List.cons_append,
                  List.nil_append] at hkeyrun ⊢
                simp only [hkeyrun, hskws1, hpv, hskws2]
                simp
            · split at h
              · rename_i hcne hc
                subst hc
                split at h
                · exact Option.noConfusion h
                · rename_i ps2 r4 hrec
                  injection h with h
                  rw [Prod.mk.injEq] at h
                  rcases ih cs ps2 r4 hrec with
                    ⟨b2, qs2, hcb, hbne, hsim2, hrun2⟩
                  refine ⟨wspk ++ ('"' :: (escJson k.data ++ '"' ::
                    (r1.takeWhile isWsChar ++ ':' ::
                      (a2 ++ (r3.takeWhile isWsChar ++ ',' :: b2))))),
                    (String.mk (wordMap canonKw k.data), v') :: qs2, ?_,
                    by simp, ?_, ?_⟩
                  · rw [← h.2, hmk]
                    conv_lhs => rw [hr1split]
                    conv_lhs => rw [hra]
                    conv_lhs => rw [hr3split]
                    conv_lhs => rw [hcb]
                    simp [List.append_assoc]
                  · rw [← h.1]
                    exact List.Forall₂.cons ⟨rfl, hsim1⟩ hsim2
                  · intro tail htail
                    have hZ := wordMap_key_region k.data
                      (r1.takeWhile isWsChar ++ ':' ::
                        (a2 ++ (r3.takeWhile isWsChar ++ ',' :: b2)))
                    have hWall : wordMap canonKw (wspk ++ ('"' ::
                        (escJson k.data ++ '"' ::
                        (r1.takeWhile isWsChar ++ ':' ::
                          (a2 ++ (r3.takeWhile isWsChar ++ ',' :: b2)))))) =
                        wspk ++ ('"' :: (escJson (wordMap canonKw k.data) ++
                          '"' :: wordMap canonKw
                            (r1.takeWhile isWsChar ++ ':' ::
                              (a2 ++ (r3.takeWhile isWsChar ++
                                ',' :: b2))))) := by
                      rw [wordMap_nw_pre canonKw wspk
                        (all_nw_of_all_ws _ hwspk), hZ]
                    have hcol : (r1.takeWhile isWsChar ++ [':']).all
                        (fun x => !isWordChar x) = true := by
                      rw [List.all_append]
                      rw [all_nw_of_all_ws _ hws3]
                      decide
                    have hcom : (r3.takeWhile isWsChar ++ [',']).all
                        (fun x => !isWordChar x) = true := by
                      rw [List.all_append]
                      rw [all_nw_of_all_ws _ hws4]
                      decide
                    have hW4 : wordMap canonKw
                        (r3.takeWhile isWsChar ++ ',' :: b2) =
                        r3.takeWhile isWsChar ++ ',' ::
                          wordMap canonKw b2 := by
                      have hs2 : r3.takeWhile isWsChar ++ ',' :: b2 =
                          (r3.takeWhile isWsChar ++ [',']) ++ b2 := by
                        simp [List.append_assoc]
                      rw [hs2, wordMap_nw_pre canonKw _ hcom]
                      simp [List.append_assoc]
                    have hWZ : wordMap canonKw
                        (r1.takeWhile isWsChar ++ ':' ::
                          (a2 ++ (r3.takeWhile isWsChar ++ ',' :: b2))) =
                        r1.takeWhile isWsChar ++ ':' ::
                          (wordMap canonKw a2 ++ (r3.takeWhile isWsChar ++
                            ',' :: wordMap canonKw b2)) := by
                      have hshape : r1.takeWhile isWsChar ++ ':' ::
                          (a2 ++ (r3.takeWhile isWsChar ++ ',' :: b2)) =
                          (r1.takeWhile isWsChar ++ [':']) ++
                            (a2 ++ (r3.takeWhile isWsChar ++ ',' ::
                              b2)) := by
                        simp [List.append_assoc]
                      rw [hshape, wordMap_nw_pre canonKw _ hcol,
                        wordMap_append canonKw a2
                          (r3.takeWhile isWsChar ++ ',' :: b2)
                          (headNW_ws_append _ _ hws4
                            (show headNW (',' :: b2) from
                              (by decide : isWordChar ',' = false))),
                        hW4]
                      simp [List.append_assoc]
                    rw [hWall, hWZ]
                    have hkeyrun : pyKey (wspk ++ ('"' ::
                        (escJson (wordMap canonKw k.data) ++ '"' ::
                        (r1.takeWhile isWsChar ++ ':' ::
                          (wordMap canonKw a2 ++ (r3.takeWhile isWsChar ++
                            ',' :: wordMap canonKw b2)) ++ tail)))) =
                        some (String.mk (wordMap canonKw k.data),
                          r1.takeWhile isWsChar ++ ':' ::
                          (wordMap canonKw a2 ++ (r3.takeWhile isWsChar ++
                            ',' :: wordMap canonKw b2)) ++ tail) := by
                      rw [pyKey_ws wspk _ hwspk]
                      exact pyKey_run (wordMap canonKw k.data) _
                    have hpv : pyParseV g (wordMap canonKw a2 ++
                        (r3.takeWhile isWsChar ++ ',' ::
                          (wordMap canonKw b2 ++ tail))) =
                        some (v', r3.takeWhile isWsChar ++ ',' ::
                          (wordMap canonKw b2 ++ tail)) :=
                      hrun1 _ (headNum_ws_append _ _ hws4
                        (show headNum (',' :: (wordMap canonKw b2 ++ tail))
                          from ⟨by decide, by decide⟩))
                    have hskws1 : skipWs (r1.takeWhile isWsChar ++ ':' ::
                        (wordMap canonKw a2 ++ (r3.takeWhile isWsChar ++
                          ',' :: (wordMap canonKw b2 ++ tail)))) =
                        ':' :: (wordMap canonKw a2 ++
                          (r3.takeWhile isWsChar ++ ',' ::
                            (wordMap canonKw b2 ++ tail))) := by
                      show List.dropWhile isWsChar _ = _
                      rw [dropWhile_append_sat _ _ _ hws3]
                      rfl
                    have hskws2 : skipWs (r3.takeWhile isWsChar ++ ',' ::
                        (wordMap canonKw b2 ++ tail)) =
                        ',' :: (wordMap canonKw b2 ++ tail) := by
                      show List.dropWhile isWsChar _ = _
                      rw [dropWhile_append_sat _ _ _ hws4]
                      rfl
                    have hrec2 := hrun2 tail htail
                    simp only [parsePairsF, List.append_assoc,
                      List.cons_append, List.nil_append] at hkeyrun ⊢
                    simp only [hkeyrun, hskws1, hpv, hskws2]
                    simp only [if_neg (by decide : ¬(',' = '\x7d')),
                      if_pos rfl]
                    simp [hrec2]
              · exact Option.noConfusion h
      · exact Option.noConfusion h

theorem skipWs_head (X : List Char) (d : Char) (ds : List Char)
    (h : skipWs X = d :: ds) : isWsChar d = false := by
  induction X with
  | nil => exact absurd h (by simp [skipWs])
  | cons a as ih =>
    by_cases ha : isWsChar a = true
    · refine ih ?_
      rw [← h]
      show skipWs as = skipWs (a :: as)
      simp [skipWs, List.dropWhile_cons, ha]
    · have hsk : skipWs (a :: as) = a :: as := by
        simp only [Bool.not_eq_true] at ha
        simp [skipWs, List.dropWhile_cons, ha]
      rw [hsk] at h
      injection h with h1 _
      rw [← h1]
      simp only [Bool.not_eq_true] at ha
      exact ha

theorem jsonToPy_sim :
    ∀ (g : Nat) (l : List Char) (v : Value) (r : List Char),
    jsonParseV g l = some (v, r) →
    ∃ (a : List Char) (v' : Value), l = a ++ r ∧ SimV v v' ∧
      ∀ tail : List Char, headNum tail →
        pyParseV g (wordMap canonKw a ++ tail) = some (v', tail) := by
  intro g
  induction g with
  | zero => intro l v r h; exact absurd h (by simp [jsonParseV])
  | succ g ih =>
    intro l v r h
    have hlsplit := skipWs_split l
    have hwsp := all_ws_takeWhile l
    simp only [jsonParseV] at h
    split at h
    · exact Option.noConfusion h
    · rename_i c cs hsk
      rw [hsk] at hlsplit
      split at h
      · -- object
        rename_i hc
        subst hc
        have hcssplit := skipWs_split cs
        have hws2 := all_ws_takeWhile cs
        split at h
        · exact Option.noConfusion h
        · rename_i d ds hsk2
          rw [hsk2] at hcssplit
          have hdnws := skipWs_head cs d ds hsk2
          split at h
          · rename_i hd
            subst hd
            injection h with h
            rw [Prod.mk.injEq] at h
            refine ⟨l.takeWhile isWsChar ++ '\x7b' ::
              (cs.takeWhile isWsChar ++ ['\x7d']), .dict [], ?_, ?_, ?_⟩
            · rw [← h.2]
              conv_lhs => rw [hlsplit]
              conv_lhs => rw [hcssplit]
              simp [List.append_assoc]
            · rw [← h.1]
              exact SimV.dict [] [] rfl (by simp) (by simp)
            · intro tail htail
              have hnwA : (l.takeWhile isWsChar ++ '\x7b' ::
                  (cs.takeWhile isWsChar ++ ['\x7d'])).all
                  (fun x => !isWordChar x) = true := by
                rw [List.all_append, all_nw_of_all_ws _ hwsp]
                rw [List.all_cons]
                rw [List.all_append, all_nw_of_all_ws _ hws2]
                decide
              rw [wordMap_all_nw canonKw _ hnwA]
              have hpw := pyParseV_ws (g + 1) (l.takeWhile isWsChar)
                ('\x7b' :: (cs.takeWhile isWsChar ++ '\x7d' :: tail)) hwsp
              have hskin : skipWs (cs.takeWhile isWsChar ++
                  '\x7d' :: tail) = '\x7d' :: tail := by
                show List.dropWhile isWsChar _ = _
                rw [dropWhile_append_sat _ _ _ hws2]
                rfl
              have hbr : pyParseV (g + 1) ('\x7b' ::
                  (cs.takeWhile isWsChar ++ '\x7d' :: tail)) =
                  some (.dict [], tail) := by
                rw [pyParseV_brace, hskin]
                rfl
              show pyParseV (g + 1) _ = _
              simp only [List.append_assoc, List.cons_append,
                List.nil_append] at hpw ⊢
              rw [hpw, hbr]
          · rename_i hdne
            split at h
            · exact Option.noConfusion h
            · rename_i ps r2 hp
              injection h with h
              rw [Prod.mk.injEq] at h
              rcases jsonToPy_sim_pairs g ih g (d :: ds) ps r2 hp with
                ⟨b, qs, hdb, hbne, hsimF, hrunF⟩
              rcases zip_of_forall₂ hsimF with ⟨hlen, hmem⟩
              refine ⟨l.takeWhile isWsChar ++ '\x7b' ::
                (cs.takeWhile isWsChar ++ b), .dict (mkDict qs), ?_, ?_, ?_⟩
              · rw [← h.2]
                conv_lhs => rw [hlsplit]
                conv_lhs => rw [hcssplit]
                conv_lhs => rw [hdb]
                simp [List.append_assoc]
              · rw [← h.1]
                exact SimV.dict ps qs hlen
                  (fun p hp' => (hmem p hp').1)
                  (fun p hp' => (hmem p hp').2)
              · intro tail htail
                cases b with
                | nil => exact absurd rfl hbne
                | cons b0 bt =>
                  have hb0 : b0 = d := by
                    have := hdb
                    rw [List.cons_append] at this
                    injection this with h1 _
                    exact h1.symm
                  subst hb0
                  rcases wordMap_head b0 bt with ⟨c', rest', hWb, hsym, hword⟩
                  have hc'nws : isWsChar c' = false := by
                    by_cases hw : isWordChar b0 = true
                    · exact not_ws_of_word c' (hword hw)
                    · simp only [Bool.not_eq_true] at hw
                      rw [hsym hw]
                      exact hdnws
                  have hc'ne : ¬c' = '\x7d' := by
                    by_cases hw : isWordChar b0 = true
                    · intro hcc
                      have := hword hw
                      rw [hcc] at this
                      exact absurd this (by decide)
                    · simp only [Bool.not_eq_true] at hw
                      rw [hsym hw]
                      exact hdne
                  have hWA : wordMap canonKw (l.takeWhile isWsChar ++
                      '\x7b' :: (cs.takeWhile isWsChar ++ (b0 :: bt))) =
                      l.takeWhile isWsChar ++ '\x7b' ::
                        (cs.takeWhile isWsChar ++
                          wordMap canonKw (b0 :: bt)) := by
                    have hnwP : (l.takeWhile isWsChar ++ '\x7b' ::
                        cs.takeWhile isWsChar).all
                        (fun x => !isWordChar x) = true := by
                      rw [List.all_append, all_nw_of_all_ws _ hwsp]
                      rw [List.all_cons]
                      rw [all_nw_of_all_ws _ hws2]
                      decide
                    have hshape : l.takeWhile isWsChar ++ '\x7b' ::
                        (cs.takeWhile isWsChar ++ (b0 :: bt)) =
                        (l.takeWhile isWsChar ++ '\x7b' ::
                          cs.takeWhile isWsChar) ++ (b0 :: bt) := by
                      simp [List.append_assoc]
                    rw [hshape, wordMap_nw_pre canonKw _ hnwP]
                    simp [List.append_assoc]
                  rw [hWA]
                  have hpw := pyParseV_ws (g + 1) (l.takeWhile isWsChar)
                    ('\x7b' :: (cs.takeWhile isWsChar ++
                      (wordMap canonKw (b0 :: bt) ++ tail))) hwsp
                  have hskin : skipWs (cs.takeWhile isWsChar ++
                      (wordMap canonKw (b0 :: bt) ++ tail)) =
                      c' :: (rest' ++ tail) := by
                    show List.dropWhile isWsChar _ = _
                    rw [dropWhile_append_sat _ _ _ hws2, hWb]
                    show List.dropWhile isWsChar (c' :: (rest' ++ tail)) = _
                    rw [dropWhile_head_false isWsChar _ hc'nws]
                  have hrun := hrunF tail htail
                  rw [hWb] at hrun
                  have hshape2 : (c' :: rest') ++ tail =
                      c' :: (rest' ++ tail) := rfl
                  rw [hshape2] at hrun
                  have hbr : pyParseV (g + 1) ('\x7b' ::
                      (cs.takeWhile isWsChar ++
                        (wordMap canonKw (b0 :: bt) ++ tail))) =
                      some (.dict (mkDict qs), tail) := by
                    rw [pyParseV_brace, hskin]
                    simp only [if_neg hc'ne, hrun]
                  show pyParseV (g + 1) _ = _
                  simp only [List.append_assoc, List.cons_append,
                    List.nil_append] at hpw hbr ⊢
                  rw [hpw, hbr]
      · split at h
        · -- array
          rename_i hc
          subst hc
          have hcssplit := skipWs_split cs
          have hws2 := all_ws_takeWhile cs
          split at h
          · exact Option.noConfusion h
          · rename_i d ds hsk2
            rw [hsk2] at hcssplit
            have hdnws := skipWs_head cs d ds hsk2
            split at h
            · rename_i hd
              subst hd
              injection h with h
              rw [Prod.mk.injEq] at h
              refine ⟨l.takeWhile isWsChar ++ '[' ::
                (cs.takeWhile isWsChar ++ [']']), .arr [], ?_, ?_, ?_⟩
              · rw [← h.2]
                conv_lhs => rw [hlsplit]
                conv_lhs => rw [hcssplit]
                simp [List.append_assoc]
              · rw [← h.1]
                exact SimV.arr [] [] rfl (by simp)
              · intro tail htail
                have hnwA : (l.takeWhile isWsChar ++ '[' ::
                    (cs.takeWhile isWsChar ++ [']'])).all
                    (fun x => !isWordChar x) = true := by
                  rw [List.all_append, all_nw_of_all_ws _ hwsp]
                  rw [List.all_cons]
                  rw [List.all_append, all_nw_of_all_ws _ hws2]
                  decide
                rw [wordMap_all_nw canonKw _ hnwA]
                have hpw := pyParseV_ws (g + 1) (l.takeWhile isWsChar)
                  ('[' :: (cs.takeWhile isWsChar ++ ']' :: tail)) hwsp
                have hskin : skipWs (cs.takeWhile isWsChar ++
                    ']' :: tail) = ']' :: tail := by
                  show List.dropWhile isWsChar _ = _
                  rw [dropWhile_append_sat _ _ _ hws2]
                  rfl
                have hbr : pyParseV (g + 1) ('[' ::
                    (cs.takeWhile isWsChar ++ ']' :: tail)) =
                    some (.arr [], tail) := by
                  rw [pyParseV_brack, hskin]
                  rfl
                show pyParseV (g + 1) _ = _
                simp only [List.append_assoc, List.cons_append,
                  List.nil_append] at hpw ⊢
                rw [hpw, hbr]
            · rename_i hdne
              split at h
              · exact Option.noConfusion h
              · rename_i vs r2 hp
                injection h with h
                rw [Prod.mk.injEq] at h
                rcases jsonToPy_sim_elems g ih g (d :: ds) vs r2 hp with
                  ⟨b, vs', hdb, hbne, hsimF, hrunF⟩
                refine ⟨l.takeWhile isWsChar ++ '[' ::
                  (cs.takeWhile isWsChar ++ b), .arr vs', ?_, ?_, ?_⟩
                · rw [← h.2]
                  conv_lhs => rw [hlsplit]
                  conv_lhs => rw [hcssplit]
                  conv_lhs => rw [hdb]
                  simp [List.append_assoc]
                · rw [← h.1]
                  rcases zip_of_forall₂ hsimF with ⟨hlen, hmem⟩
                  exact SimV.arr vs vs' hlen (fun p hp' => hmem p hp')
                · intro tail htail
                  cases b with
                  | nil => exact absurd rfl hbne
                  | cons b0 bt =>
                    have hb0 : b0 = d := by
                      have := hdb
                      rw [List.cons_append] at this
                      injection this with h1 _
                      exact h1.symm
                    subst hb0
                    rcases wordMap_head b0 bt with
                      ⟨c', rest', hWb, hsym, hword⟩
                    have hc'nws : isWsChar c' = false := by
                      by_cases hw : isWordChar b0 = true
                      · exact not_ws_of_word c' (hword hw)
                      · simp only [Bool.not_eq_true] at hw
                        rw [hsym hw]
                        exact hdnws
                    have hc'ne : ¬c' = ']' := by
                      by_cases hw : isWordChar b0 = true
                      · intro hcc
                        have := hword hw
                        rw [hcc] at this
                        exact absurd this (by decide)
                      · simp only [Bool.not_eq_true] at hw
                        rw [hsym hw]
                        exact hdne
                    have hWA : wordMap canonKw (l.takeWhile isWsChar ++
                        '[' :: (cs.takeWhile isWsChar ++ (b0 :: bt))) =
                        l.takeWhile isWsChar ++ '[' ::
                          (cs.takeWhile isWsChar ++
                            wordMap canonKw (b0 :: bt)) := by
                      have hnwP : (l.takeWhile isWsChar ++ '[' ::
                          cs.takeWhile isWsChar).all
                          (fun x => !isWordChar x) = true := by
                        rw [List.all_append, all_nw_of_all_ws _ hwsp]
                        rw [List.all_cons]
                        rw [all_nw_of_all_ws _ hws2]
                        decide
                      have hshape : l.takeWhile isWsChar ++ '[' ::
                          (cs.takeWhile isWsChar ++ (b0 :: bt)) =
                          (l.takeWhile isWsChar ++ '[' ::
                            cs.takeWhile isWsChar) ++ (b0 :: bt) := by
                        simp [List.append_assoc]
                      rw [hshape, wordMap_nw_pre canonKw _ hnwP]
                      simp [List.append_assoc]
                    rw [hWA]
                    have hpw := pyParseV_ws (g + 1) (l.takeWhile isWsChar)
                      ('[' :: (cs.takeWhile isWsChar ++
                        (wordMap canonKw (b0 :: bt) ++ tail))) hwsp
                    have hskin : skipWs (cs.takeWhile isWsChar ++
                        (wordMap canonKw (b0 :: bt) ++ tail)) =
                        c' :: (rest' ++ tail) := by
                      show List.dropWhile isWsChar _ = _
                      rw [dropWhile_append_sat _ _ _ hws2, hWb]
                      show List.dropWhile isWsChar
                        (c' :: (rest' ++ tail)) = _
                      rw [dropWhile_head_false isWsChar _ hc'nws]
                    have hrun := hrunF tail htail
                    rw [hWb] at hrun
                    have hshape2 : (c' :: rest') ++ tail =
                        c' :: (rest' ++ tail) := rfl
                    rw [hshape2] at hrun
                    have hbr : pyParseV (g + 1) ('[' ::
                        (cs.takeWhile isWsChar ++
                          (wordMap canonKw (b0 :: bt) ++ tail))) =
                        some (.arr vs', tail) := by
                      rw [pyParseV_brack, hskin]
                      simp only [if_neg hc'ne, hrun]
                    show pyParseV (g + 1) _ = _
                    simp only [List.append_assoc, List.cons_append,
                      List.nil_append] at hpw hbr ⊢
                    rw [hpw, hbr]
        · split at h
          · -- string
            rename_i hc
            subst hc
            cases hb : parseStrBody '"' jsonEscs false cs.length cs with
            | none => rw [hb] at h; exact Option.noConfusion h
            | some p =>
              rw [hb] at h
              simp only [Option.map] at h
              injection h with h
              rw [Prod.mk.injEq] at h
              have hcs := parseStrBody_json_dest cs.length cs p.1 p.2 hb
              refine ⟨l.takeWhile isWsChar ++ '"' ::
                (escJson p.1 ++ ['"']),
                .str (String.mk (wordMap canonKw p.1)), ?_, ?_, ?_⟩
              · rw [← h.2]
                conv_lhs => rw [hlsplit]
                conv_lhs => rw [hcs]
                simp [List.append_assoc]
              · rw [← h.1]
                exact SimV.str (String.mk p.1)
              · intro tail htail
                have hWA : wordMap canonKw (l.takeWhile isWsChar ++
                    '"' :: (escJson p.1 ++ ['"'])) =
                    l.takeWhile isWsChar ++ '"' ::
                      (escJson (wordMap canonKw p.1) ++ ['"']) := by
                  rw [wordMap_nw_pre canonKw _
                    (all_nw_of_all_ws _ hwsp)]
                  have := wordMap_key_region p.1 []
                  rw [this]
                  rfl
                rw [hWA]
                have hpw := pyParseV_ws (g + 1) (l.takeWhile isWsChar)
                  ('"' :: (escJson (wordMap canonKw p.1) ++ '"' :: tail))
                  hwsp
                have hq := pyParseV_dquote g
                  (escJson (wordMap canonKw p.1) ++ '"' :: tail)
                rw [parseStrBody_run pyEscs true (by decide) (by decide)
                  (wordMap canonKw p.1) _ tail
                  (by
                    simp only [List.length_append, List.length_cons]
                    have := escJson_length_ge (wordMap canonKw p.1)
                    omega)] at hq
                simp only [Option.map] at hq
                show pyParseV (g + 1) _ = _
                simp only [List.append_assoc, List.cons_append,
                  List.nil_append] at hpw hq ⊢
                rw [hpw, hq]
          · split at h
            · -- null literal
              rename_i hc
              subst hc
              split at h
              · rename_i r2
                injection h with h
                rw [Prod.mk.injEq] at h
                refine ⟨l.takeWhile isWsChar ++ ['n', 'u', 'l', 'l'],
                  .null, ?_, ?_, ?_⟩
                · rw [← h.2]
                  conv_lhs => rw [hlsplit]
                  simp [List.append_assoc]
                · rw [← h.1]
                  exact SimV.null
                · intro tail htail
                  have hWA : wordMap canonKw (l.takeWhile isWsChar ++
                      ['n', 'u', 'l', 'l']) =
                      l.takeWhile isWsChar ++ ['N', 'o', 'n', 'e'] := by
                    rw [wordMap_nw_pre canonKw _
                      (all_nw_of_all_ws _ hwsp)]
                    rfl
                  rw [hWA]
                  have hpw := pyParseV_ws (g + 1) (l.takeWhile isWsChar)
                    ('N' :: 'o' :: 'n' :: 'e' :: tail) hwsp
                  show pyParseV (g + 1) _ = _
                  simp only [List.append_assoc, List.cons_append,
                    List.nil_append] at hpw ⊢
                  rw [hpw, pyParseV_none_lit]
              · exact Option.noConfusion h
            · split at h
              · -- true literal
                rename_i hc
                subst hc
                split at h
                · rename_i r2
                  injection h with h
                  rw [Prod.mk.injEq] at h
                  refine ⟨l.takeWhile isWsChar ++ ['t', 'r', 'u', 'e'],
                    .bool true, ?_, ?_, ?_⟩
                  · rw [← h.2]
                    conv_lhs => rw [hlsplit]
                    simp [List.append_assoc]
                  · rw [← h.1]
                    exact SimV.bool true
                  · intro tail htail
                    have hWA : wordMap canonKw (l.takeWhile isWsChar ++
                        ['t', 'r', 'u', 'e']) =
                        l.takeWhile isWsChar ++ ['T', 'r', 'u', 'e'] := by
                      rw [wordMap_nw_pre canonKw _
                        (all_nw_of_all_ws _ hwsp)]
                      rfl
                    rw [hWA]
                    have hpw := pyParseV_ws (g + 1) (l.takeWhile isWsChar)
                      ('T' :: 'r' :: 'u' :: 'e' :: tail) hwsp
                    show pyParseV (g + 1) _ = _
                    simp only [List.append_assoc, List.cons_append,
                      List.nil_append] at hpw ⊢
                    rw [hpw, pyParseV_true_lit]
                · exact Option.noConfusion h
              · split at h
                · -- false literal
                  rename_i hc
                  subst hc
                  split at h
                  · rename_i r2
                    injection h with h
                    rw [Prod.mk.injEq] at h
                    refine ⟨l.takeWhile isWsChar ++
                      ['f', 'a', 'l', 's', 'e'], .bool false, ?_, ?_, ?_⟩
                    · rw [← h.2]
                      conv_lhs => rw [hlsplit]
                      simp [List.append_assoc]
                    · rw [← h.1]
                      exact SimV.bool false
                    · intro tail htail
                      have hWA : wordMap canonKw (l.takeWhile isWsChar ++
                          ['f', 'a', 'l', 's', 'e']) =
                          l.takeWhile isWsChar ++
                            ['F', 'a', 'l', 's', 'e'] := by
                        rw [wordMap_nw_pre canonKw _
                          (all_nw_of_all_ws _ hwsp)]
                        rfl
                      rw [hWA]
                      have hpw := pyParseV_ws (g + 1) (l.takeWhile isWsChar)
                        ('F' :: 'a' :: 'l' :: 's' :: 'e' :: tail) hwsp
                      show pyParseV (g + 1) _ = _
                      simp only [List.append_assoc, List.cons_append,
                        List.nil_append] at hpw ⊢
                      rw [hpw, pyParseV_false_lit]
                  · exact Option.noConfusion h
                · split at h
                  · -- negative number
                    rename_i hc
                    subst hc
                    split at h
                    · rename_i n r2 hpu
                      injection h with h
                      rw [Prod.mk.injEq] at h
                      rcases parseNumTok_dest cs (.int n) r2 hpu with
                        ⟨ds, hds, hdhd, hWds, hre⟩
                      refine ⟨l.takeWhile isWsChar ++ '-' :: ds,
                        .int (-(n : Int)), ?_, ?_, ?_⟩
                      · rw [← h.2]
                        conv_lhs => rw [hlsplit]
                        conv_lhs => rw [hds]
                        simp [List.append_assoc]
                      · rw [← h.1]
                        exact SimV.int _
                      · intro tail htail
                        have hWA : wordMap canonKw
                            (l.takeWhile isWsChar ++ '-' :: ds) =
                            l.takeWhile isWsChar ++ '-' :: ds := by
                          have hshape : l.takeWhile isWsChar ++ '-' :: ds =
                              (l.takeWhile isWsChar ++ ['-']) ++ ds := by
                            simp [List.append_assoc]
                          have hnwP : (l.takeWhile isWsChar ++ ['-']).all
                              (fun x => !isWordChar x) = true := by
                            rw [List.all_append,
                              all_nw_of_all_ws _ hwsp]
                            decide
                          rw [hshape, wordMap_nw_pre canonKw _ hnwP,
                            hWds]
                        rw [hWA]
                        have hpw := pyParseV_ws (g + 1) (l.takeWhile isWsChar)
                          ('-' :: (ds ++ tail)) hwsp
                        have hmn := pyParseV_minus g (ds ++ tail)
                        rw [hre tail htail] at hmn
                        show pyParseV (g + 1) _ = _
                        simp only [List.append_assoc, List.cons_append,
                          List.nil_append] at hpw hmn ⊢
                        rw [hpw, hmn]
                    · rename_i m2 e2 r2 hpu
                      injection h with h
                      rw [Prod.mk.injEq] at h
                      rcases parseNumTok_dest cs (.flt m2 e2) r2 hpu with
                        ⟨ds, hds, hdhd, hWds, hre⟩
                      refine ⟨l.takeWhile isWsChar ++ '-' :: ds,
                        .float (-(m2 : Int)) e2, ?_, ?_, ?_⟩
                      · rw [← h.2]
                        conv_lhs => rw [hlsplit]
                        conv_lhs => rw [hds]
                        simp [List.append_assoc]
                      · rw [← h.1]
                        exact SimV.flt _ _
                      · intro tail htail
                        have hWA : wordMap canonKw
                            (l.takeWhile isWsChar ++ '-' :: ds) =
                            l.takeWhile isWsChar ++ '-' :: ds := by
                          have hshape : l.takeWhile isWsChar ++ '-' :: ds =
                              (l.takeWhile isWsChar ++ ['-']) ++ ds := by
                            simp [List.append_assoc]
                          have hnwP : (l.takeWhile isWsChar ++ ['-']).all
                              (fun x => !isWordChar x) = true := by
                            rw [List.all_append,
                              all_nw_of_all_ws _ hwsp]
                            decide
                          rw [hshape, wordMap_nw_pre canonKw _ hnwP,
                            hWds]
                        rw [hWA]
                        have hpw := pyParseV_ws (g + 1) (l.takeWhile isWsChar)
                          ('-' :: (ds ++ tail)) hwsp
                        have hmn := pyParseV_minus g (ds ++ tail)
                        rw [hre tail htail] at hmn
                        show pyParseV (g + 1) _ = _
                        simp only [List.append_assoc, List.cons_append,
                          List.nil_append] at hpw hmn ⊢
                        rw [hpw, hmn]
                    · exact Option.noConfusion h
                  · -- nonnegative number
                    split at h
                    · rename_i n r2 hpu
                      injection h with h
                      rw [Prod.mk.injEq] at h
                      rcases parseNumTok_dest (c :: cs) (.int n) r2 hpu with
                        ⟨ds, hds, ⟨d0, ds', hcons, hcd⟩, hWds, hre⟩
                      refine ⟨l.takeWhile isWsChar ++ ds,
                        .int ((n : Nat) : Int), ?_, ?_, ?_⟩
                      · rw [← h.2]
                        conv_lhs => rw [hlsplit]
                        conv_lhs => rw [hds]
                        simp [List.append_assoc]
                      · rw [← h.1]
                        exact SimV.int _
                      · intro tail htail
                        have hWA : wordMap canonKw
                            (l.takeWhile isWsChar ++ ds) =
                            l.takeWhile isWsChar ++ ds := by
                          rw [wordMap_nw_pre canonKw _
                            (all_nw_of_all_ws _ hwsp), hWds]
                        rw [hWA]
                        subst hcons
                        have hpw := pyParseV_ws (g + 1) (l.takeWhile isWsChar)
                          (d0 :: (ds' ++ tail)) hwsp
                        have hot := pyParseV_other_py g d0 (ds' ++ tail)
                          (not_ws_of_word d0 (word_of_digit d0 hcd))
                          (by intro hcc; rw [hcc] at hcd; exact absurd hcd (by decide))
                          (by intro hcc; rw [hcc] at hcd; exact absurd hcd (by decide))
                          (by
                            intro hcc
                            rcases Bool.or_eq_true _ _ |>.mp hcc with
                              h1 | h1
                            · rw [decide_eq_true_eq.mp h1] at hcd
                              exact absurd hcd (by decide)
                            · rw [decide_eq_true_eq.mp h1] at hcd
                              exact absurd hcd (by decide))
                          (by intro hcc; rw [hcc] at hcd; exact absurd hcd (by decide))
                          (by intro hcc; rw [hcc] at hcd; exact absurd hcd (by decide))
                          (by intro hcc; rw [hcc] at hcd; exact absurd hcd (by decide))
                          (by intro hcc; rw [hcc] at hcd; exact absurd hcd (by decide))
                          (by intro hcc; rw [hcc] at hcd; exact absurd hcd (by decide))
                        have hpn2 : parseNumTok (d0 :: (ds' ++ tail)) =
                            some (.int n, tail) := by
                          have := hre tail htail
                          simpa using this
                        rw [hpn2] at hot
                        show pyParseV (g + 1) _ = _
                        simp only [List.append_assoc, List.cons_append,
                          List.nil_append] at hpw hot ⊢
                        rw [hpw, hot]
                    · rename_i m2 e2 r2 hpu
                      injection h with h
                      rw [Prod.mk.injEq] at h
                      rcases parseNumTok_dest (c :: cs) (.flt m2 e2) r2 hpu with
                        ⟨ds, hds, ⟨d0, ds', hcons, hcd⟩, hWds, hre⟩
                      refine ⟨l.takeWhile isWsChar ++ ds,
                        .float ((m2 : Nat) : Int) e2, ?_, ?_, ?_⟩
                      · rw [← h.2]
                        conv_lhs => rw [hlsplit]
                        conv_lhs => rw [hds]
                        simp [List.append_assoc]
                      · rw [← h.1]
                        exact SimV.flt _ _
                      · intro tail htail
                        have hWA : wordMap canonKw
                            (l.takeWhile isWsChar ++ ds) =
                            l.takeWhile isWsChar ++ ds := by
                          rw [wordMap_nw_pre canonKw _
                            (all_nw_of_all_ws _ hwsp), hWds]
                        rw [hWA]
                        subst hcons
                        have hpw := pyParseV_ws (g + 1) (l.takeWhile isWsChar)
                          (d0 :: (ds' ++ tail)) hwsp
                        have hot := pyParseV_other_py g d0 (ds' ++ tail)
                          (not_ws_of_word d0 (word_of_digit d0 hcd))
                          (by intro hcc; rw [hcc] at hcd; exact absurd hcd (by decide))
                          (by intro hcc; rw [hcc] at hcd; exact absurd hcd (by decide))
                          (by
                            intro hcc
                            rcases Bool.or_eq_true _ _ |>.mp hcc with
                              h1 | h1
                            · rw [decide_eq_true_eq.mp h1] at hcd
                              exact absurd hcd (by decide)
                            · rw [decide_eq_true_eq.mp h1] at hcd
                              exact absurd hcd (by decide))
                          (by intro hcc; rw [hcc] at hcd; exact absurd hcd (by decide))
                          (by intro hcc; rw [hcc] at hcd; exact absurd hcd (by decide))
                          (by intro hcc; rw [hcc] at hcd; exact absurd hcd (by decide))
                          (by intro hcc; rw [hcc] at hcd; exact absurd hcd (by decide))
                          (by intro hcc; rw [hcc] at hcd; exact absurd hcd (by decide))
                        have hpn2 : parseNumTok (d0 :: (ds' ++ tail)) =
                            some (.flt m2 e2, tail) := by
                          have := hre tail htail
                          simpa using this
                        rw [hpn2] at hot
                        show pyParseV (g + 1) _ = _
                        simp only [List.append_assoc, List.cons_append,
                          List.nil_append] at hpw hot ⊢
                        rw [hpw, hot]
                    · exact Option.noConfusion h

/-! ## Assembling the pipeline -/

theorem fixedChars_pyNormalize (l : List Char) :
    fixedChars (pyNormalizeChars l) := by
  show wordMap canonKw (pyNormalizeChars l) = pyNormalizeChars l
  exact wordMap_eq_self_of_words canonKw (pyNormalizeChars l)
    (words_of_normalized_fixed l)

theorem all_ws_of_skipWs_nil (r : List Char) (h : skipWs r = []) :
    r.all isWsChar = true := by
  rw [List.all_eq_true]
  intro x hx
  have := List.dropWhile_eq_nil_iff.mp h
  exact this x hx

theorem headNW_of_all_ws (r : List Char) (h : r.all isWsChar = true) :
    headNW r := by
  cases r with
  | nil => trivial
  | cons c cs =>
    simp only [List.all_cons, Bool.and_eq_true] at h
    exact not_word_of_ws c h.1

/-- The full literal-parser pipeline succeeds and returns the decoded value
on any strict-JSON text whose decoded value has only normalization-fixed
strings: the keyword normalization maps the text to an equivalent Python
literal, the literal parses to the same value, and the re-encoding decodes
back to it. -/
theorem headNum_of_all_ws (r : List Char) (h : r.all isWsChar = true) :
    headNum r := by
  cases r with
  | nil => trivial
  | cons c cs =>
    simp only [List.all_cons, Bool.and_eq_true] at h
    refine ⟨not_word_of_ws c h.1, ?_⟩
    intro hc
    rw [hc] at h
    exact absurd h.1 (by decide)

theorem pipeline_ok_of_fixed (t : String) (v : Value)
    (h : jsonLoads t = some v) (hf : FixedV v) :
    pythonish_to_json_dict t = .ok v := by
  unfold jsonLoads at h
  split at h
  · rename_i v0 r0 hparse
    split at h
    · rename_i hsk0
      injection h with h
      subst h
      -- whitespace-only remainder
      have hr0ws : r0.all isWsChar = true := all_ws_of_skipWs_nil r0 hsk0
      have hr0nw : headNW r0 := headNW_of_all_ws r0 hr0ws
      -- transport the parse to the literal grammar
      rcases jsonToPy_sim (t.data.length + 1) t.data v0 r0 hparse with
        ⟨a, v', hsplit, hsim, hrun⟩
      have hveq : v' = v0 := simV_eq_of_fixed hsim hf
      -- well-formedness and re-encodability of the decoded value
      rcases jsonParseV_wf_dumps (t.data.length + 1) t.data v0 r0 hparse with
        ⟨hwf, ⟨e, hdump⟩⟩
      -- the normalized text
      have hdata : (pyNormalize t).data = wordMap canonKw t.data := by
        show pyNormalizeChars t.data = wordMap canonKw t.data
        exact pyNormalizeChars_eq_wordMap t.data
      have hlen : (wordMap canonKw t.data).length = t.data.length :=
        wordMap_length canonKw canonKw_length t.data
      have hWsplit : wordMap canonKw t.data = wordMap canonKw a ++ r0 := by
        conv_lhs => rw [hsplit]
        rw [wordMap_append canonKw a r0 hr0nw,
          wordMap_all_nw canonKw r0 (all_nw_of_all_ws r0 hr0ws)]
      have hle : literal_eval (pyNormalize t) = some v0 := by
        unfold literal_eval
        rw [hdata, hlen, hWsplit]
        rw [hrun r0 (headNum_of_all_ws r0 hr0ws), hveq]
        simp [hsk0]
      have hload : jsonLoads (String.mk e) = some v0 := by
        unfold jsonLoads
        have hrt := jsonParseV_dumps (t.data.length + 1) v0 e hdump hwf
          (e.length + 1) [] (by omega) trivial
        rw [List.append_nil] at hrt
        rw [show (String.mk e).data = e from rfl, hrt]
        rfl
      show pythonish_to_json_dict t = .ok v0
      rw [show pythonish_to_json_dict t =
        (match literal_eval (pyNormalize t) with
         | none =>
           Except.error "Error parsing pythonish to json dict: malformed literal"
         | some obj =>
           match jsonDumpsF (t.data.length + 1) obj with
           | none =>
             .error "Error parsing pythonish to json dict: not JSON serializable"
           | some enc =>
             match jsonLoads (String.mk enc) with
             | none =>
               .error "Error parsing pythonish to json dict: JSON decode failure"
             | some v => .ok v) from rfl]
      simp only [hle, hdump, hload]
    · exact Option.noConfusion h
  · exact Option.noConfusion h

/-! ## Claim C1 -/

/-- C1 as stated fails: a reserved token inside a quoted string value is not
left unchanged — the word-boundary regex also fires inside string literals,
so the parsed value of `{'a': 'true'}` carries the canonized string
`"True"`. -/
theorem c1_counterexample :
    pythonish_to_json_dict (String.mk
      ['\x7b', '\x27', 'a', '\x27', ':', ' ', '\x27', 't', 'r', 'u', 'e',
        '\x27', '\x7d']) = .ok (.dict [("a", .str "True")]) := rfl

/-- C1 amended: the reserved tokens are normalized case-insensitively
exactly where they occur as whole words anywhere in the raw text — string
literals included, larger identifiers excluded — i.e. the normalization step
is precisely the word-wise map of `canonKw` over the text's maximal word
runs. -/
theorem c1_whole_word_normalization (t : String) :
    (pyNormalize t).data = wordMap canonKw t.data :=
  pyNormalizeChars_eq_wordMap t.data

/-! ## Claim C2 -/

/-- C2 as stated fails: the JSON text `"null"` decodes directly to the
string `"null"`, but the literal parser normalizes the quoted occurrence and
returns the string `"None"`. -/
theorem c2_counterexample :
    jsonLoads (String.mk ['"', 'n', 'u', 'l', 'l', '"']) =
      some (.str "null") ∧
    pythonish_to_json_dict (String.mk ['"', 'n', 'u', 'l', 'l', '"']) =
      .ok (.str "None") ∧
    Value.str "None" ≠ Value.str "null" := by
  refine ⟨rfl, rfl, ?_⟩
  intro hc
  injection hc with hc
  exact absurd hc (by decide)

/-- C2 amended: for every valid strict-JSON text whose decoded value
contains no string (value or key) that the whole-word keyword normalization
would change, the literal parser agrees with the strict JSON decoder. -/
theorem c2_fixed_roundtrip (t : String) (v : Value)
    (h : jsonLoads t = some v) (hf : FixedV v) :
    pythonish_to_json_dict t = .ok v :=
  pipeline_ok_of_fixed t v h hf

theorem c2_witness :
    pythonish_to_json_dict (String.mk ['1']) = .ok (.int 1) :=
  c2_fixed_roundtrip (String.mk ['1']) (.int 1) rfl (FixedV.int 1)

/-! ## Claim C7 -/

/-- C7: parsing is all-or-nothing — the parser returns an error (and no
partial value) exactly when one of its three stages fails: the normalized
text is not a valid literal, the parsed value is not JSON-serializable, or
the strict-JSON re-validation fails; and `parse "{bad json"` fails with the
wrapped literal error. -/
theorem c7_parse_error :
    (∀ t : String,
      ((∃ m, pythonish_to_json_dict t = .error m) ↔
        (literal_eval (pyNormalize t) = none ∨
         ∃ obj, literal_eval (pyNormalize t) = some obj ∧
           (jsonDumpsF (t.data.length + 1) obj = none ∨
            ∃ enc2, jsonDumpsF (t.data.length + 1) obj = some enc2 ∧
              jsonLoads (String.mk enc2) = none)))) ∧
    pythonish_to_json_dict (String.mk
      ['\x7b', 'b', 'a', 'd', ' ', 'j', 's', 'o', 'n']) =
      .error "Error parsing pythonish to json dict: malformed literal" := by
  constructor
  · intro t
    rw [show pythonish_to_json_dict t =
      (match literal_eval (pyNormalize t) with
       | none =>
         Except.error "Error parsing pythonish to json dict: malformed literal"
       | some obj =>
         match jsonDumpsF (t.data.length + 1) obj with
         | none =>
           .error "Error parsing pythonish to json dict: not JSON serializable"
         | some enc =>
           match jsonLoads (String.mk enc) with
           | none =>
             .error "Error parsing pythonish to json dict: JSON decode failure"
           | some v => .ok v) from rfl]
    constructor
    · rintro ⟨m, hm⟩
      cases hle : literal_eval (pyNormalize t) with
      | none => exact Or.inl rfl
      | some obj =>
        simp only [hle] at hm
        cases hdp : jsonDumpsF (t.data.length + 1) obj with
        | none => exact Or.inr ⟨obj, rfl, Or.inl hdp⟩
        | some enc2 =>
          simp only [hdp] at hm
          cases hjl : jsonLoads (String.mk enc2) with
          | none => exact Or.inr ⟨obj, rfl, Or.inr ⟨enc2, hdp, hjl⟩⟩
          | some v =>
            simp only [hjl] at hm
            exact Except.noConfusion hm
    · intro hcase
      rcases hcase with hle | ⟨obj, hle, hdisj⟩
      · simp only [hle]
        exact ⟨_, rfl⟩
      · rcases hdisj with hdp | ⟨enc2, hdp, hjl⟩
        · simp only [hle, hdp]
          exact ⟨_, rfl⟩
        · simp only [hle, hdp, hjl]
          exact ⟨_, rfl⟩
  · rfl

/-! ## Claim C9 -/

/-- C9 refuted as stated: a `\xHH` escape can hide a keyword spelling from
the whole-word normalization pass, so the first parse returns it verbatim,
but its re-encoding exposes the spelling as a plain word and the second
parse normalizes it. -/
theorem c9_counterexample :
    pythonish_to_json_dict (String.mk
      ['\x7b', '\x27', 'a', '\x27', ':', ' ', '\x27', 't', 'r', 'u', '\\',
        'x', '6', '5', '\x27', '\x7d']) =
      .ok (.dict [("a", .str "true")]) ∧
    encodesTo (.dict [("a", .str "true")])
      (String.mk ['\x7b', '"', 'a', '"', ':', ' ', '"', 't', 'r', 'u', 'e',
        '"', '\x7d']) ∧
    pythonish_to_json_dict
      (String.mk ['\x7b', '"', 'a', '"', ':', ' ', '"', 't', 'r', 'u', 'e',
        '"', '\x7d']) =
      .ok (.dict [("a", .str "True")]) ∧
    Value.dict [("a", Value.str "True")] ≠
      Value.dict [("a", Value.str "true")] := by
  refine ⟨rfl, ⟨2, rfl⟩, rfl, ?_⟩
  intro hc
  injection hc with hc
  injection hc with hp _
  injection hp with _ h2
  injection h2 with h2
  exact absurd h2 (by decide)

/-- C9 amended: re-parsing a strict-JSON re-encoding of a successfully
parsed value yields that same value, provided no string (value or key) of
the parsed value is changed by the whole-word keyword normalization. -/
theorem c9_idempotent (t enc : String) (v : Value)
    (h : pythonish_to_json_dict t = .ok v) (hf : FixedV v)
    (he : encodesTo v enc) :
    pythonish_to_json_dict enc = .ok v := by
  rw [show pythonish_to_json_dict t =
    (match literal_eval (pyNormalize t) with
     | none =>
       Except.error "Error parsing pythonish to json dict: malformed literal"
     | some obj =>
       match jsonDumpsF (t.data.length + 1) obj with
       | none =>
         .error "Error parsing pythonish to json dict: not JSON serializable"
       | some enc =>
         match jsonLoads (String.mk enc) with
         | none =>
           .error "Error parsing pythonish to json dict: JSON decode failure"
         | some v => .ok v) from rfl] at h
  split at h
  · exact Except.noConfusion h
  · rename_i obj hle
    split at h
    · exact Except.noConfusion h
    · rename_i enc2 hdp
      split at h
      · exact Except.noConfusion h
      · rename_i v2 hjl
        injection h with h
        subst h
        unfold jsonLoads at hjl
        split at hjl
        · rename_i v3 r3 hparse
          split at hjl
          · injection hjl with hjl
            subst hjl
            have hwf := (jsonParseV_wf_dumps _ _ _ _ hparse).1
            rcases he with ⟨f0, hf0⟩
            have hrt2 := jsonParseV_dumps f0 v3 enc.data hf0 hwf
              (enc.data.length + 1) [] (by omega) trivial
            rw [List.append_nil] at hrt2
            have hload : jsonLoads enc = some v3 := by
              unfold jsonLoads
              rw [hrt2]
              rfl
            exact pipeline_ok_of_fixed enc v3 hload hf
          · exact Option.noConfusion hjl
        · exact Option.noConfusion hjl

theorem c9_witness :
    pythonish_to_json_dict (String.mk ['1']) = .ok (.int 1) :=
  c9_idempotent (String.mk ['1']) (String.mk ['1']) (.int 1) rfl
    (FixedV.int 1) ⟨2, rfl⟩
